import Mathlib

/-!
# Near matching over FSA dictionaries (keyvi)

A shallow embedding of `keyvi/dictionary/matching/near_matching.h`:
the constructors `FromSingleFsa`, `FromMulipleFsas`, the prefix gate
`FilterWithExactPrefix` and the emission loop `NextMatch`.

Bytes and state ids are natural numbers, strings are lists of bytes.
State id `0` means "no state".
-/

namespace keyvi

/-! ## Strings -/

/-- Errors the standard library raises in the calls the matcher makes. -/
inductive Error where
  | out_of_range
deriving DecidableEq, Repr

/-- The call `s.substr(pos)` of `std::string`: the tail from `pos`, and
`std::out_of_range` when `pos > s.size()`. -/
def substr_from (s : List Nat) (pos : Nat) : Except Error (List Nat) :=
  if pos > s.length then Except.error Error.out_of_range else Except.ok (s.drop pos)

/-- The call `s.substr(0, n)` of `std::string`: the first `n` bytes, or all of
`s` when it is shorter; position `0` is never out of range. -/
def substr_to (s : List Nat) (n : Nat) : List Nat :=
  s.take n

/-! ## The automaton reader -/

/-- Modelled from the spec: the FSA reader of `fsa/automata.h` (data model, section 3),
as a finite transition table. `transitions` lists `(state, label, target)`,
`finals` lists `(state, value handle)`. -/
structure Automata where
  start_state : Nat
  transitions : List (Nat × Nat × Nat)
  finals : List (Nat × Nat)
deriving DecidableEq, Repr

/-- Modelled from the spec: `start_state()` of the FSA reader. -/
def Automata.GetStartState (f : Automata) : Nat :=
  f.start_state

/-- Modelled from the spec: `try_walk(state, byte)` of the FSA reader, the target
state or `0` when there is no such transition. -/
def Automata.TryWalkTransition (f : Automata) (state c : Nat) : Nat :=
  match f.transitions.find? (fun t => t.1 == state && t.2.1 == c) with
  | some t => t.2.2
  | none => 0

/-- Modelled from the spec: `is_final(state)` of the FSA reader. -/
def Automata.IsFinalState (f : Automata) (state : Nat) : Bool :=
  f.finals.any (fun t => t.1 == state)

/-- Modelled from the spec: `state_value(state)` of the FSA reader. -/
def Automata.GetStateValue (f : Automata) (state : Nat) : Nat :=
  match f.finals.find? (fun t => t.1 == state) with
  | some t => t.2
  | none => 0

/-! ## Payload, cursor positions and matches -/

/-- Modelled from the spec: the near variant of the traversal payload (section 3),
the query tail and the length of its prefix matched by the current path. -/
structure TraversalPayload where
  lookup_key : List Nat
  exact_depth : Nat
deriving DecidableEq, Repr

/-- The constructor `TraversalPayload<NearTransition>(near_key)`. -/
def TraversalPayload.new (near_key : List Nat) : TraversalPayload :=
  { lookup_key := near_key, exact_depth := 0 }

/-- What a traverser exposes at the state it currently stands on:
`GetDepth`, `IsFinalState`, `GetStateLabels`, `GetTraversalPayload`, `GetFsa`,
`GetStateValue`. -/
structure Position where
  depth : Nat
  is_final : Bool
  labels : List Nat
  payload : TraversalPayload
  fsa : Automata
  state_value : Nat
deriving DecidableEq, Repr

/-- A traverser is a forward-only cursor: its state is the sequence of positions
it still has to show, the head being the current one. `operator++` drops the
head. An exhausted traverser reports depth `0` and is not final. -/
abbrev Traverser := List Position

/-- The accessor `GetDepth()`. -/
def Traverser.GetDepth : Traverser → Nat
  | [] => 0
  | p :: _ => p.depth

/-- The accessor `IsFinalState()`. -/
def Traverser.IsFinalState : Traverser → Bool
  | [] => false
  | p :: _ => p.is_final

/-- The increment `operator++`. -/
def Traverser.advance : Traverser → Traverser
  | [] => []
  | _ :: rest => rest

/-- Modelled from the spec: the match record of `match.h` (section 3). -/
structure Match where
  start : Nat
  end_ : Nat
  matched_item : List Nat
  score : Nat
  fsa : Option Automata
  state_value : Nat
deriving DecidableEq, Repr

/-- The default constructed `Match()`, the empty sentinel. -/
def Match.empty : Match :=
  { start := 0, end_ := 0, matched_item := [], score := 0, fsa := none, state_value := 0 }

/-- Modelled from the spec: `is_empty` of the match record, true of the sentinel. -/
def Match.IsEmpty (m : Match) : Bool :=
  decide (m = Match.empty)

/-! ## The matcher -/

/-- The fields of `NearMatching`. A null `traverser_ptr_` is `none`. -/
structure NearMatching where
  traverser_ptr_ : Option Traverser
  exact_prefix_ : List Nat
  first_match_ : Match
  greedy_ : Bool
  matched_depth_ : Nat
deriving DecidableEq, Repr

/-- The private default constructor `NearMatching()`. -/
def NearMatching.default : NearMatching :=
  { traverser_ptr_ := none, exact_prefix_ := [], first_match_ := Match.empty,
    greedy_ := false, matched_depth_ := 0 }

/-- The private constructor from a traverser; `matched_depth_` starts at `0`. -/
def NearMatching.new (traverser : Traverser) (first_match : Match)
    ( minimum_exact_prefix : List Nat) (greedy : Bool) : NearMatching :=
  { traverser_ptr_ := some traverser, exact_prefix_ := minimum_exact_prefix,
    first_match_ := first_match, greedy_ := greedy, matched_depth_ := 0 }

/-- The match `NextMatch` builds at a final position. -/
def make_match ( exact_prefix : List Nat) (p : Position) : Match :=
  { start := 0,
    end_ := p.depth + exact_prefix.length,
    matched_item := exact_prefix ++ p.labels.take p.depth,
    score := exact_prefix.length + p.payload.exact_depth,
    fsa := some p.fsa,
    state_value := p.state_value }

/-- The loop of `NextMatch` on a non-null traverser: the returned match, the new
`matched_depth_` and the traverser it leaves behind. -/
def NextMatch_loop ( exact_prefix : List Nat) (greedy : Bool) :
    Nat → Traverser → Match × Nat × Traverser
  | matched_depth, [] => (Match.empty, matched_depth, [])
  | matched_depth, p :: rest =>
    if p.depth > matched_depth then
      if p.is_final then
        (make_match exact_prefix p,
          if !greedy then p.payload.exact_depth else matched_depth,
          rest)
      else
        NextMatch_loop exact_prefix greedy matched_depth rest
    else
      (Match.empty, matched_depth, p :: rest)

/-- The method `NextMatch()`: the match and the matcher after the call. -/
def NextMatch (m : NearMatching) : Match × NearMatching :=
  match m.traverser_ptr_ with
  | none => (Match.empty, m)
  | some t =>
    let r := NextMatch_loop m.exact_prefix_ m.greedy_ m.matched_depth_ t
    (r.1, { m with traverser_ptr_ := some r.2.2, matched_depth_ := r.2.1 })

/-- The method `FirstMatch()`. -/
def FirstMatch (m : NearMatching) : Match :=
  m.first_match_

/-- The range-for loop over a matcher (the iterator of section 4.6): `NextMatch`
is called until it returns the empty match; at most `fuel` matches are taken. -/
def NextMatches : Nat → NearMatching → List Match
  | 0, _ => []
  | fuel + 1, m =>
    let r := NextMatch m
    if r.1.IsEmpty then [] else r.1 :: NextMatches fuel r.2

/-- The number of positions the traverser of a matcher still has to show. -/
def NearMatching.remaining (m : NearMatching) : Nat :=
  match m.traverser_ptr_ with
  | none => 0
  | some t => t.length

/-- All matches of a matcher, in the order the iterator yields them. Every
non-empty `NextMatch` consumes a position, so `remaining + 1` calls reach the
empty match. -/
def AllMatches (m : NearMatching) : List Match :=
  NextMatches (m.remaining + 1) m

/-! ## The traversers the matcher is built on -/

/-- The traverser classes `NearMatching` instantiates, which live in
`fsa/comparable_state_traverser.h` and `fsa/zip_state_traverser.h`:
`comparable fsa start_state payload advance order` stands for
`ComparableStateTraverser<NearStateTraverser>(fsa, start_state, payload, advance, order)`
and `zip` for `ZipStateTraverser<NearStateTraverser>(fsa_start_state_payloads)`. -/
structure Traversers where
  comparable : Automata → Nat → TraversalPayload → Bool → Nat → Traverser
  zip : List (Automata × Nat × TraversalPayload) → Traverser

/-- Modelled from the spec: `outgoing_labels(state)` of the FSA reader, the bytes
with a transition out of `state`, ascending. -/
def Automata.outgoing_labels (f : Automata) (state : Nat) : List Nat :=
  (List.range 256).filter (fun c => f.TryWalkTransition state c != 0)

/-- Modelled from the spec: the payload of the frame entered with byte `c` from a
frame at depth `depth` (near admissibility, section 4.1). `exact_depth` is the
length of the longest prefix of the near key the path matches byte for byte
(section 3), so it grows to `depth + 1` only while the path still follows the
near key; otherwise it is inherited. -/
def near_payload (payload : TraversalPayload) (depth c : Nat) : TraversalPayload :=
  if payload.exact_depth = depth ∧ payload.lookup_key.get? depth = some c then
    { payload with exact_depth := depth + 1 }
  else payload

/-- Modelled from the spec: the order in which the near traverser enters the
children of a frame at depth `depth`, with one departure from the words of
section 4.1, which has the children in ascending byte order throughout. The
expected results of `nearMatching` in `read_only_index_test.cpp` (greedy case:
`u281wu8bmmzq` of the first segment before `u2817uqfyqkg` of the second) put the
byte that continues the near key before a smaller byte in the merged stream,
and the zip traverser can only merge and de-duplicate inner streams that come
in the order it merges by. Hence: the byte that continues the near key first,
when the path still follows the key, then the other bytes ascending. The test
has no single segment in which the two orders differ; what depends on the
order within a segment is stated over `Traverser.ascending`. -/
def near_order (payload : TraversalPayload) (depth : Nat) (labels : List Nat) : List Nat :=
  match payload.lookup_key.get? depth with
  | some c =>
    if payload.exact_depth = depth ∧ c ∈ labels then c :: labels.filter (fun l => l != c)
    else labels
  | none => labels

/-- Modelled from the spec: the inner near traverser of `fsa/state_traverser.h`
(section 4.1), as the sequence of positions it visits below `state`, depth first,
every state before its children, down to `fuel` further levels. `path` is the
label path from the root of the traversal to `state`. -/
def near_traverse (f : Automata) : Nat → Nat → List Nat → TraversalPayload → Traverser
  | 0, _, _, _ => []
  | fuel + 1, state, path, payload =>
    (near_order payload path.length (f.outgoing_labels state)).flatMap (fun c =>
      let target := f.TryWalkTransition state c
      let child := near_payload payload path.length c
      { depth := path.length + 1,
        is_final := f.IsFinalState target,
        labels := path ++ [c],
        payload := child,
        fsa := f,
        state_value := f.GetStateValue target } ::
        near_traverse f fuel target (path ++ [c]) child)

/-- Modelled from the spec: `ComparableStateTraverser<NearStateTraverser>` (section
4.2) built at `start_state`; with `advance` it stands on the first state below
`start_state`, without it on `start_state` itself. The adapter does not alter
the traversal; `order` only matters to a zip traverser. A path of an acyclic
automaton uses every transition at most once, which bounds the depth. -/
def ComparableStateTraverser.new (f : Automata) (start_state : Nat)
    (payload : TraversalPayload) (advance : Bool) (_order : Nat) : Traverser :=
  let below := near_traverse f f.transitions.length start_state [] payload
  if advance then below
  else
    { depth := 0, is_final := f.IsFinalState start_state, labels := [], payload := payload,
      fsa := f, state_value := f.GetStateValue start_state } :: below

/-- Modelled from the spec: what is left of the near key after the byte `a`, for a
path that has followed the key so far: `key` is `none` once the path has left
the near key. -/
def near_next (key : Option (List Nat)) (a : Nat) : Option (List Nat) :=
  match key with
  | some (k :: ks) => if a = k then some ks else none
  | _ => none

/-- Modelled from the spec: the rank of the byte `a` among the children of a frame,
as `near_order` lists them: the byte that continues the near key first, then
the bytes ascending. -/
def near_rank (key : Option (List Nat)) (a : Nat) : Nat :=
  match key with
  | some (k :: _) => if a = k then 0 else a + 1
  | _ => a + 1

/-- Modelled from the spec: the order of the merged stream on label paths (section
4.3 merges the inner traversers by label path), taken as the order in which a
near traverser visits paths, so that the merge keeps the order of every inner
traverser: a path before its extensions, and at the first byte that differs the
byte of the lower rank first. -/
def near_before : Option (List Nat) → List Nat → List Nat → Bool
  | _, [], [] => false
  | _, [], _ :: _ => true
  | _, _ :: _, [] => false
  | key, a :: p, b :: q =>
    if a = b then near_before (near_next key a) p q
    else decide (near_rank key a < near_rank key b)

/-- The label path of a position, `GetStateLabels()` cut at `GetDepth()`. -/
def Position.path (p : Position) : List Nat :=
  p.labels.take p.depth

/-- Modelled from the spec: the head the zip traverser reports among the heads of its
inner traversers (section 4.3): the one with the least path, and among heads with
that path the one of the highest priority, that is the latest in the list. -/
def zip_head (key : List Nat) : List Traverser → Option Position
  | [] => none
  | [] :: ts => zip_head key ts
  | (p :: _) :: ts =>
    match zip_head key ts with
    | none => some p
    | some q => if near_before (some key) p.path q.path then some p else some q

/-- Modelled from the spec: what one `advance` of the zip traverser does to an inner
traverser (section 4.3): it moves on when its head has the reported path, and
stays otherwise. -/
def zip_step (path : List Nat) : Traverser → Traverser
  | [] => []
  | p :: rest => if p.path = path then rest else p :: rest

/-- Modelled from the spec: one `advance` of the zip traverser (section 4.3), over
all its inner traversers. -/
def zip_advance (path : List Nat) (ts : List Traverser) : List Traverser :=
  ts.map (zip_step path)

/-- Modelled from the spec: the merged stream of the zip traverser (section 4.3), at
most `fuel` positions of it. -/
def zip_merge (key : List Nat) : Nat → List Traverser → Traverser
  | 0, _ => []
  | fuel + 1, ts =>
    match zip_head key ts with
    | none => []
    | some p => p :: zip_merge key fuel (zip_advance p.path ts)

/-- Modelled from the spec: `ZipStateTraverser<NearStateTraverser>` built from the
`(fsa, start state, payload)` triples, one inner traverser each, its priority
being its index in the list; the near key is the one the payloads share. Every
step of the merge consumes a position of an inner traverser, so their total
length is fuel enough. -/
def ZipStateTraverser.new (fsa_start_state_payloads : List (Automata × Nat × TraversalPayload)) :
    Traverser :=
  let inner := fsa_start_state_payloads.enum.map (fun e =>
    ComparableStateTraverser.new e.2.1 e.2.2.1 e.2.2.2 true e.1)
  let key := match fsa_start_state_payloads with
    | [] => []
    | e :: _ => e.2.2.lookup_key
  zip_merge key (inner.map List.length).sum inner

/-- Modelled from the spec: the traverser classes as described in sections 4.1 to 4.3. -/
def near_traversers : Traversers :=
  { comparable := ComparableStateTraverser.new, zip := ZipStateTraverser.new }

/-! ## Construction -/

/-- The prefix loop of `FromSingleFsa`, `for (i = 0; i < minimum_exact_prefix; ++i)`,
with `n` iterations left: the state reached, or `none` once a step returns `0`,
and the `TryWalkTransition` calls made, as `(state, byte)` pairs. -/
def FromSingleFsa.walk (fsa : Automata) (query : List Nat) :
    Nat → Nat → Nat → List (Nat × Nat) → Option Nat × List (Nat × Nat)
  | 0, _, state, calls => (some state, calls)
  | n + 1, i, state, calls =>
    let next := fsa.TryWalkTransition state (query.getD i 0)
    if next = 0 then (none, calls ++ [(state, query.getD i 0)])
    else FromSingleFsa.walk fsa query n (i + 1) next (calls ++ [(state, query.getD i 0)])

/-- The overload `FromSingleFsa(fsa, start_state, query, exact_prefix, greedy)`. -/
def FromSingleFsa.from_state (T : Traversers) (fsa : Automata) (start_state : Nat)
    (query : List Nat) ( exact_prefix : Nat) (greedy : Bool) : Except Error NearMatching :=
  match substr_from query exact_prefix with
  | Except.error e => Except.error e
  | Except.ok near_key =>
    let first_match := Match.empty
    let payload := TraversalPayload.new near_key
    let traverser := T.comparable fsa start_state payload true 0
    Except.ok (NearMatching.new traverser first_match (substr_to query exact_prefix) greedy)

/-- The overload `FromSingleFsa(fsa, query, minimum_exact_prefix, greedy)`, together
with the `TryWalkTransition` calls it made. -/
def FromSingleFsa.traced (T : Traversers) (fsa : Automata) (query : List Nat)
    ( minimum_exact_prefix : Nat) (greedy : Bool) :
    Except Error NearMatching × List (Nat × Nat) :=
  let state := fsa.GetStartState
  if query.length < minimum_exact_prefix then
    (Except.ok NearMatching.default, [])
  else
    match FromSingleFsa.walk fsa query minimum_exact_prefix 0 state [] with
    | (none, calls) => (Except.ok NearMatching.default, calls)
    | (some s, calls) =>
      (FromSingleFsa.from_state T fsa s query minimum_exact_prefix greedy, calls)

/-- The overload `FromSingleFsa(fsa, query, minimum_exact_prefix, greedy)`. -/
def FromSingleFsa (T : Traversers) (fsa : Automata) (query : List Nat)
    ( minimum_exact_prefix : Nat) (greedy : Bool) : Except Error NearMatching :=
  (FromSingleFsa.traced T fsa query minimum_exact_prefix greedy).1

/-- The loop of `FilterWithExactPrefix` for one automaton,
`while (state != 0 && depth < minimum_exact_prefix)`, run for at most `fuel`
iterations: the final `state` and `depth`. -/
def FilterWithExactPrefix.walk (fsa : Automata) (query : List Nat) ( minimum_exact_prefix : Nat) :
    Nat → Nat → Nat → Nat × Nat
  | 0, state, depth => (state, depth)
  | fuel + 1, state, depth =>
    if state ≠ 0 ∧ depth < minimum_exact_prefix then
      FilterWithExactPrefix.walk fsa query minimum_exact_prefix fuel
        (fsa.TryWalkTransition state (query.getD depth 0)) (depth + 1)
    else (state, depth)

/-- The static method `FilterWithExactPrefix`. The loop of one automaton ends
within `minimum_exact_prefix` iterations, which is the fuel it gets. -/
def FilterWithExactPrefix (fsas : List Automata) (query : List Nat)
    ( minimum_exact_prefix : Nat) : Except Error (List (Automata × Nat × TraversalPayload)) :=
  match substr_from query minimum_exact_prefix with
  | Except.error e => Except.error e
  | Except.ok near_key =>
    Except.ok (fsas.filterMap (fun fsa =>
      let r := FilterWithExactPrefix.walk fsa query minimum_exact_prefix
        minimum_exact_prefix fsa.GetStartState 0
      if r.1 ≠ 0 ∧ r.2 = minimum_exact_prefix then
        some (fsa, r.1, TraversalPayload.new near_key)
      else none))

/-- The overload `FromMulipleFsas(fsa_start_state_payloads, query, exact_prefix, greedy)`. -/
def FromMulipleFsas.from_payloads (T : Traversers)
    (fsa_start_state_payloads : List (Automata × Nat × TraversalPayload))
    (query : List Nat) ( exact_prefix : Nat) (greedy : Bool) : Except Error NearMatching :=
  if fsa_start_state_payloads.length = 0 then
    Except.ok NearMatching.default
  else
    match substr_from query exact_prefix with
    | Except.error e => Except.error e
    | Except.ok _near_key =>
      let first_match := Match.empty
      let traverser := T.zip fsa_start_state_payloads
      Except.ok (NearMatching.new traverser first_match (substr_to query exact_prefix) greedy)

/-- The overload `FromMulipleFsas(fsas, query, minimum_exact_prefix, greedy)`. -/
def FromMulipleFsas (T : Traversers) (fsas : List Automata) (query : List Nat)
    ( minimum_exact_prefix : Nat) (greedy : Bool) : Except Error NearMatching :=
  match FilterWithExactPrefix fsas query minimum_exact_prefix with
  | Except.error e => Except.error e
  | Except.ok fsa_start_state_payloads =>
    FromMulipleFsas.from_payloads T fsa_start_state_payloads query minimum_exact_prefix greedy

/-- The matcher after `n` calls of `NextMatch`. -/
def NextMatch_calls : Nat → NearMatching → NearMatching
  | 0, m => m
  | n + 1, m => NextMatch_calls n (NextMatch m).2

/-- The match the call number `n + 1` of `NextMatch` returns. -/
def NextMatch_nth (n : Nat) (m : NearMatching) : Match :=
  (NextMatch (NextMatch_calls n m)).1

/-- The positions at which successive `NextMatch` calls build a match, for a
traverser `t`, from `matched_depth_ = md` on. -/
def emitted (greedy : Bool) : Nat → Traverser → List Position
  | _, [] => []
  | md, p :: rest =>
    if p.depth > md then
      if p.is_final then
        p :: emitted greedy (if !greedy then p.payload.exact_depth else md) rest
      else emitted greedy md rest
    else []

/-- The matches of a constructor result: those of the matcher it built, none
when the construction raised an error. -/
def matches_of : Except Error NearMatching → List Match
  | Except.ok m => AllMatches m
  | Except.error _ => []

/-! ## Keys of an automaton -/

/-- Walking the bytes `key` from `state` with `TryWalkTransition`: the state
reached, or `none` as soon as a step returns state `0`. -/
def Automata.walk (f : Automata) : Nat → List Nat → Option Nat
  | state, [] => some state
  | state, c :: cs =>
    if f.TryWalkTransition state c = 0 then none
    else Automata.walk f (f.TryWalkTransition state c) cs

/-- The value handle stored under `key`: walking `key` from the start state ends
in a final state. -/
def Automata.lookup (f : Automata) (key : List Nat) : Option Nat :=
  match f.walk f.GetStartState key with
  | some state => if f.IsFinalState state then some (f.GetStateValue state) else none
  | none => none

/-- Prefix gating as the spec words it (sections 4.4 and 4.5): walk the first
`minimum_exact_prefix` bytes of the query in every segment, keep the segments
that complete the walk, in input order, each with the state reached and a fresh
payload over the query tail. -/
def FilterWithExactPrefix_spec (fsas : List Automata) (query : List Nat)
    ( minimum_exact_prefix : Nat) : List (Automata × Nat × TraversalPayload) :=
  fsas.filterMap (fun fsa =>
    match fsa.walk fsa.GetStartState (query.take minimum_exact_prefix) with
    | some state => some (fsa, state, TraversalPayload.new (query.drop minimum_exact_prefix))
    | none => none)

/-! ## Example dictionaries -/

/-- The dictionary `ab -> 1`. -/
def fsa_ab : Automata :=
  { start_state := 1, transitions := [(1, 97, 2), (2, 98, 3)], finals := [(3, 1)] }

/-- The dictionary `ab -> 1, ac -> 2`. -/
def fsa_ab_ac : Automata :=
  { start_state := 1, transitions := [(1, 97, 2), (2, 98, 3), (2, 99, 4)],
    finals := [(3, 1), (4, 2)] }

/-- The dictionary `ab -> 5, ad -> 6`. -/
def fsa_ab_ad : Automata :=
  { start_state := 7, transitions := [(7, 97, 4), (4, 98, 2), (4, 100, 3)],
    finals := [(2, 5), (3, 6)] }

/-- The dictionary `ab -> 1, abcx -> 2`. -/
def fsa_ab_abcx : Automata :=
  { start_state := 1, transitions := [(1, 97, 2), (2, 98, 3), (3, 99, 4), (4, 120, 5)],
    finals := [(3, 1), (5, 2)] }

/-- The dictionary `ab -> 1, abcdx -> 2, abcz -> 3`. -/
def fsa_ab_abcdx_abcz : Automata :=
  { start_state := 1,
    transitions := [(1, 97, 2), (2, 98, 3), (3, 99, 4), (4, 100, 5), (5, 120, 6), (4, 122, 7)],
    finals := [(3, 1), (6, 2), (7, 3)] }

/-! ## Order and provenance of the merged stream -/

/-- The position a merged stream has to report for `path`: the one of the latest
traverser in the list that visits this path. -/
def zip_last (path : List Nat) : List Traverser → Option Position
  | [] => none
  | t :: ts =>
    match zip_last path ts with
    | some q => some q
    | none => t.find? (fun q => q.path = path)

/-- A traverser visits its positions in the order `near_before` of their paths. -/
def Traverser.ordered (key : List Nat) (t : Traverser) : Prop :=
  List.Pairwise (fun p q => near_before (some key) p.path q.path = true) t

/-- What is left of the near key at a frame of depth `depth` with payload
`payload`, `none` once the path has left the near key. -/
def near_state (payload : TraversalPayload) (depth : Nat) : Option (List Nat) :=
  if payload.exact_depth = depth then some (payload.lookup_key.drop depth) else none

/-- The inner traverser the zip traverser builds for one `(fsa, start state,
payload)` triple. -/
def near_trace (e : Automata × Nat × TraversalPayload) : Traverser :=
  near_traverse e.1 e.1.transitions.length e.2.1 [] e.2.2

/-- An automaton is acyclic: its states can be ranked so that every transition
leads to a state of lower rank. -/
def Automata.acyclic (f : Automata) : Prop :=
  ∃ rank : Nat → Nat, ∀ e ∈ f.transitions, rank e.2.2 < rank e.1

/-- The highest-priority segment that holds `key`, that is the latest in the
list, with the value it stores under `key`. -/
def highest_priority (key : List Nat) : List Automata → Option (Automata × Nat)
  | [] => none
  | f :: fs =>
    match highest_priority key fs with
    | some r => some r
    | none => (f.lookup key).map (fun v => (f, v))

/-! ## Example traversers -/

/-- The traverser of the dictionary `ab, abcx` below the prefix `a` of the query
`abcd`. -/
def traverser_abcx : Traverser :=
  near_traversers.comparable fsa_ab_abcx 2 (TraversalPayload.new [98, 99, 100]) true 0

/-- The traverser of the dictionary `ab, abcdx, abcz` below the prefix `a` of the
query `abcde`. -/
def traverser_abcdx : Traverser :=
  near_traversers.comparable fsa_ab_abcdx_abcz 2 (TraversalPayload.new [98, 99, 100, 101]) true 0

/-! ## Depth-first traversal and the order of the matches -/

/-- The length of the longest prefix of `key` that `path` matches byte for byte. -/
def common_prefix_length : List Nat → List Nat → Nat
  | k :: key, a :: path => if a = k then common_prefix_length key path + 1 else 0
  | _, _ => 0

/-- What `NextMatch` meets in a depth-first near traversal with the near key `key`:
the label buffer of a position holds `depth` bytes and its `exact_depth` is the
length of the longest prefix of `key` its path matches (section 3); a state is
visited once and before the states below it, so no path is a prefix of an
earlier one; and a step leads to a child of the current state or of a state
above it, so the next path without its last byte is a prefix of the current
path. -/
def Traverser.depth_first (key : List Nat) (t : Traverser) : Prop :=
  (∀ p ∈ t, p.depth ≤ p.labels.length ∧
    p.payload.exact_depth = common_prefix_length key p.path) ∧
  t.Pairwise (fun p q => ¬ q.path <+: p.path) ∧
  t.Chain' (fun p q => q.path.dropLast <+: p.path)

/-- The state `LOCKED` of a non-greedy matcher over a depth-first traversal with the
near key `key`: `matched_depth_` is the `exact_depth` of the position `e` of the
latest match, the traverser has yet to show positions that come after `e`, and
the position `y` it showed last has a path that follows `key` for
`matched_depth_` bytes. -/
def NearMatching.locked (key : List Nat) (m : NearMatching) : Prop :=
  m.greedy_ = false ∧ ∃ tr, m.traverser_ptr_ = some tr ∧ Traverser.depth_first key tr ∧
    (∃ e : Position, e.payload.exact_depth = m.matched_depth_ ∧
      e.payload.exact_depth = common_prefix_length key e.path ∧
      ∀ x ∈ tr, ¬ x.path <+: e.path) ∧
    (∃ y : Position,
      List.Chain' (fun p q : Position => q.path.dropLast <+: p.path) (y :: tr) ∧
      y.path.take m.matched_depth_ = key.take m.matched_depth_)

/-- The traverser of the dictionary `ab, abcdx, abcz` below the prefix `a` of the
query `abq`. -/
def traverser_abq : Traverser :=
  near_traversers.comparable fsa_ab_abcdx_abcz 2 (TraversalPayload.new [98, 113]) true 0

/-- Byte-lexicographic order on strings: `p` is not after `q`. -/
def bytes_le : List Nat → List Nat → Bool
  | [], _ => true
  | _ :: _, [] => false
  | a :: p, b :: q => decide (a < b) || (a == b && bytes_le p q)

/-! ## Fuzzy matching -/

/-- Modelled from the spec: one cell of the next row of the Levenshtein table that
the fuzzy payload keeps (section 3), for the path extended by the byte `b`:
cell `j` is the least number of edits between the path and the first `j` bytes
of the query suffix `key`. The fuzzy matcher behind `GetFuzzy` of
`index/read_only_index.h` and its distance metric are not among the sources. -/
def levenshtein_cell (key row : List Nat) (b : Nat) : Nat → Nat
  | 0 => row.getD 0 0 + 1
  | j + 1 =>
    min (min (row.getD j 0 + (if key.getD j 0 = b then 0 else 1)) (row.getD (j + 1) 0 + 1))
      (levenshtein_cell key row b j + 1)

/-- Modelled from the spec: the update of the DP row on a transition with the byte
`b` (section 4.1, fuzzy admissibility). -/
def levenshtein_step (key row : List Nat) (b : Nat) : List Nat :=
  (List.range (key.length + 1)).map (levenshtein_cell key row b)

/-- Modelled from the spec: the DP row of the empty consumed path against the query
suffix `key` (section 4.4). -/
def levenshtein_init (key : List Nat) : List Nat :=
  List.range (key.length + 1)

/-- The DP row after the path `path`. -/
def fuzzy_row (key path : List Nat) : List Nat :=
  path.foldl (levenshtein_step key) (levenshtein_init key)

/-- The least cell of a DP row. -/
def row_min (row : List Nat) : Nat :=
  row.foldl min (row.headD 0)

/-- Modelled from the spec: the fuzzy variant of the traversal payload (section 3):
the DP row over the query suffix and the maximum allowed edit distance. -/
structure FuzzyPayload where
  row : List Nat
  max_edit_distance : Nat
deriving DecidableEq, Repr

/-- Modelled from the spec: the accumulated edit distance the payload reports
(section 4.4): the last cell of the row, the distance between the path and
the whole query suffix. -/
def FuzzyPayload.distance (p : FuzzyPayload) : Nat :=
  p.row.getLastD 0

/-- Modelled from the spec: what a fuzzy traverser exposes at the state it stands
on (section 4.1), with the priority the comparable adapter adds (section 4.2):
the position of the segment in the caller's list. -/
structure FuzzyPosition where
  depth : Nat
  is_final : Bool
  labels : List Nat
  payload : FuzzyPayload
  fsa : Automata
  state_value : Nat
  order : Nat
deriving DecidableEq, Repr

/-- The label path of a fuzzy position. -/
def FuzzyPosition.path (p : FuzzyPosition) : List Nat :=
  p.labels.take p.depth

/-- Modelled from the spec: the inner fuzzy traverser of `fsa/state_traverser.h`
(section 4.1), as the sequence of positions it visits below `state`, depth first,
children in ascending byte order, down to `fuel` further levels. A transition
is pruned with everything below it when the least cell of its row, minus the
lookahead bound, exceeds the maximum edit distance. The spec does not give the
lookahead bound: it is the parameter `lookahead`. -/
def fuzzy_traverse (f : Automata) (key : List Nat) (k lookahead order : Nat) :
    Nat → Nat → List Nat → List Nat → List FuzzyPosition
  | 0, _, _, _ => []
  | fuel + 1, state, path, row =>
    (f.outgoing_labels state).flatMap (fun c =>
      let target := f.TryWalkTransition state c
      let child := levenshtein_step key row c
      if row_min child - lookahead > k then []
      else
        { depth := path.length + 1,
          is_final := f.IsFinalState target,
          labels := path ++ [c],
          payload := { row := child, max_edit_distance := k },
          fsa := f,
          state_value := f.GetStateValue target,
          order := order } ::
          fuzzy_traverse f key k lookahead order fuel target (path ++ [c]) child)

/-- Modelled from the spec: the comparable fuzzy traverser of one segment, primed at
the state `state` the exact prefix leads to (sections 4.2 and 4.4). Its first
position is that state itself, with the row of the empty path: the test
`fuzzyMatching` expects the key `babdd` for the query `babdd` with
`minimum_exact_prefix = 5`, and section 8 asks for this emission. -/
def FuzzyStateTraverser.new (f : Automata) (state : Nat) (key : List Nat)
    (k lookahead order : Nat) : List FuzzyPosition :=
  { depth := 0, is_final := f.IsFinalState state, labels := [],
    payload := { row := levenshtein_init key, max_edit_distance := k },
    fsa := f, state_value := f.GetStateValue state, order := order } ::
    fuzzy_traverse f key k lookahead order f.transitions.length state [] (levenshtein_init key)

/-- Modelled from the spec: the state the zip traverser exposes at the path `path`
(section 4.3). Of the inner traversers that visit this path, in the order of
their priority, it is the one of the highest priority whose state there is
final, and without such a one the one of the highest priority. The test
`fuzzyMatching` fixes the first part: it expects `abc` with the value of the
older segment while the newer segment holds `abcde`. (The merged near stream
`zip_merge` follows the wording of section 4.3 and reports the traverser of the
highest priority also when its state is not final; no test of near matching
tells the two apart.) -/
def fuzzy_zip_report (path : List Nat) (ts : List (List FuzzyPosition)) :
    Option FuzzyPosition :=
  let heads := ts.filterMap (fun t => t.find? (fun q => decide (q.path = path)))
  match heads.reverse.find? (fun q => q.is_final) with
  | some q => some q
  | none => heads.getLast?

/-- Modelled from the spec: the merged stream of the zip traverser by its contract
(section 4.3): every path an inner traverser visits, once, in lexicographic
order, each with the state the zip traverser exposes there. -/
def fuzzy_zip (ts : List (List FuzzyPosition)) : List FuzzyPosition :=
  (((ts.flatMap id).map FuzzyPosition.path).dedup.insertionSort
    (fun a b => bytes_le a b = true)).filterMap (fun path => fuzzy_zip_report path ts)

/-- Modelled from the spec: prefix gating (section 4.4): the segments that complete
the walk of the first `minimum_exact_prefix` query bytes, each with its position
in the list and the state reached. -/
def fuzzy_gate (fsas : List Automata) (query : List Nat) ( minimum_exact_prefix : Nat) :
    List (Nat × Automata × Nat) :=
  fsas.enum.filterMap (fun e =>
    match e.2.walk e.2.GetStartState (query.take minimum_exact_prefix) with
    | some state => some (e.1, e.2, state)
    | none => none)

/-- Modelled from the spec: the fuzzy matching driver of `matching/fuzzy_matching.h`
with the deletion masking of the index reader (section 4.4), as the list of
matches its iterator yields. `deleted segment key` is the deletion predicate of
section 6. A prefix longer than the query gives no result (section 6). -/
def FuzzyMatching (deleted : Nat → List Nat → Bool) (lookahead : Nat) (fsas : List Automata)
    (query : List Nat) (max_edit_distance : Nat) ( minimum_exact_prefix : Nat) : List Match :=
  if query.length < minimum_exact_prefix then []
  else
    let inner := (fuzzy_gate fsas query minimum_exact_prefix).map (fun e =>
      FuzzyStateTraverser.new e.2.1 e.2.2 (query.drop minimum_exact_prefix)
        max_edit_distance lookahead e.1)
    ((fuzzy_zip inner).filter (fun p =>
        p.is_final && decide (p.payload.distance ≤ max_edit_distance) &&
          !deleted p.order (query.take minimum_exact_prefix ++ p.path))).map (fun p =>
      { start := 0,
        end_ := (query.take minimum_exact_prefix ++ p.path).length,
        matched_item := query.take minimum_exact_prefix ++ p.path,
        score := p.payload.distance,
        fsa := some p.fsa,
        state_value := p.state_value })

/-- The highest-priority segment that holds `key`, that is the latest in the list of
numbered segments, with its number and the value it stores under `key`. -/
def highest_priority_segment (key : List Nat) :
    List (Nat × Automata) → Option (Nat × Automata × Nat)
  | [] => none
  | e :: es =>
    match highest_priority_segment key es with
    | some r => some r
    | none => (e.2.lookup key).map (fun v => (e.1, e.2, v))
/-- The position a fuzzy traverser of the segment `f` with the priority `order`
shows at the state `t` that the path `ext` leads to. -/
def fuzzy_position (f : Automata) (key : List Nat) (k order : Nat) (ext : List Nat) (t : Nat) :
    FuzzyPosition :=
  { depth := ext.length,
    is_final := f.IsFinalState t,
    labels := ext,
    payload := { row := fuzzy_row key ext, max_edit_distance := k },
    fsa := f,
    state_value := f.GetStateValue t,
    order := order }
/-- The first segment of the test `fuzzyMatching`: `abc -> {a:1}`, `abbc -> {b:2}`,
`abbcd -> {c:3}`, `abcde -> {a:1}`, `abdd -> {b:3}`, `bbdd -> {f:2}`. A value
`{l:d}` is written as the number of the letter `l` in the alphabet followed by
the digit `d`. -/
def fsa_fuzzy_0 : Automata :=
  { start_state := 1,
    transitions := [(1, 97, 2), (2, 98, 3), (3, 99, 4), (3, 98, 5), (5, 99, 6), (6, 100, 7),
      (4, 100, 8), (8, 101, 9), (3, 100, 10), (10, 100, 11), (1, 98, 12), (12, 98, 13),
      (13, 100, 14), (14, 100, 15)],
    finals := [(4, 11), (6, 22), (7, 33), (9, 11), (11, 23), (15, 62)] }

/-- The second segment of the test `fuzzyMatching`: `abbcd -> {c:6}`,
`abcde -> {x:1}`, `babc -> {a:1}`, `babbc -> {b:2}`, `babcde -> {a:1}`,
`babdd -> {g:2}`, values written as in `fsa_fuzzy_0`. -/
def fsa_fuzzy_1 : Automata :=
  { start_state := 1,
    transitions := [(1, 97, 2), (2, 98, 3), (3, 98, 4), (4, 99, 5), (5, 100, 6), (3, 99, 7),
      (7, 100, 8), (8, 101, 9), (1, 98, 10), (10, 97, 11), (11, 98, 12), (12, 99, 13),
      (12, 98, 14), (14, 99, 15), (13, 100, 16), (16, 101, 17), (12, 100, 18), (18, 100, 19)],
    finals := [(6, 36), (9, 241), (13, 11), (15, 22), (17, 11), (19, 72)] }

/-- The deleted keys of the test `fuzzyMatching`: `abbcd`, `abcde` and `babbc` in the
second segment, `abbcd` and `bbdd` in the first. -/
def fuzzy_deleted (segment : Nat) (key : List Nat) : Bool :=
  (segment == 1 &&
    (key == [97, 98, 98, 99, 100] || key == [97, 98, 99, 100, 101] ||
      key == [98, 97, 98, 98, 99])) ||
  (segment == 0 && (key == [97, 98, 98, 99, 100] || key == [98, 98, 100, 100]))

/-! ## Exhaustion -/

/-- A traverser without dead end: every position that is not final is directly
followed by a deeper one, as in a depth-first traversal of an automaton in
which every state that is not final has an outgoing transition. -/
def Traverser.no_dead_end : Traverser → Bool
  | [] => true
  | [p] => p.is_final
  | p :: q :: rest =>
    (p.is_final || decide (p.depth < q.depth)) && Traverser.no_dead_end (q :: rest)

/-- A transition table with a dead end: state `2`, reached over the byte `a`, is not
final and has no transition. -/
def fsa_dead_end : Automata :=
  { start_state := 1, transitions := [(1, 97, 2)], finals := [] }

/-- The matcher `FromSingleFsa` builds over `fsa_dead_end` for the query `a` with
the prefix length `0`: its traverser stands on state `2`. -/
def matcher_dead_end : NearMatching :=
  NearMatching.new
    [{ depth := 1, is_final := false, labels := [97],
       payload := { lookup_key := [97], exact_depth := 1 }, fsa := fsa_dead_end,
       state_value := 0 }]
    Match.empty [] false

/-- The matcher over the dictionary `ab -> 5, ad -> 6` for the query `ab` with the
prefix length `0`, after its first call of `NextMatch`, which returned `ab`: the
lock is `2` and the traverser stands on `ad`. -/
def matcher_ab_ad : NearMatching :=
  NextMatch_calls 1
    (NearMatching.new (near_traversers.comparable fsa_ab_ad 7 (TraversalPayload.new [97, 98]) true 0)
      Match.empty [] false)

/-- An automaton without dead end: a state that a transition leads to is final or
has a transition over some byte. The automaton of a dictionary is of this kind,
since every one of its states lies on the path of a key. -/
def Automata.trim (f : Automata) : Prop :=
  ∀ e ∈ f.transitions, e.2.2 ≠ 0 → f.IsFinalState e.2.2 = false →
    f.outgoing_labels e.2.2 ≠ []

/-- Modelled from the spec: the near matching driver with the deletion masking of the
index reader, which is not under src (sections 4.4, 4.5 and 6). It is the loop
of `NextMatch` with one step added: before the driver emits at a final state it
consults the deletion predicate `deleted segment key`, keyed by the segment of
the state, given by its automaton, and the matched string. A deleted key is
suppressed: it is not returned, it sets no lock, and the driver keeps
advancing. -/
def NextMatch_masked_loop (deleted : Automata → List Nat → Bool) ( exact_prefix : List Nat)
    (greedy : Bool) : Nat → Traverser → Match × Nat × Traverser
  | matched_depth, [] => (Match.empty, matched_depth, [])
  | matched_depth, p :: rest =>
    if p.depth > matched_depth then
      if p.is_final then
        if deleted p.fsa (make_match exact_prefix p).matched_item then
          NextMatch_masked_loop deleted exact_prefix greedy matched_depth rest
        else
          (make_match exact_prefix p,
            if !greedy then p.payload.exact_depth else matched_depth,
            rest)
      else
        NextMatch_masked_loop deleted exact_prefix greedy matched_depth rest
    else
      (Match.empty, matched_depth, p :: rest)

/-- Modelled from the spec: one call of the driver with deletion masking, the match
and the matcher after the call. -/
def NextMatch_masked (deleted : Automata → List Nat → Bool) (m : NearMatching) :
    Match × NearMatching :=
  match m.traverser_ptr_ with
  | none => (Match.empty, m)
  | some t =>
    let r := NextMatch_masked_loop deleted m.exact_prefix_ m.greedy_ m.matched_depth_ t
    (r.1, { m with traverser_ptr_ := some r.2.2, matched_depth_ := r.2.1 })

/-- Modelled from the spec: the iterator over the driver with deletion masking
(section 4.6): it is called until it returns the empty match; at most `fuel`
matches are taken. -/
def NextMatches_masked (deleted : Automata → List Nat → Bool) : Nat → NearMatching → List Match
  | 0, _ => []
  | fuel + 1, m =>
    let r := NextMatch_masked deleted m
    if r.1.IsEmpty then [] else r.1 :: NextMatches_masked deleted fuel r.2

/-- Modelled from the spec: `GetNear` of the index reader (`index/read_only_index.h`,
not under src): the matcher `FromMulipleFsas` builds over the segments, iterated
with deletion masking. Every match consumes a position of the traverser, so
`remaining + 1` calls reach the empty match. -/
def GetNear (T : Traversers) (deleted : Automata → List Nat → Bool) (fsas : List Automata)
    (query : List Nat) ( minimum_exact_prefix : Nat) (greedy : Bool) : List Match :=
  match FromMulipleFsas T fsas query minimum_exact_prefix greedy with
  | Except.ok m => NextMatches_masked deleted (m.remaining + 1) m
  | Except.error _ => []

/-- The bytes of `pizzeria:u`, which every key of the test `nearMatching` starts
with. -/
def pizzeria : List Nat :=
  [112, 105, 122, 122, 101, 114, 105, 97, 58, 117]

/-- The first segment of the test `nearMatching`: `pizzeria:u281z7hfvzq9` (Munich 1,
value handle `1`), `pizzeria:u0vu7uqfyqkg` (Mainz, `10`) and
`pizzeria:u281wu8bmmzq` (Munich 2, `2`). -/
def fsa_near_0 : Automata :=
  { start_state := 1,
    transitions := [
      (1, 112, 2), (2, 105, 3), (3, 122, 4), (4, 122, 5), (5, 101, 6), (6, 114, 7), (7, 105, 8),
      (8, 97, 9), (9, 58, 10), (10, 117, 11), (11, 50, 12), (12, 56, 13), (13, 49, 14),
      (14, 122, 15), (15, 55, 16), (16, 104, 17), (17, 102, 18), (18, 118, 19), (19, 122, 20),
      (20, 113, 21), (21, 57, 22), (11, 48, 23), (23, 118, 24), (24, 117, 25), (25, 55, 26),
      (26, 117, 27), (27, 113, 28), (28, 102, 29), (29, 121, 30), (30, 113, 31), (31, 107, 32),
      (32, 103, 33), (14, 119, 34), (34, 117, 35), (35, 56, 36), (36, 98, 37), (37, 109, 38),
      (38, 109, 39), (39, 122, 40), (40, 113, 41)],
    finals := [(22, 1), (33, 10), (41, 2)] }

/-- The second segment of the test `nearMatching`: `pizzeria:u33db8mmzj1t` (Berlin,
value handle `20`), `pizzeria:u0yjjd65eqy0` (Frankfurt, `30`),
`pizzeria:u28db8mmzj1t` (Munich 3, `3`), `pizzeria:u0vu7uqfyqkg` (near Mainz, `11`)
and `pizzeria:u2817uqfyqkg` (Munich 4, `4`). -/
def fsa_near_1 : Automata :=
  { start_state := 1,
    transitions := [
      (1, 112, 2), (2, 105, 3), (3, 122, 4), (4, 122, 5), (5, 101, 6), (6, 114, 7), (7, 105, 8),
      (8, 97, 9), (9, 58, 10), (10, 117, 11), (11, 51, 12), (12, 51, 13), (13, 100, 14),
      (14, 98, 15), (15, 56, 16), (16, 109, 17), (17, 109, 18), (18, 122, 19), (19, 106, 20),
      (20, 49, 21), (21, 116, 22), (11, 48, 23), (23, 121, 24), (24, 106, 25), (25, 106, 26),
      (26, 100, 27), (27, 54, 28), (28, 53, 29), (29, 101, 30), (30, 113, 31), (31, 121, 32),
      (32, 48, 33), (11, 50, 34), (34, 56, 35), (35, 100, 36), (36, 98, 37), (37, 56, 38),
      (38, 109, 39), (39, 109, 40), (40, 122, 41), (41, 106, 42), (42, 49, 43), (43, 116, 44),
      (23, 118, 45), (45, 117, 46), (46, 55, 47), (47, 117, 48), (48, 113, 49), (49, 102, 50),
      (50, 121, 51), (51, 113, 52), (52, 107, 53), (53, 103, 54), (35, 49, 55), (55, 55, 56),
      (56, 117, 57), (57, 113, 58), (58, 102, 59), (59, 121, 60), (60, 113, 61), (61, 107, 62),
      (62, 103, 63)],
    finals := [(22, 20), (33, 30), (44, 3), (54, 11), (63, 4)] }

/-- The deleted keys of the test `nearMatching`: `pizzeria:u28db8mmzj1t` and
`pizzeria:u0vu7uqfyqkg` in the second segment, `pizzeria:u281wu8bmmzq` in the
first. -/
def near_deleted (segment : Automata) (key : List Nat) : Bool :=
  (segment == fsa_near_1 &&
    (key == pizzeria ++ [50, 56, 100, 98, 56, 109, 109, 122, 106, 49, 116] ||
      key == pizzeria ++ [48, 118, 117, 55, 117, 113, 102, 121, 113, 107, 103])) ||
  (segment == fsa_near_0 &&
    key == pizzeria ++ [50, 56, 49, 119, 117, 56, 98, 109, 109, 122, 113])

/-- The bytes with a transition out of `state`, ascending, read off the transition
table instead of trying all `256` bytes. -/
def Automata.labels_of (f : Automata) (state : Nat) : List Nat :=
  ((f.transitions.filter (fun t => t.1 == state)).map (fun t => t.2.1)).insertionSort
    (fun a b => a ≤ b)

/-- A transition table that is deterministic, whose labels are bytes and whose
transitions lead to states. -/
abbrev Automata.well_formed (f : Automata) : Prop :=
  (∀ t ∈ f.transitions, t.2.1 < 256 ∧ t.2.2 ≠ 0) ∧
    (f.transitions.map (fun t => (t.1, t.2.1))).Nodup

/-- The traversal `near_traverse`, with the outgoing labels of a state read off the
transition table. -/
def near_traverse_fast (f : Automata) : Nat → Nat → List Nat → TraversalPayload → Traverser
  | 0, _, _, _ => []
  | fuel + 1, state, path, payload =>
    (near_order payload path.length (f.labels_of state)).flatMap (fun c =>
      let target := f.TryWalkTransition state c
      let child := near_payload payload path.length c
      { depth := path.length + 1,
        is_final := f.IsFinalState target,
        labels := path ++ [c],
        payload := child,
        fsa := f,
        state_value := f.GetStateValue target } ::
        near_traverse_fast f fuel target (path ++ [c]) child)

/-- The driver `GetNear` over the traversers `near_traversers`, with the inner
traversals computed by `near_traverse_fast`. -/
def GetNear_fast (deleted : Automata → List Nat → Bool) (fsas : List Automata)
    (query : List Nat) (n : Nat) (greedy : Bool) : List Match :=
  let ps := fsas.filterMap (fun fsa =>
    let r := FilterWithExactPrefix.walk fsa query n n fsa.GetStartState 0
    if r.1 ≠ 0 ∧ r.2 = n then some (fsa, r.1, TraversalPayload.new (query.drop n)) else none)
  let inner := ps.map (fun e => near_traverse_fast e.1 e.1.transitions.length e.2.1 [] e.2.2)
  let t := zip_merge (query.drop n) (inner.map List.length).sum inner
  NextMatches_masked deleted (t.length + 1) (NearMatching.new t Match.empty (query.take n) greedy)

/-- The query `pizzeria:u281wu88kekq` of the test `nearMatching`. -/
def near_query : List Nat :=
  pizzeria ++ [50, 56, 49, 119, 117, 56, 56, 107, 101, 107, 113]

/-! ## Facts about `NextMatch` -/

theorem make_match_ne_empty ( exact_prefix : List Nat) (p : Position) (h : 0 < p.depth) :
    make_match exact_prefix p ≠ Match.empty := by
  intro hc
  have h2 : (make_match exact_prefix p).end_ = Match.empty.end_ := by rw [hc]
  simp [make_match, Match.empty] at h2
  omega

theorem Match.IsEmpty_iff (m : Match) : m.IsEmpty = true ↔ m = Match.empty := by
  simp [Match.IsEmpty]

theorem Match.IsEmpty_false_iff (m : Match) : m.IsEmpty = false ↔ m ≠ Match.empty := by
  simp [Match.IsEmpty]

/-- A non-empty result of the loop was built at a final position of the
traverser, deeper than `matched_depth_`. -/
theorem NextMatch_loop_nonempty ( exact_prefix : List Nat) (greedy : Bool) (md : Nat)
    (t : Traverser) (h : (NextMatch_loop exact_prefix greedy md t).1 ≠ Match.empty) :
    ∃ p ∈ t, p.is_final = true ∧ md < p.depth ∧
      (NextMatch_loop exact_prefix greedy md t).1 = make_match exact_prefix p := by
  induction t with
  | nil => simp [NextMatch_loop] at h
  | cons p rest ih =>
    unfold NextMatch_loop at h ⊢
    by_cases hd : p.depth > md
    · by_cases hf : p.is_final = true
      · simp only [hd, hf, if_true] at h ⊢
        exact ⟨p, List.mem_cons_self _ _, hf, hd, rfl⟩
      · simp only [hd, hf, if_true] at h ⊢
        obtain ⟨q, hq, h1, h2, h3⟩ := ih h
        exact ⟨q, List.mem_cons_of_mem _ hq, h1, h2, h3⟩
    · simp [hd] at h

/-- The loop of `NextMatch` in terms of the accessors of the traverser:
`for (; GetDepth() > matched_depth_;)`, the test `IsFinalState()` and the
increment. -/
theorem NextMatch_loop_eq ( exact_prefix : List Nat) (greedy : Bool) (md : Nat) (p : Position)
    (rest : Traverser) :
    NextMatch_loop exact_prefix greedy md (p :: rest) =
      if Traverser.GetDepth (p :: rest) > md then
        if Traverser.IsFinalState (p :: rest) = true then
          (make_match exact_prefix p, if !greedy then p.payload.exact_depth else md,
            Traverser.advance (p :: rest))
        else NextMatch_loop exact_prefix greedy md (Traverser.advance (p :: rest))
      else (Match.empty, md, p :: rest) := rfl

theorem NextMatch_exact_prefix_eq (m : NearMatching) :
    (NextMatch m).2.exact_prefix_ = m.exact_prefix_ := by
  unfold NextMatch; cases m.traverser_ptr_ <;> rfl

theorem NextMatch_greedy (m : NearMatching) : (NextMatch m).2.greedy_ = m.greedy_ := by
  unfold NextMatch; cases m.traverser_ptr_ <;> rfl

theorem NextMatch_first_match (m : NearMatching) :
    (NextMatch m).2.first_match_ = m.first_match_ := by
  unfold NextMatch; cases m.traverser_ptr_ <;> rfl

theorem NextMatch_calls_exact_prefix_eq (n : Nat) (m : NearMatching) :
    (NextMatch_calls n m).exact_prefix_ = m.exact_prefix_ := by
  induction n generalizing m with
  | zero => rfl
  | succ n ih => simp [NextMatch_calls, ih, NextMatch_exact_prefix_eq]

theorem NextMatch_calls_greedy (n : Nat) (m : NearMatching) :
    (NextMatch_calls n m).greedy_ = m.greedy_ := by
  induction n generalizing m with
  | zero => rfl
  | succ n ih => simp [NextMatch_calls, ih, NextMatch_greedy]

/-- A non-empty result of `NextMatch` is the match of a final position at depth
at least one, prefixed with the stored exact prefix. -/
theorem NextMatch_nonempty (m : NearMatching) (h : (NextMatch m).1 ≠ Match.empty) :
    ∃ p : Position, p.is_final = true ∧ m.matched_depth_ < p.depth ∧
      (NextMatch m).1 = make_match m.exact_prefix_ p := by
  unfold NextMatch at h ⊢
  cases ht : m.traverser_ptr_ with
  | none => simp [ht] at h
  | some t =>
    simp only [ht] at h ⊢
    obtain ⟨p, _, h1, h2, h3⟩ := NextMatch_loop_nonempty _ _ _ _ h
    exact ⟨p, h1, h2, h3⟩

/-- The null matcher stays null and returns the empty match. -/
theorem NextMatch_default : NextMatch NearMatching.default = (Match.empty, NearMatching.default) := rfl

theorem NextMatch_calls_default (n : Nat) :
    NextMatch_calls n NearMatching.default = NearMatching.default := by
  induction n with
  | zero => rfl
  | succ n ih => simp [NextMatch_calls, NextMatch_default, ih]

theorem NextMatch_nth_default (n : Nat) : NextMatch_nth n NearMatching.default = Match.empty := by
  simp [NextMatch_nth, NextMatch_calls_default, NextMatch_default]

/-- Every non-empty match of a matcher starts with the stored exact prefix. -/
theorem NextMatch_nth_starts (n : Nat) (m : NearMatching)
    (h : NextMatch_nth n m ≠ Match.empty) :
    (NextMatch_nth n m).matched_item.take m.exact_prefix_.length = m.exact_prefix_ := by
  unfold NextMatch_nth at h ⊢
  obtain ⟨p, _, _, h3⟩ := NextMatch_nonempty _ h
  rw [h3, NextMatch_calls_exact_prefix_eq]
  simp [make_match]

/-! ## Facts about the constructors -/

theorem substr_from_ok (s : List Nat) (pos : Nat) (h : pos ≤ s.length) :
    substr_from s pos = Except.ok (s.drop pos) := by
  unfold substr_from
  rw [if_neg (by omega)]

theorem substr_from_error (s : List Nat) (pos : Nat) (h : s.length < pos) :
    substr_from s pos = Except.error Error.out_of_range := by
  unfold substr_from
  rw [if_pos (by omega)]

theorem FromSingleFsa.from_state_ok (T : Traversers) (fsa : Automata) (s : Nat)
    (query : List Nat) (n : Nat) (greedy : Bool) (h : n ≤ query.length) :
    FromSingleFsa.from_state T fsa s query n greedy =
      Except.ok (NearMatching.new (T.comparable fsa s (TraversalPayload.new (query.drop n)) true 0)
        Match.empty (query.take n) greedy) := by
  simp [FromSingleFsa.from_state, substr_from_ok _ _ h, substr_to]

/-- With `minimum_exact_prefix <= len(query)` the single automaton constructor
returns the null matcher or a matcher storing the first `minimum_exact_prefix`
bytes of the query. -/
theorem FromSingleFsa_cases (T : Traversers) (fsa : Automata) (query : List Nat)
    (n : Nat) (greedy : Bool) (h : n ≤ query.length) :
    FromSingleFsa T fsa query n greedy = Except.ok NearMatching.default ∨
    ∃ s, FromSingleFsa T fsa query n greedy =
      Except.ok (NearMatching.new (T.comparable fsa s (TraversalPayload.new (query.drop n)) true 0)
        Match.empty (query.take n) greedy) := by
  unfold FromSingleFsa FromSingleFsa.traced
  rw [if_neg (by omega)]
  rcases hw : FromSingleFsa.walk fsa query n 0 fsa.GetStartState [] with ⟨_ | s, calls⟩
  · left; rfl
  · right; exact ⟨s, FromSingleFsa.from_state_ok T fsa s query n greedy h⟩

theorem FilterWithExactPrefix_ok (fsas : List Automata) (query : List Nat) (n : Nat)
    (h : n ≤ query.length) :
    FilterWithExactPrefix fsas query n =
      Except.ok (fsas.filterMap (fun fsa =>
        let r := FilterWithExactPrefix.walk fsa query n n fsa.GetStartState 0
        if r.1 ≠ 0 ∧ r.2 = n then some (fsa, r.1, TraversalPayload.new (query.drop n))
        else none)) := by
  simp [FilterWithExactPrefix, substr_from_ok _ _ h]

/-- With `minimum_exact_prefix <= len(query)` the constructor over several
automata returns the null matcher or a matcher over the zip traverser of the
filtered automata, storing the first `minimum_exact_prefix` bytes of the query. -/
theorem FromMulipleFsas_cases (T : Traversers) (fsas : List Automata) (query : List Nat)
    (n : Nat) (greedy : Bool) (h : n ≤ query.length) :
    FromMulipleFsas T fsas query n greedy = Except.ok NearMatching.default ∨
    ∃ ps, FilterWithExactPrefix fsas query n = Except.ok ps ∧
      FromMulipleFsas T fsas query n greedy =
        Except.ok (NearMatching.new (T.zip ps) Match.empty (query.take n) greedy) := by
  unfold FromMulipleFsas
  rw [FilterWithExactPrefix_ok _ _ _ h]
  simp only [FromMulipleFsas.from_payloads, substr_from_ok _ _ h, substr_to]
  split
  · left; rfl
  · right; exact ⟨_, rfl, rfl⟩

/-! ## The stream of matches -/

/-- The iterator yields the matches of the positions `emitted` lists, given fuel
beyond the length of the traverser. -/
theorem NextMatches_eq_emitted (ep : List Nat) (fm : Match) (g : Bool) (t : Traverser) :
    ∀ (fuel md : Nat), t.length < fuel →
      NextMatches fuel
        { traverser_ptr_ := some t, exact_prefix_ := ep, first_match_ := fm, greedy_ := g,
          matched_depth_ := md } = (emitted g md t).map (make_match ep) := by
  induction t with
  | nil =>
    intro fuel md h
    cases fuel with
    | zero => omega
    | succ fuel => simp [NextMatches, NextMatch, NextMatch_loop, emitted, Match.IsEmpty]
  | cons p rest ih =>
    intro fuel md h
    cases fuel with
    | zero => omega
    | succ fuel =>
      have hlen : rest.length < fuel := by simpa using h
      by_cases hd : p.depth > md
      · by_cases hf : p.is_final = true
        · have hne : make_match ep p ≠ Match.empty := make_match_ne_empty ep p (by omega)
          simp only [NextMatches, NextMatch, NextMatch_loop, emitted, hd, hf, if_true,
            Match.IsEmpty, decide_eq_true_eq, hne, if_false, List.map_cons]
          rw [ih fuel _ hlen]
        · have h1 := ih (fuel + 1) md (by omega)
          simp only [NextMatches, NextMatch, NextMatch_loop, emitted, hd, hf, if_true] at h1 ⊢
          exact h1
      · simp [NextMatches, NextMatch, NextMatch_loop, emitted, hd, Match.IsEmpty]

/-- All matches of a freshly built matcher. -/
theorem AllMatches_new (t : Traverser) (fm : Match) (ep : List Nat) (g : Bool) :
    AllMatches (NearMatching.new t fm ep g) = (emitted g 0 t).map (make_match ep) := by
  unfold AllMatches NearMatching.new
  exact NextMatches_eq_emitted ep fm g t _ 0 (by simp [NearMatching.remaining])

theorem AllMatches_default : AllMatches NearMatching.default = [] := by
  decide

/-- Whatever the lock, a position the matcher emits without `greedy` is emitted
with `greedy`. -/
theorem emitted_subset_greedy (t : Traverser) :
    ∀ md : Nat, emitted false md t ⊆ emitted true 0 t := by
  induction t with
  | nil => intro md; simp [emitted]
  | cons p rest ih =>
    intro md
    by_cases hd : p.depth > md
    · have hd0 : p.depth > 0 := by omega
      by_cases hf : p.is_final = true
      · simp only [emitted, hd, hd0, hf, if_true]
        intro q hq
        rcases List.mem_cons.mp hq with h | h
        · exact List.mem_cons.mpr (Or.inl h)
        · exact List.mem_cons.mpr (Or.inr (ih _ h))
      · simp only [emitted, hd, hd0, hf, if_true]
        exact ih md
    · simp [emitted, hd]

/-- Every emitted position is a final position of the traverser with depth at
least one. -/
theorem emitted_spec (g : Bool) (t : Traverser) :
    ∀ md : Nat, ∀ p ∈ emitted g md t, p ∈ t ∧ p.is_final = true ∧ 0 < p.depth := by
  induction t with
  | nil => intro md p hp; simp [emitted] at hp
  | cons q rest ih =>
    intro md p hp
    by_cases hd : q.depth > md
    · by_cases hf : q.is_final = true
      · simp only [emitted, hd, hf, if_true] at hp
        rcases List.mem_cons.mp hp with h | h
        · subst h; exact ⟨List.mem_cons_self _ _, hf, by omega⟩
        · obtain ⟨h1, h2, h3⟩ := ih _ p h
          exact ⟨List.mem_cons_of_mem _ h1, h2, h3⟩
      · simp only [emitted, hd, hf, if_true] at hp
        obtain ⟨h1, h2, h3⟩ := ih _ p hp
        exact ⟨List.mem_cons_of_mem _ h1, h2, h3⟩
    · simp [emitted, hd] at hp

/-- Every non-empty match of a matcher built over the first `n <= len(query)`
bytes of the query starts with these bytes. -/
theorem NextMatch_nth_new_starts (t : Traverser) (query : List Nat) (n : Nat) (g : Bool)
    (h : n ≤ query.length) (k : Nat)
    (hk : (NextMatch_nth k (NearMatching.new t Match.empty (query.take n) g)).IsEmpty = false) :
    (NextMatch_nth k (NearMatching.new t Match.empty (query.take n) g)).matched_item.take n =
      query.take n := by
  have h1 := NextMatch_nth_starts k (NearMatching.new t Match.empty (query.take n) g)
    ((Match.IsEmpty_false_iff _).mp hk)
  have h2 : (NearMatching.new t Match.empty (query.take n) g).exact_prefix_ = query.take n := rfl
  rw [h2] at h1
  have h3 : (query.take n).length = n := by simp; omega
  rw [h3] at h1
  exact h1

/-! ## The claims -/

/-- C1 (prefix determinism): with `minimum_exact_prefix <= len(query)`, whatever the
traverser classes do, the constructors `FromSingleFsa` (from the query, or from
an already walked state) and `FromMulipleFsas` return a matcher, and every
non-empty match any call of `NextMatch` on it returns has a matched string
whose first `minimum_exact_prefix` bytes are those of the query. -/
theorem C1_prefix_determinism (T : Traversers) (fsa : Automata) (fsas : List Automata)
    (start_state : Nat) (query : List Nat) ( minimum_exact_prefix : Nat) (greedy : Bool)
    (h : minimum_exact_prefix ≤ query.length) :
    (∃ m, FromSingleFsa T fsa query minimum_exact_prefix greedy = Except.ok m ∧
      ∀ k, (NextMatch_nth k m).IsEmpty = false →
        (NextMatch_nth k m).matched_item.take minimum_exact_prefix =
          query.take minimum_exact_prefix) ∧
    (∃ m, FromSingleFsa.from_state T fsa start_state query minimum_exact_prefix greedy =
        Except.ok m ∧
      ∀ k, (NextMatch_nth k m).IsEmpty = false →
        (NextMatch_nth k m).matched_item.take minimum_exact_prefix =
          query.take minimum_exact_prefix) ∧
    (∃ m, FromMulipleFsas T fsas query minimum_exact_prefix greedy = Except.ok m ∧
      ∀ k, (NextMatch_nth k m).IsEmpty = false →
        (NextMatch_nth k m).matched_item.take minimum_exact_prefix =
          query.take minimum_exact_prefix) := by
  refine ⟨?_, ?_, ?_⟩
  · rcases FromSingleFsa_cases T fsa query minimum_exact_prefix greedy h with h1 | ⟨s, h1⟩
    · refine ⟨_, h1, ?_⟩
      intro k hk
      rw [NextMatch_nth_default] at hk
      simp [Match.IsEmpty] at hk
    · exact ⟨_, h1, fun k hk => NextMatch_nth_new_starts _ query _ greedy h k hk⟩
  · exact ⟨_, FromSingleFsa.from_state_ok T fsa start_state query minimum_exact_prefix greedy h,
      fun k hk => NextMatch_nth_new_starts _ query _ greedy h k hk⟩
  · rcases FromMulipleFsas_cases T fsas query minimum_exact_prefix greedy h with h1 | ⟨ps, _, h1⟩
    · refine ⟨_, h1, ?_⟩
      intro k hk
      rw [NextMatch_nth_default] at hk
      simp [Match.IsEmpty] at hk
    · exact ⟨_, h1, fun k hk => NextMatch_nth_new_starts _ query _ greedy h k hk⟩

/-- Witness of C1: the query `abcd` with prefix length `1` over the dictionary
`ab, abcx`, alone, from the state `2` its prefix leads to, and as the only
segment of a list; the first match is `ab`. -/
theorem C1_prefix_determinism_witness :
    (1 ≤ [97, 98, 99, 100].length ∧
      (matches_of (FromSingleFsa near_traversers fsa_ab_abcx [97, 98, 99, 100] 1 false)).map
        (fun m => m.matched_item) = [[97, 98], [97, 98, 99, 120]]) ∧
    ((∃ m, FromSingleFsa near_traversers fsa_ab_abcx [97, 98, 99, 100] 1 false = Except.ok m ∧
      ∀ k, (NextMatch_nth k m).IsEmpty = false →
        (NextMatch_nth k m).matched_item.take 1 = [97, 98, 99, 100].take 1) ∧
    (∃ m, FromSingleFsa.from_state near_traversers fsa_ab_abcx 2 [97, 98, 99, 100] 1 false =
        Except.ok m ∧
      ∀ k, (NextMatch_nth k m).IsEmpty = false →
        (NextMatch_nth k m).matched_item.take 1 = [97, 98, 99, 100].take 1) ∧
    (∃ m, FromMulipleFsas near_traversers [fsa_ab_abcx] [97, 98, 99, 100] 1 false = Except.ok m ∧
      ∀ k, (NextMatch_nth k m).IsEmpty = false →
        (NextMatch_nth k m).matched_item.take 1 = [97, 98, 99, 100].take 1)) :=
  ⟨⟨by decide, by decide⟩,
    C1_prefix_determinism near_traversers fsa_ab_abcx [fsa_ab_abcx] 2 [97, 98, 99, 100] 1 false
      (by decide)⟩

/-- No match `NextMatch` returns is as short as the stored exact prefix: a
non-empty match is strictly longer, and the empty match is not a match. -/
theorem NextMatch_nth_longer (k : Nat) (m : NearMatching)
    (h : NextMatch_nth k m ≠ Match.empty) :
    m.exact_prefix_.length < (NextMatch_nth k m).end_ := by
  unfold NextMatch_nth at h ⊢
  obtain ⟨p, _, h2, h3⟩ := NextMatch_nonempty _ h
  rw [h3, NextMatch_calls_exact_prefix_eq]
  simp [make_match]
  omega

/-- C2 (a stored key queried with its full length as prefix), evaluated: the
dictionary `ab -> 1` holds the key `ab`, yet the matcher for the query `ab`
with `minimum_exact_prefix = 2`, not greedy, built from the automaton alone or
as the only segment of a list, yields no match at all: `FirstMatch` is the empty
sentinel and so is every `NextMatch`. -/
theorem C2_stored_key_not_returned :
    fsa_ab.lookup [97, 98] = some 1 ∧
    (∃ m, FromSingleFsa near_traversers fsa_ab [97, 98] 2 false = Except.ok m ∧
      FirstMatch m = Match.empty ∧ AllMatches m = [] ∧ (NextMatch m).1 = Match.empty) ∧
    (∃ m, FromMulipleFsas near_traversers [fsa_ab] [97, 98] 2 false = Except.ok m ∧
      FirstMatch m = Match.empty ∧ AllMatches m = [] ∧ (NextMatch m).1 = Match.empty) := by
  refine ⟨by decide, ⟨_, rfl, by decide, by decide, by decide⟩,
    ⟨_, rfl, by decide, by decide, by decide⟩⟩

/-- C3 (near locking), evaluated: over the dictionary `ab -> 1, abcx -> 2` with the
query `abcd`, `minimum_exact_prefix = 1`, not greedy. Below the prefix state the
traverser shows `b` (depth 1, final, `exact_depth` 1), `bc` (depth 2,
`exact_depth` 2) and `bcx` (depth 3, final, `exact_depth` 2); the matcher emits
`ab` at `exact_depth = 1` (score 2) and then `abcx` at `exact_depth = 2`
(score 3): two matches of different exact depth. -/
theorem C3_lock_moves :
    (near_traversers.comparable fsa_ab_abcx 2 (TraversalPayload.new [98, 99, 100]) true 0).map
        (fun p => (p.labels, p.depth, p.is_final, p.payload.exact_depth)) =
      [([98], 1, true, 1), ([98, 99], 2, false, 2), ([98, 99, 120], 3, true, 2)] ∧
    (matches_of (FromSingleFsa near_traversers fsa_ab_abcx [97, 98, 99, 100] 1 false)).map
        (fun m => (m.matched_item, m.score)) =
      [([97, 98], 2), ([97, 98, 99, 120], 3)] ∧
    (matches_of (FromMulipleFsas near_traversers [fsa_ab_abcx] [97, 98, 99, 100] 1 false)).map
        (fun m => (m.matched_item, m.score)) =
      [([97, 98], 2), ([97, 98, 99, 120], 3)] := by
  refine ⟨by decide, by decide, by decide⟩

/-- C4 (longest matched prefix), evaluated: over the dictionary
`ab -> 1, abcdx -> 2, abcz -> 3` with the query `abcde`,
`minimum_exact_prefix = 1`, not greedy. The traverser shows `b` (final), `bc`,
`bcd`, `bcdx` (final) and `bcz` (final); the matcher emits `ab` and `abcdx`,
locks at depth 3 and leaves out the stored key `abcz`, which shares three bytes
with the query where the emitted `ab` shares two. -/
theorem C4_not_longest_prefix :
    (near_traversers.comparable fsa_ab_abcdx_abcz 2 (TraversalPayload.new [98, 99, 100, 101])
        true 0).map (fun p => (p.labels, p.depth, p.is_final, p.payload.exact_depth)) =
      [([98], 1, true, 1), ([98, 99], 2, false, 2), ([98, 99, 100], 3, false, 3),
        ([98, 99, 100, 120], 4, true, 3), ([98, 99, 122], 3, true, 2)] ∧
    (matches_of (FromSingleFsa near_traversers fsa_ab_abcdx_abcz [97, 98, 99, 100, 101] 1
        false)).map (fun m => m.matched_item) = [[97, 98], [97, 98, 99, 100, 120]] ∧
    fsa_ab_abcdx_abcz.lookup [97, 98, 99, 122] = some 3 ∧
    [97, 98, 99, 122].take 3 = [97, 98, 99, 100, 101].take 3 ∧
    [97, 98].take 3 ≠ [97, 98, 99, 100, 101].take 3 := by
  refine ⟨by decide, by decide, by decide, by decide, by decide⟩

/-- The matches of a matcher over a traverser without `greedy` are among those
with `greedy`. -/
theorem AllMatches_subset_greedy (t : Traverser) (fm : Match) (ep : List Nat) :
    AllMatches (NearMatching.new t fm ep false) ⊆ AllMatches (NearMatching.new t fm ep true) := by
  rw [AllMatches_new, AllMatches_new]
  intro r hr
  obtain ⟨p, hp, rfl⟩ := List.mem_map.mp hr
  exact List.mem_map.mpr ⟨p, emitted_subset_greedy t 0 hp, rfl⟩

/-- C5 (greedy superset): for every segment list, query and
`minimum_exact_prefix`, and whatever the traverser classes do, every match the
matcher yields with `greedy = false` is among the matches it yields with
`greedy = true`, for the single automaton constructor and for the constructor
over several automata. -/
theorem C5_greedy_superset (T : Traversers) (fsa : Automata) (fsas : List Automata)
    (query : List Nat) ( minimum_exact_prefix : Nat) :
    matches_of (FromSingleFsa T fsa query minimum_exact_prefix false) ⊆
      matches_of (FromSingleFsa T fsa query minimum_exact_prefix true) ∧
    matches_of (FromMulipleFsas T fsas query minimum_exact_prefix false) ⊆
      matches_of (FromMulipleFsas T fsas query minimum_exact_prefix true) := by
  constructor
  · unfold FromSingleFsa FromSingleFsa.traced
    by_cases hq : query.length < minimum_exact_prefix
    · simp [hq]
    · simp only [hq, if_false]
      rcases FromSingleFsa.walk fsa query minimum_exact_prefix 0 fsa.GetStartState []
        with ⟨_ | s, calls⟩
      · simp
      · simp only [FromSingleFsa.from_state_ok T fsa s query minimum_exact_prefix _ (by omega),
          matches_of]
        exact AllMatches_subset_greedy _ _ _
  · unfold FromMulipleFsas
    cases hf : FilterWithExactPrefix fsas query minimum_exact_prefix with
    | error e => simp [matches_of]
    | ok ps =>
      simp only [FromMulipleFsas.from_payloads]
      by_cases hl : ps.length = 0
      · simp [hl]
      · simp only [hl, if_false]
        cases substr_from query minimum_exact_prefix with
        | error e => simp [matches_of]
        | ok nk =>
          simp only [matches_of]
          exact AllMatches_subset_greedy _ _ _

/-- `NextMatch` by itself, over the dictionary `ab -> 1, ac -> 2` with the query
`ab`, `minimum_exact_prefix = 1`, not greedy. The traverser shows `b` (depth 1,
final, `exact_depth` 1) and `c` (depth 1, final, `exact_depth` 0). `NextMatch`
takes no deletion predicate: its first call returns `ab` with the value of this
segment and locks `matched_depth_` to `1` from it; the second call then returns
the empty match, so the stored key `ac` is never reached. Deletion masking is
not a filter behind `NextMatch`. -/
theorem NextMatch_alone_instance :
    (near_traversers.zip [(fsa_ab_ac, 2, TraversalPayload.new [98])]).map
        (fun p => (p.labels, p.depth, p.is_final, p.payload.exact_depth)) =
      [([98], 1, true, 1), ([99], 1, true, 0)] ∧
    ∃ m, FromMulipleFsas near_traversers [fsa_ab_ac] [97, 98] 1 false = Except.ok m ∧
      ((NextMatch m).1.matched_item = [97, 98] ∧ (NextMatch m).1.state_value = 1 ∧
        (NextMatch m).1.fsa = some fsa_ab_ac) ∧
      (NextMatch m).2.matched_depth_ = 1 ∧
      (NextMatch (NextMatch m).2).1 = Match.empty ∧
      fsa_ab_ac.lookup [97, 99] = some 2 ∧
      (∀ k, (NextMatch_nth k m).matched_item ≠ [97, 99]) := by
  refine ⟨by decide, _, rfl, by decide, by decide, by decide, by decide, ?_⟩
  intro k
  cases k with
  | zero => decide
  | succ k =>
    cases k with
    | zero => decide
    | succ k =>
      have h : ∀ j m0, (NextMatch m0).1 = Match.empty → (NextMatch m0).2 = m0 →
          NextMatch_nth j m0 = Match.empty := by
        intro j
        induction j with
        | zero => intro m0 h1 _; exact h1
        | succ j ih =>
          intro m0 h1 h2
          have : NextMatch_nth (j + 1) m0 = NextMatch_nth j (NextMatch m0).2 := rfl
          rw [this, h2]
          exact ih m0 h1 h2
      have h2 : ∀ m0, NextMatch_nth (k + 1 + 1) m0
          = NextMatch_nth k (NextMatch (NextMatch m0).2).2 := fun _ => rfl
      rw [h2, h _ _ (by decide) (by decide)]
      decide

/-- C8 (prefix longer than the query, one automaton): if
`minimum_exact_prefix > len(query)`, `FromSingleFsa` returns the null matcher,
whose every `NextMatch` returns the empty match, and it has called
`TryWalkTransition` not once. -/
theorem C8_single_prefix_too_long (T : Traversers) (fsa : Automata) (query : List Nat)
    ( minimum_exact_prefix : Nat) (greedy : Bool) (h : query.length < minimum_exact_prefix) :
    FromSingleFsa.traced T fsa query minimum_exact_prefix greedy =
      (Except.ok NearMatching.default, []) ∧
    FromSingleFsa T fsa query minimum_exact_prefix greedy = Except.ok NearMatching.default ∧
    NearMatching.default.traverser_ptr_ = none ∧
    ∀ k, NextMatch_nth k NearMatching.default = Match.empty := by
  have h1 : FromSingleFsa.traced T fsa query minimum_exact_prefix greedy =
      (Except.ok NearMatching.default, []) := by
    unfold FromSingleFsa.traced
    rw [if_pos h]
  refine ⟨h1, ?_, rfl, NextMatch_nth_default⟩
  unfold FromSingleFsa
  rw [h1]

/-- Witness of C8: the query `a` with `minimum_exact_prefix = 2` over the
dictionary `ab`. -/
theorem C8_single_prefix_too_long_witness :
    [97].length < 2 ∧
    (FromSingleFsa.traced near_traversers fsa_ab [97] 2 false =
      (Except.ok NearMatching.default, []) ∧
    FromSingleFsa near_traversers fsa_ab [97] 2 false = Except.ok NearMatching.default ∧
    NearMatching.default.traverser_ptr_ = none ∧
    ∀ k, NextMatch_nth k NearMatching.default = Match.empty) :=
  ⟨by decide, C8_single_prefix_too_long near_traversers fsa_ab [97] 2 false (by decide)⟩

/-- C9 (prefix longer than the query, several automata), as the code has it: if
`minimum_exact_prefix > len(query)`, `FilterWithExactPrefix` raises
`std::out_of_range` from `query.substr( minimum_exact_prefix)` instead of
returning the empty list, and `FromMulipleFsas` raises it with it, whatever the
list of automata and the traverser classes. -/
theorem C9_multiple_prefix_too_long_raises (T : Traversers) (fsas : List Automata)
    (query : List Nat) ( minimum_exact_prefix : Nat) (greedy : Bool)
    (h : query.length < minimum_exact_prefix) :
    FilterWithExactPrefix fsas query minimum_exact_prefix = Except.error Error.out_of_range ∧
    FromMulipleFsas T fsas query minimum_exact_prefix greedy =
      Except.error Error.out_of_range := by
  have h1 : FilterWithExactPrefix fsas query minimum_exact_prefix =
      Except.error Error.out_of_range := by
    simp [FilterWithExactPrefix, substr_from_error _ _ h]
  refine ⟨h1, ?_⟩
  unfold FromMulipleFsas
  rw [h1]

/-- Witness of C9: the query `a` with `minimum_exact_prefix = 2` over the
segment list holding the dictionary `ab`. -/
theorem C9_multiple_prefix_too_long_raises_witness :
    [97].length < 2 ∧
    (FilterWithExactPrefix [fsa_ab] [97] 2 = Except.error Error.out_of_range ∧
    FromMulipleFsas near_traversers [fsa_ab] [97] 2 false = Except.error Error.out_of_range) :=
  ⟨by decide, C9_multiple_prefix_too_long_raises near_traversers [fsa_ab] [97] 2 false (by decide)⟩

/-! ## Prefix gating -/

/-- The fuel of the loop of `FilterWithExactPrefix` is enough: with as many
iterations as prefix bytes are left, the loop ends because its condition
`state != 0 && depth < minimum_exact_prefix` fails. -/
theorem FilterWithExactPrefix.walk_done (fsa : Automata) (query : List Nat) (n : Nat) :
    ∀ (fuel state depth : Nat), n ≤ depth + fuel →
      ¬ ((FilterWithExactPrefix.walk fsa query n fuel state depth).1 ≠ 0 ∧
        (FilterWithExactPrefix.walk fsa query n fuel state depth).2 < n) := by
  intro fuel
  induction fuel with
  | zero =>
    intro state depth h
    simp only [FilterWithExactPrefix.walk]
    omega
  | succ fuel ih =>
    intro state depth h
    unfold FilterWithExactPrefix.walk
    by_cases hc : state ≠ 0 ∧ depth < n
    · rw [if_pos hc]
      exact ih _ _ (by omega)
    · rw [if_neg hc]
      exact hc

theorem FilterWithExactPrefix.walk_zero (fsa : Automata) (query : List Nat) (n fuel depth : Nat) :
    FilterWithExactPrefix.walk fsa query n fuel 0 depth = (0, depth) := by
  cases fuel <;> simp [FilterWithExactPrefix.walk]

/-- The loop of `FilterWithExactPrefix` against the walk of the remaining prefix
bytes: from a state other than `0`, with `fuel` bytes of the prefix left, the
loop ends in the state the walk reaches, at depth `n`, or in state `0` when the
walk fails. -/
theorem FilterWithExactPrefix.walk_eq (fsa : Automata) (query : List Nat) (n : Nat)
    (hn : n ≤ query.length) :
    ∀ (fuel state depth : Nat), state ≠ 0 → depth + fuel = n →
      match fsa.walk state ((query.drop depth).take fuel) with
      | some s => FilterWithExactPrefix.walk fsa query n fuel state depth = (s, n) ∧ s ≠ 0
      | none => (FilterWithExactPrefix.walk fsa query n fuel state depth).1 = 0 := by
  intro fuel
  induction fuel with
  | zero =>
    intro state depth hs hd
    simp only [List.take_zero, Automata.walk, FilterWithExactPrefix.walk]
    exact ⟨by rw [show depth = n by omega], hs⟩
  | succ fuel ih =>
    intro state depth hs hd
    have hlt : depth < query.length := by omega
    have hdrop : query.drop depth = query.getD depth 0 :: query.drop (depth + 1) := by
      rw [List.getD_eq_getElem _ _ hlt]
      exact List.drop_eq_getElem_cons hlt
    have hdn : depth < n := by omega
    have hstep : FilterWithExactPrefix.walk fsa query n (fuel + 1) state depth =
        FilterWithExactPrefix.walk fsa query n fuel
          (fsa.TryWalkTransition state (query.getD depth 0)) (depth + 1) := by
      simp [FilterWithExactPrefix.walk, hs, hdn]
    rw [hdrop, List.take_succ_cons, hstep]
    by_cases ht : fsa.TryWalkTransition state (query.getD depth 0) = 0
    · simp only [Automata.walk, ht, if_true]
      rw [FilterWithExactPrefix.walk_zero]
    · simp only [Automata.walk, ht, if_false]
      exact ih _ (depth + 1) ht (by omega)

theorem FilterWithExactPrefix_eq_spec (fsas : List Automata) (query : List Nat) (n : Nat)
    (h : n ≤ query.length) (hstart : ∀ fsa ∈ fsas, fsa.GetStartState ≠ 0) :
    FilterWithExactPrefix fsas query n = Except.ok (FilterWithExactPrefix_spec fsas query n) := by
  rw [FilterWithExactPrefix_ok _ _ _ h]
  congr 1
  unfold FilterWithExactPrefix_spec
  apply List.filterMap_congr
  intro fsa hf
  have hw := FilterWithExactPrefix.walk_eq fsa query n h n fsa.GetStartState 0
    (hstart fsa hf) (by omega)
  simp only [List.drop_zero] at hw
  cases hwalk : fsa.walk fsa.GetStartState (query.take n) with
  | none =>
    rw [hwalk] at hw
    simp [hw]
  | some s =>
    rw [hwalk] at hw
    simp [hw.1, hw.2]

/-- C10 (prefix gating): for automata whose start state is a state (not `0`) and
`minimum_exact_prefix <= len(query)`, `FilterWithExactPrefix` returns exactly
the list the spec describes: the automata in input order, those dropped for
which a step of the walk over the first `minimum_exact_prefix` query bytes
returns state `0`, each of the others paired with the state after the last
prefix byte (and a fresh payload over the query tail); the surviving automata
keep their input order. -/
theorem C10_filter_with_exact_prefix (fsas : List Automata) (query : List Nat)
    ( minimum_exact_prefix : Nat) (h : minimum_exact_prefix ≤ query.length)
    (hstart : ∀ fsa ∈ fsas, fsa.GetStartState ≠ 0) :
    FilterWithExactPrefix fsas query minimum_exact_prefix =
      Except.ok (FilterWithExactPrefix_spec fsas query minimum_exact_prefix) ∧
    ((FilterWithExactPrefix_spec fsas query minimum_exact_prefix).map (fun e => e.1)).Sublist
      fsas := by
  constructor
  · exact FilterWithExactPrefix_eq_spec fsas query minimum_exact_prefix h hstart
  · unfold FilterWithExactPrefix_spec
    induction fsas with
    | nil => simp
    | cons f fs ih =>
      have ih2 := ih (fun g hg => hstart g (List.mem_cons_of_mem _ hg))
      rw [List.filterMap_cons]
      cases f.walk f.GetStartState (query.take minimum_exact_prefix) with
      | none => exact List.Sublist.cons _ ih2
      | some s => exact List.Sublist.cons₂ _ ih2

/-- Witness of C10: the query `abcd` with `minimum_exact_prefix = 3` over three
segments, of which the second has no transition for the third byte. -/
theorem C10_filter_with_exact_prefix_witness :
    (3 ≤ [97, 98, 99, 100].length ∧
      ∀ fsa ∈ [fsa_ab_abcx, fsa_ab_ac, fsa_ab_abcdx_abcz], fsa.GetStartState ≠ 0) ∧
    FilterWithExactPrefix_spec [fsa_ab_abcx, fsa_ab_ac, fsa_ab_abcdx_abcz] [97, 98, 99, 100] 3 =
      [(fsa_ab_abcx, 4, TraversalPayload.new [100]),
        (fsa_ab_abcdx_abcz, 4, TraversalPayload.new [100])] ∧
    (FilterWithExactPrefix [fsa_ab_abcx, fsa_ab_ac, fsa_ab_abcdx_abcz] [97, 98, 99, 100] 3 =
      Except.ok
        (FilterWithExactPrefix_spec [fsa_ab_abcx, fsa_ab_ac, fsa_ab_abcdx_abcz]
          [97, 98, 99, 100] 3) ∧
    ((FilterWithExactPrefix_spec [fsa_ab_abcx, fsa_ab_ac, fsa_ab_abcdx_abcz]
      [97, 98, 99, 100] 3).map (fun e => e.1)).Sublist
        [fsa_ab_abcx, fsa_ab_ac, fsa_ab_abcdx_abcz]) :=
  ⟨⟨by decide, by decide⟩, by decide,
    C10_filter_with_exact_prefix [fsa_ab_abcx, fsa_ab_ac, fsa_ab_abcdx_abcz] [97, 98, 99, 100] 3
      (by decide) (by decide)⟩

/-! ## The order of the near traverser -/

theorem near_rank_inj (key : Option (List Nat)) (a b : Nat)
    (h : near_rank key a = near_rank key b) : a = b := by
  unfold near_rank at h
  split at h
  · split at h <;> split at h <;> omega
  · omega

theorem near_before_irrefl (p : List Nat) : ∀ key, near_before key p p = false := by
  induction p with
  | nil => intro key; rfl
  | cons a p ih => intro key; simp [near_before, ih]

theorem near_before_trans (p : List Nat) :
    ∀ key q r, near_before key p q = true → near_before key q r = true →
      near_before key p r = true := by
  induction p with
  | nil =>
    intro key q r h1 h2
    cases q with
    | nil => simp [near_before] at h1
    | cons b q =>
      cases r with
      | nil => simp [near_before] at h2
      | cons c r => rfl
  | cons a p ih =>
    intro key q r h1 h2
    cases q with
    | nil => simp [near_before] at h1
    | cons b q =>
      cases r with
      | nil => simp [near_before] at h2
      | cons c r =>
        unfold near_before at h1 h2 ⊢
        by_cases hab : a = b
        · subst hab
          by_cases hac : a = c
          · subst hac
            simp only [if_true] at h1 h2 ⊢
            exact ih _ _ _ h1 h2
          · simp only [hac, if_true, if_false] at h1 h2 ⊢
            exact h2
        · by_cases hbc : b = c
          · subst hbc
            simp only [hab, if_true, if_false] at h1 h2 ⊢
            exact h1
          · simp only [hab, hbc, if_false, decide_eq_true_eq] at h1 h2
            have hac : a ≠ c := by
              intro h; subst h; omega
            simp only [hac, if_false, decide_eq_true_eq]
            omega

theorem near_before_total (p : List Nat) :
    ∀ key q, p ≠ q → near_before key p q = true ∨ near_before key q p = true := by
  induction p with
  | nil =>
    intro key q h
    cases q with
    | nil => exact absurd rfl h
    | cons b q => left; rfl
  | cons a p ih =>
    intro key q h
    cases q with
    | nil => right; rfl
    | cons b q =>
      unfold near_before
      by_cases hab : a = b
      · subst hab
        simp only [if_true]
        exact ih _ q (fun hpq => h (by rw [hpq]))
      · have hba : ¬ b = a := fun hh => hab hh.symm
        have hr : near_rank key a ≠ near_rank key b := fun hh => hab (near_rank_inj key a b hh)
        simp only [hab, hba, if_false, decide_eq_true_eq]
        omega

theorem near_before_asymm (key : Option (List Nat)) (p q : List Nat)
    (h : near_before key p q = true) : near_before key q p = false := by
  cases hq : near_before key q p with
  | false => rfl
  | true =>
    have := near_before_trans p key q p h hq
    rw [near_before_irrefl] at this
    exact absurd this (by simp)

theorem near_before_ne (key : Option (List Nat)) (p q : List Nat)
    (h : near_before key p q = true) : p ≠ q := by
  intro hpq
  subst hpq
  rw [near_before_irrefl] at h
  exact absurd h (by simp)

theorem near_payload_lookup_key (payload : TraversalPayload) (depth c : Nat) :
    (near_payload payload depth c).lookup_key = payload.lookup_key := by
  unfold near_payload; split <;> rfl

theorem near_payload_exact_depth_le (payload : TraversalPayload) (depth c : Nat)
    (h : payload.exact_depth ≤ depth) : (near_payload payload depth c).exact_depth ≤ depth + 1 := by
  unfold near_payload
  split
  · show depth + 1 ≤ depth + 1
    omega
  · omega

theorem near_state_child (payload : TraversalPayload) (depth c : Nat)
    (h : payload.exact_depth ≤ depth) :
    near_state (near_payload payload depth c) (depth + 1) =
      near_next (near_state payload depth) c := by
  unfold near_state near_payload near_next
  by_cases h1 : payload.exact_depth = depth
  · cases hg : payload.lookup_key.get? depth with
    | none =>
      have hlen : payload.lookup_key.length ≤ depth := by
        rw [List.get?_eq_getElem?] at hg
        exact List.getElem?_eq_none_iff.mp hg
      have hd : payload.lookup_key.drop depth = [] := List.drop_eq_nil_of_le hlen
      simp [h1, hd]
    | some k =>
      obtain ⟨hlt, hk⟩ := List.get?_eq_some.mp hg
      have hd : payload.lookup_key.drop depth = k :: payload.lookup_key.drop (depth + 1) := by
        rw [List.drop_eq_getElem_cons hlt]
        simp at hk
        rw [hk]
      by_cases hc : c = k
      · subst hc; simp [h1, hd]
      · have hc' : ¬ k = c := fun hh => hc hh.symm
        simp [h1, hd, hc, hc']
  · have h2 : ¬ payload.exact_depth = depth + 1 := by omega
    simp [h1, h2]

theorem mem_near_order (payload : TraversalPayload) (depth : Nat) (labels : List Nat) (a : Nat) :
    a ∈ near_order payload depth labels ↔ a ∈ labels := by
  unfold near_order
  split
  · rename_i c hc
    split
    · rename_i hcond
      by_cases hac : a = c
      · subst hac; simp [hcond.2]
      · simp [hac, List.mem_filter]
    · rfl
  · rfl

theorem near_order_ranked (payload : TraversalPayload) (depth : Nat) (labels : List Nat)
    (hl : labels.Pairwise (fun a b => a < b)) :
    (near_order payload depth labels).Pairwise
      (fun a b => near_rank (near_state payload depth) a < near_rank (near_state payload depth) b) := by
  unfold near_order
  cases hg : payload.lookup_key.get? depth with
  | none =>
    have hlen : payload.lookup_key.length ≤ depth := by
      rw [List.get?_eq_getElem?] at hg
      exact List.getElem?_eq_none_iff.mp hg
    have hd : payload.lookup_key.drop depth = [] := List.drop_eq_nil_of_le hlen
    simp only
    refine hl.imp ?_
    intro a b hab
    by_cases h1 : payload.exact_depth = depth
    · simp [near_state, near_rank, h1, hd, hab]
    · simp [near_state, near_rank, h1, hab]
  | some k =>
    obtain ⟨hlt, hk⟩ := List.get?_eq_some.mp hg
    have hd : payload.lookup_key.drop depth = k :: payload.lookup_key.drop (depth + 1) := by
      rw [List.drop_eq_getElem_cons hlt]
      simp at hk
      rw [hk]
    simp only
    by_cases h1 : payload.exact_depth = depth
    · have hst : near_state payload depth = some (k :: payload.lookup_key.drop (depth + 1)) := by
        simp [near_state, h1, hd]
      rw [hst]
      by_cases hmem : k ∈ labels
      · simp only [h1, hmem, and_self, if_true]
        refine List.pairwise_cons.mpr ⟨?_, ?_⟩
        · intro a ha
          have hak : a ≠ k := by
            have := (List.mem_filter.mp ha).2
            simpa using this
          simp [near_rank, hak]
        · have hf : (labels.filter (fun l => l != k)).Pairwise (fun a b => a < b) :=
            hl.filter _
          refine hf.imp_of_mem ?_
          intro a b ha hb hab
          have hak : a ≠ k := by
            have := (List.mem_filter.mp ha).2
            simpa using this
          have hbk : b ≠ k := by
            have := (List.mem_filter.mp hb).2
            simpa using this
          simp [near_rank, hak, hbk, hab]
      · simp only [h1, hmem, and_false, if_false]
        refine hl.imp_of_mem ?_
        intro a b ha hb hab
        have hak : a ≠ k := fun hh => hmem (hh ▸ ha)
        have hbk : b ≠ k := fun hh => hmem (hh ▸ hb)
        simp [near_rank, hak, hbk, hab]
    · have hst : near_state payload depth = none := by simp [near_state, h1]
      rw [hst]
      simp only [h1, false_and, if_false]
      refine hl.imp ?_
      intro a b hab
      simp [near_rank, hab]

theorem mem_outgoing_labels (f : Automata) (state c : Nat) :
    c ∈ f.outgoing_labels state ↔ c < 256 ∧ f.TryWalkTransition state c ≠ 0 := by
  simp [Automata.outgoing_labels, List.mem_filter, List.mem_range]

theorem outgoing_labels_sorted (f : Automata) (state : Nat) :
    (f.outgoing_labels state).Pairwise (fun a b => a < b) :=
  (List.pairwise_lt_range 256).filter _

theorem near_traverse_succ (f : Automata) (fuel state : Nat) (path : List Nat)
    (payload : TraversalPayload) :
    near_traverse f (fuel + 1) state path payload =
      (near_order payload path.length (f.outgoing_labels state)).flatMap (fun c =>
        { depth := path.length + 1,
          is_final := f.IsFinalState (f.TryWalkTransition state c),
          labels := path ++ [c],
          payload := near_payload payload path.length c,
          fsa := f,
          state_value := f.GetStateValue (f.TryWalkTransition state c) } ::
          near_traverse f fuel (f.TryWalkTransition state c) (path ++ [c])
            (near_payload payload path.length c)) := rfl

/-- Every position of the near traverser below `state` stands on the state a walk
of bytes from `state` reaches, and shows its finality and value. -/
theorem near_traverse_sound (f : Automata) (fuel : Nat) :
    ∀ (state : Nat) (path : List Nat) (payload : TraversalPayload),
      ∀ q ∈ near_traverse f fuel state path payload,
        ∃ ext t, ext ≠ [] ∧ q.labels = path ++ ext ∧ q.depth = q.labels.length ∧
          f.walk state ext = some t ∧ q.is_final = f.IsFinalState t ∧
          q.state_value = f.GetStateValue t ∧ q.fsa = f ∧ ∀ b ∈ ext, b < 256 := by
  induction fuel with
  | zero => intro state path payload q hq; simp [near_traverse] at hq
  | succ fuel ih =>
    intro state path payload q hq
    rw [near_traverse_succ] at hq
    obtain ⟨c, hc, hq⟩ := List.mem_flatMap.mp hq
    have hc2 := (mem_outgoing_labels f state c).mp ((mem_near_order _ _ _ c).mp hc)
    rcases List.mem_cons.mp hq with h1 | h1
    · subst h1
      refine ⟨[c], f.TryWalkTransition state c, by simp, rfl, by simp, ?_, rfl, rfl, rfl, ?_⟩
      · simp [Automata.walk, hc2.2]
      · intro b hb
        simp at hb
        subst hb
        exact hc2.1
    · obtain ⟨ext, t, h2, h3, h4, h5, h6, h7, h8, h9⟩ := ih _ _ _ q h1
      refine ⟨c :: ext, t, by simp, ?_, h4, ?_, h6, h7, h8, ?_⟩
      · rw [h3]; simp
      · simp [Automata.walk, hc2.2, h5]
      · intro b hb
        rcases List.mem_cons.mp hb with hb1 | hb1
        · subst hb1; exact hc2.1
        · exact h9 b hb1

/-- The near traverser visits every state a walk of at most `fuel` bytes reaches
from `state`. -/
theorem near_traverse_complete (f : Automata) (fuel : Nat) :
    ∀ (state : Nat) (path : List Nat) (payload : TraversalPayload) (ext : List Nat) (t : Nat),
      ext ≠ [] → ext.length ≤ fuel → (∀ b ∈ ext, b < 256) → f.walk state ext = some t →
      ∃ q ∈ near_traverse f fuel state path payload, q.labels = path ++ ext := by
  induction fuel with
  | zero =>
    intro state path payload ext t h1 h2
    cases ext with
    | nil => exact absurd rfl h1
    | cons c e => simp at h2
  | succ fuel ih =>
    intro state path payload ext t h1 h2 h3 h4
    cases ext with
    | nil => exact absurd rfl h1
    | cons c e =>
      have hc0 : f.TryWalkTransition state c ≠ 0 := by
        intro h0
        simp [Automata.walk, h0] at h4
      have hwalk : f.walk (f.TryWalkTransition state c) e = some t := by
        simpa [Automata.walk, hc0] using h4
      have hc : c ∈ near_order payload path.length (f.outgoing_labels state) :=
        (mem_near_order _ _ _ c).mpr
          ((mem_outgoing_labels f state c).mpr ⟨h3 c (List.mem_cons_self _ _), hc0⟩)
      rw [near_traverse_succ]
      cases e with
      | nil =>
        exact ⟨_, List.mem_flatMap.mpr ⟨c, hc, List.mem_cons_self _ _⟩, rfl⟩
      | cons d e =>
        obtain ⟨q, hq, hql⟩ := ih (f.TryWalkTransition state c) (path ++ [c])
          (near_payload payload path.length c) (d :: e) t (by simp)
          (by simpa using h2) (fun b hb => h3 b (List.mem_cons_of_mem _ hb)) hwalk
        refine ⟨q, List.mem_flatMap.mpr ⟨c, hc, List.mem_cons_of_mem _ hq⟩, ?_⟩
        rw [hql]; simp

/-- The near traverser visits its positions in the order `near_before`, taken
relative to the frame it starts in. -/
theorem near_traverse_ordered (f : Automata) (fuel : Nat) :
    ∀ (state : Nat) (path : List Nat) (payload : TraversalPayload),
      payload.exact_depth ≤ path.length →
      (near_traverse f fuel state path payload).Pairwise (fun p q =>
        near_before (near_state payload path.length) (p.labels.drop path.length)
          (q.labels.drop path.length) = true) := by
  induction fuel with
  | zero => intro state path payload _; simp [near_traverse]
  | succ fuel ih =>
    intro state path payload hle
    rw [near_traverse_succ]
    have hshape : ∀ c, ∀ x ∈
        ({ depth := path.length + 1,
           is_final := f.IsFinalState (f.TryWalkTransition state c),
           labels := path ++ [c],
           payload := near_payload payload path.length c,
           fsa := f,
           state_value := f.GetStateValue (f.TryWalkTransition state c) } :: near_traverse f fuel
            (f.TryWalkTransition state c) (path ++ [c]) (near_payload payload path.length c) :
          List Position),
        ∃ e, x.labels.drop path.length = c :: e := by
      intro c x hx
      rcases List.mem_cons.mp hx with h1 | h1
      · subst h1; exact ⟨[], by simp⟩
      · obtain ⟨ext, _, _, h3, _⟩ := near_traverse_sound f fuel _ _ _ x h1
        exact ⟨ext, by rw [h3]; simp⟩
    rw [List.pairwise_flatMap]
    constructor
    · intro c _
      refine List.pairwise_cons.mpr ⟨?_, ?_⟩
      · intro y hy
        obtain ⟨ext, _, hne, h3, _⟩ := near_traverse_sound f fuel _ _ _ y hy
        have hy2 : y.labels.drop path.length = c :: ext := by rw [h3]; simp
        rw [hy2]
        cases ext with
        | nil => exact absurd rfl hne
        | cons d e => simp [near_before]
      · have ih' := ih (f.TryWalkTransition state c) (path ++ [c])
          (near_payload payload path.length c)
          (by simpa using near_payload_exact_depth_le payload path.length c hle)
        refine ih'.imp_of_mem ?_
        intro x y hx hy hxy
        obtain ⟨ex, _, _, hx3, _⟩ := near_traverse_sound f fuel _ _ _ x hx
        obtain ⟨ey, _, _, hy3, _⟩ := near_traverse_sound f fuel _ _ _ y hy
        have hx2 : x.labels.drop path.length = c :: ex := by rw [hx3]; simp
        have hy2 : y.labels.drop path.length = c :: ey := by rw [hy3]; simp
        have hx4 : x.labels.drop (path ++ [c]).length = ex := by rw [hx3]; simp
        have hy4 : y.labels.drop (path ++ [c]).length = ey := by rw [hy3]; simp
        rw [hx4, hy4] at hxy
        have hlen : (path ++ [c]).length = path.length + 1 := by simp
        rw [hlen, near_state_child payload path.length c hle] at hxy
        rw [hx2, hy2]
        simp [near_before, hxy]
    · refine (near_order_ranked payload path.length _ (outgoing_labels_sorted f state)).imp ?_
      intro c1 c2 hr x hx y hy
      obtain ⟨ex, hx2⟩ := hshape c1 x hx
      obtain ⟨ey, hy2⟩ := hshape c2 y hy
      have hne : c1 ≠ c2 := by
        intro hh; subst hh; omega
      rw [hx2, hy2]
      simp [near_before, hne, hr]

/-! ## The zip traverser -/

theorem zip_head_none (key : List Nat) (ts : List Traverser) (h : zip_head key ts = none) :
    ∀ t ∈ ts, t = [] := by
  induction ts with
  | nil => intro t ht; simp at ht
  | cons t ts ih =>
    cases t with
    | nil =>
      intro t' ht'
      rcases List.mem_cons.mp ht' with h1 | h1
      · exact h1
      · exact ih (by simpa [zip_head] using h) t' h1
    | cons p rest =>
      exfalso
      unfold zip_head at h
      split at h
      · simp at h
      · split at h <;> simp at h

theorem zip_head_mem (key : List Nat) (ts : List Traverser) (q : Position)
    (h : zip_head key ts = some q) : ∃ rest, (q :: rest) ∈ ts := by
  induction ts generalizing q with
  | nil => simp [zip_head] at h
  | cons t ts ih =>
    cases t with
    | nil =>
      obtain ⟨rest, hr⟩ := ih q (by simpa [zip_head] using h)
      exact ⟨rest, List.mem_cons_of_mem _ hr⟩
    | cons p rest =>
      unfold zip_head at h
      split at h
      · simp at h; subst h; exact ⟨rest, List.mem_cons_self _ _⟩
      · rename_i q' hq'
        split at h
        · simp at h; subst h; exact ⟨rest, List.mem_cons_self _ _⟩
        · simp at h; subst h
          obtain ⟨r, hr⟩ := ih q' hq'
          exact ⟨r, List.mem_cons_of_mem _ hr⟩

/-- The reported head is least: no position of an ordered inner traverser comes
before it. -/
theorem zip_head_least (key : List Nat) (ts : List Traverser)
    (hs : ∀ t ∈ ts, Traverser.ordered key t) (q : Position) (h : zip_head key ts = some q) :
    ∀ t ∈ ts, ∀ x ∈ t, near_before (some key) x.path q.path = false := by
  induction ts generalizing q with
  | nil => intro t ht; simp at ht
  | cons t ts ih =>
    have hs' : ∀ t' ∈ ts, Traverser.ordered key t' := fun t' ht' => hs t' (List.mem_cons_of_mem _ ht')
    cases t with
    | nil =>
      intro t' ht' x hx
      rcases List.mem_cons.mp ht' with h1 | h1
      · subst h1; simp at hx
      · exact ih hs' q (by simpa [zip_head] using h) t' h1 x hx
    | cons p rest =>
      have hp : Traverser.ordered key (p :: rest) := hs _ (List.mem_cons_self _ _)
      have hprest : ∀ x ∈ rest, near_before (some key) p.path x.path = true :=
        (List.pairwise_cons.mp hp).1
      unfold zip_head at h
      split at h
      · rename_i hnone
        simp at h; subst h
        intro t' ht' x hx
        rcases List.mem_cons.mp ht' with h1 | h1
        · subst h1
          rcases List.mem_cons.mp hx with h2 | h2
          · subst h2; exact near_before_irrefl _ _
          · exact near_before_asymm _ _ _ (hprest x h2)
        · have := zip_head_none key ts hnone t' h1
          subst this; simp at hx
      · rename_i q' hq'
        have ihq := ih hs' q' hq'
        split at h
        · rename_i hlt
          simp at h; subst h
          intro t' ht' x hx
          rcases List.mem_cons.mp ht' with h1 | h1
          · subst h1
            rcases List.mem_cons.mp hx with h2 | h2
            · subst h2; exact near_before_irrefl _ _
            · exact near_before_asymm _ _ _ (hprest x h2)
          · cases hx2 : near_before (some key) x.path p.path with
            | false => rfl
            | true =>
              have := near_before_trans _ _ _ _ hx2 hlt
              rw [ihq t' h1 x hx] at this
              exact absurd this (by simp)
        · rename_i hnlt
          simp at h; subst h
          intro t' ht' x hx
          rcases List.mem_cons.mp ht' with h1 | h1
          · subst h1
            cases hx2 : near_before (some key) x.path q'.path with
            | false => rfl
            | true =>
              exfalso
              rcases List.mem_cons.mp hx with h2 | h2
              · subst h2; exact hnlt hx2
              · exact hnlt (near_before_trans _ _ _ _ (hprest x h2) hx2)
          · exact ihq t' h1 x hx

theorem zip_last_none (path : List Nat) (ts : List Traverser)
    (h : ∀ t ∈ ts, ∀ x ∈ t, x.path ≠ path) : zip_last path ts = none := by
  induction ts with
  | nil => rfl
  | cons t ts ih =>
    unfold zip_last
    rw [ih (fun t' ht' => h t' (List.mem_cons_of_mem _ ht'))]
    simp only [List.find?_eq_none, decide_eq_true_eq]
    exact fun x hx => h t (List.mem_cons_self _ _) x hx

/-- The reported head is the position of the latest inner traverser that visits
its path. -/
theorem zip_head_last (key : List Nat) (ts : List Traverser)
    (hs : ∀ t ∈ ts, Traverser.ordered key t) (q : Position) (h : zip_head key ts = some q) :
    zip_last q.path ts = some q := by
  induction ts generalizing q with
  | nil => simp [zip_head] at h
  | cons t ts ih =>
    have hs' : ∀ t' ∈ ts, Traverser.ordered key t' := fun t' ht' => hs t' (List.mem_cons_of_mem _ ht')
    cases t with
    | nil =>
      have := ih hs' q (by simpa [zip_head] using h)
      simp [zip_last, this]
    | cons p rest =>
      unfold zip_head at h
      split at h
      · rename_i hnone
        simp at h; subst h
        have h0 : zip_last p.path ts = none := by
          apply zip_last_none
          intro t' ht' x hx
          have := zip_head_none key ts hnone t' ht'
          subst this; simp at hx
        simp [zip_last, h0]
      · rename_i q' hq'
        split at h
        · rename_i hlt
          simp at h; subst h
          have h0 : zip_last p.path ts = none := by
            apply zip_last_none
            intro t' ht' x hx hxp
            have h1 := zip_head_least key ts hs' q' hq' t' ht' x hx
            rw [hxp, hlt] at h1
            exact absurd h1 (by simp)
          simp [zip_last, h0]
        · simp at h; subst h
          simp [zip_last, ih hs' q' hq']

theorem zip_advance_ordered (key path : List Nat) (ts : List Traverser)
    (hs : ∀ t ∈ ts, Traverser.ordered key t) :
    ∀ t ∈ zip_advance path ts, Traverser.ordered key t := by
  intro t' ht'
  unfold zip_advance at ht'
  obtain ⟨t, ht, rfl⟩ := List.mem_map.mp ht'
  have hord := hs t ht
  cases t with
  | nil => exact hord
  | cons p rest =>
    by_cases hp : p.path = path
    · simp only [zip_step, hp, if_true]
      exact (List.pairwise_cons.mp hord).2
    · simp only [zip_step, hp, if_false]
      exact hord

/-- A position an inner traverser has left after the advance is one it had. -/
theorem zip_advance_mem (path : List Nat) (ts : List Traverser) :
    ∀ t' ∈ zip_advance path ts, ∃ t ∈ ts, ∀ x ∈ t', x ∈ t := by
  intro t' ht'
  unfold zip_advance at ht'
  obtain ⟨t, ht, rfl⟩ := List.mem_map.mp ht'
  refine ⟨t, ht, ?_⟩
  cases t with
  | nil => intro x hx; exact hx
  | cons p rest =>
    by_cases hp : p.path = path
    · simp only [zip_step, hp, if_true]
      exact fun x hx => List.mem_cons_of_mem _ hx
    · simp only [zip_step, hp, if_false]
      exact fun x hx => hx

/-- After the advance past the reported head every position left comes after it. -/
theorem zip_advance_after (key : List Nat) (ts : List Traverser)
    (hs : ∀ t ∈ ts, Traverser.ordered key t) (q : Position) (h : zip_head key ts = some q) :
    ∀ t ∈ zip_advance q.path ts, ∀ x ∈ t, near_before (some key) q.path x.path = true := by
  intro t' ht' x hx
  unfold zip_advance at ht'
  obtain ⟨t, ht, rfl⟩ := List.mem_map.mp ht'
  have hord := hs t ht
  have hleast := zip_head_least key ts hs q h t ht
  cases t with
  | nil => simp [zip_step] at hx
  | cons p rest =>
    have hprest : ∀ y ∈ rest, near_before (some key) p.path y.path = true :=
      (List.pairwise_cons.mp hord).1
    by_cases hp : p.path = q.path
    · simp only [zip_step, hp, if_true] at hx
      rw [← hp]
      exact hprest x hx
    · simp only [zip_step, hp, if_false] at hx
      have hqp : near_before (some key) q.path p.path = true := by
        rcases near_before_total q.path (some key) p.path (fun hh => hp hh.symm) with h1 | h1
        · exact h1
        · rw [hleast p (List.mem_cons_self _ _)] at h1
          exact absurd h1 (by simp)
      rcases List.mem_cons.mp hx with h2 | h2
      · subst h2; exact hqp
      · exact near_before_trans _ _ _ _ hqp (hprest x h2)

theorem zip_last_advance (path other : List Nat) (h : other ≠ path) (ts : List Traverser) :
    zip_last other (zip_advance path ts) = zip_last other ts := by
  induction ts with
  | nil => rfl
  | cons t ts ih =>
    have ih' : zip_last other (List.map (zip_step path) ts) = zip_last other ts := ih
    simp only [zip_advance, List.map_cons, zip_last, ih']
    cases t with
    | nil => rfl
    | cons p rest =>
      by_cases hp : p.path = path
      · have hpo : ¬ path = other := fun hh => h hh.symm
        simp [zip_step, hp, List.find?_cons, hpo]
      · simp [zip_step, hp]

/-- The merged stream: every position comes from an inner traverser and is the
position of the latest inner traverser visiting its path; the stream is in the
order `near_before`. -/
theorem zip_merge_spec (key : List Nat) (fuel : Nat) :
    ∀ ts : List Traverser, (∀ t ∈ ts, Traverser.ordered key t) →
      (∀ p ∈ zip_merge key fuel ts, (∃ t ∈ ts, p ∈ t) ∧ zip_last p.path ts = some p) ∧
      Traverser.ordered key (zip_merge key fuel ts) := by
  induction fuel with
  | zero => intro ts _; simp [zip_merge, Traverser.ordered]
  | succ fuel ih =>
    intro ts hs
    unfold zip_merge
    cases hh : zip_head key ts with
    | none => simp [Traverser.ordered]
    | some q =>
      simp only
      have hs' := zip_advance_ordered key q.path ts hs
      obtain ⟨ih1, ih2⟩ := ih (zip_advance q.path ts) hs'
      have hafter := zip_advance_after key ts hs q hh
      have hlater : ∀ p ∈ zip_merge key fuel (zip_advance q.path ts),
          near_before (some key) q.path p.path = true := by
        intro p hp
        obtain ⟨⟨t', ht', hpt'⟩, _⟩ := ih1 p hp
        exact hafter t' ht' p hpt'
      constructor
      · intro p hp
        rcases List.mem_cons.mp hp with h1 | h1
        · subst h1
          obtain ⟨rest, hr⟩ := zip_head_mem key ts p hh
          exact ⟨⟨_, hr, List.mem_cons_self _ _⟩, zip_head_last key ts hs p hh⟩
        · obtain ⟨⟨t', ht', hpt'⟩, hl⟩ := ih1 p h1
          obtain ⟨t, ht, hsub⟩ := zip_advance_mem q.path ts t' ht'
          refine ⟨⟨t, ht, hsub p hpt'⟩, ?_⟩
          have hne : p.path ≠ q.path := fun hh2 =>
            near_before_ne _ _ _ (hlater p h1) hh2.symm
          rw [← zip_last_advance q.path p.path hne ts]
          exact hl
      · exact List.pairwise_cons.mpr ⟨hlater, ih2⟩

theorem zip_advance_length_le (path : List Nat) (ts : List Traverser) :
    ((zip_advance path ts).map List.length).sum ≤ (ts.map List.length).sum := by
  induction ts with
  | nil => simp [zip_advance]
  | cons t ts ih =>
    have ih' : ((List.map (zip_step path) ts).map List.length).sum ≤
        (ts.map List.length).sum := ih
    simp only [zip_advance, List.map_cons, List.sum_cons]
    cases t with
    | nil => simpa [zip_step] using ih'
    | cons p rest =>
      by_cases hp : p.path = path
      · simp only [zip_step, hp, if_true, List.length_cons]; omega
      · simp only [zip_step, hp, if_false, List.length_cons]; omega

theorem zip_advance_length_lt (path : List Nat) (ts : List Traverser) (q : Position)
    (rest : List Position) (hq : q.path = path) (hmem : (q :: rest) ∈ ts) :
    ((zip_advance path ts).map List.length).sum < (ts.map List.length).sum := by
  induction ts with
  | nil => simp at hmem
  | cons t ts ih =>
    have hle := zip_advance_length_le path ts
    have hle' : ((List.map (zip_step path) ts).map List.length).sum ≤
        (ts.map List.length).sum := hle
    rcases List.mem_cons.mp hmem with h1 | h1
    · subst h1
      simp only [zip_advance, zip_step, List.map_cons, List.sum_cons, hq, if_true, List.length_cons]
      omega
    · have ih' : ((List.map (zip_step path) ts).map List.length).sum <
          (ts.map List.length).sum := ih h1
      simp only [zip_advance, List.map_cons, List.sum_cons]
      cases t with
      | nil => simpa [zip_step] using ih'
      | cons p rest' =>
        by_cases hp : p.path = path
        · simp only [zip_step, hp, if_true, List.length_cons]; omega
        · simp only [zip_step, hp, if_false, List.length_cons]; omega

/-- With fuel for every position of the inner traversers, the merged stream shows
the path of each of them. -/
theorem zip_merge_complete (key : List Nat) (fuel : Nat) :
    ∀ ts : List Traverser, (ts.map List.length).sum ≤ fuel →
      ∀ t ∈ ts, ∀ x ∈ t, ∃ p ∈ zip_merge key fuel ts, p.path = x.path := by
  induction fuel with
  | zero =>
    intro ts hsum t ht x hx
    exfalso
    have h0 : (ts.map List.length).sum = 0 := by omega
    have h1 : t.length ≤ (ts.map List.length).sum :=
      List.single_le_sum (fun _ _ => Nat.zero_le _) _ (List.mem_map_of_mem _ ht)
    cases t with
    | nil => simp at hx
    | cons a b => simp at h1; omega
  | succ fuel ih =>
    intro ts hsum t ht x hx
    unfold zip_merge
    cases hh : zip_head key ts with
    | none =>
      exfalso
      have := zip_head_none key ts hh t ht
      subst this
      simp at hx
    | some q =>
      simp only
      by_cases hxq : x.path = q.path
      · exact ⟨q, List.mem_cons_self _ _, hxq.symm⟩
      · obtain ⟨rest, hr⟩ := zip_head_mem key ts q hh
        have hlt := zip_advance_length_lt q.path ts q rest rfl hr
        have hx' : ∃ t' ∈ zip_advance q.path ts, x ∈ t' := by
          refine ⟨_, List.mem_map_of_mem _ ht, ?_⟩
          cases t with
          | nil => simp at hx
          | cons p rest' =>
            by_cases hp : p.path = q.path
            · simp only [zip_step, hp, if_true]
              rcases List.mem_cons.mp hx with h2 | h2
              · subst h2; exact absurd hp hxq
              · exact h2
            · simp only [zip_step, hp, if_false]
              exact hx
        obtain ⟨t', ht', hxt'⟩ := hx'
        obtain ⟨p, hp, hpx⟩ := ih (zip_advance q.path ts) (by omega) t' ht' x hxt'
        exact ⟨p, List.mem_cons_of_mem _ hp, hpx⟩

/-! ## De-duplication -/

theorem Automata.walk_append (f : Automata) (a b : List Nat) :
    ∀ state, f.walk state (a ++ b) = (f.walk state a).bind (fun s => f.walk s b) := by
  induction a with
  | nil => intro state; rfl
  | cons c a ih =>
    intro state
    simp only [List.cons_append, Automata.walk]
    split
    · rfl
    · exact ih _

theorem Automata.TryWalkTransition_mem (f : Automata) (state c : Nat)
    (h : f.TryWalkTransition state c ≠ 0) :
    (state, c, f.TryWalkTransition state c) ∈ f.transitions := by
  unfold Automata.TryWalkTransition at h ⊢
  cases hf : f.transitions.find? (fun t => t.1 == state && t.2.1 == c) with
  | none => simp [hf] at h
  | some e =>
    have h1 := List.find?_some hf
    have h2 := List.mem_of_find?_eq_some hf
    simp at h1
    obtain ⟨e1, e2, e3⟩ := e
    simp at h1
    obtain ⟨rfl, rfl⟩ := h1
    exact h2

theorem countP_lt_of_mem {α : Type} (p q : α → Bool) (x : α) :
    ∀ l : List α, (∀ y ∈ l, p y = true → q y = true) → x ∈ l → q x = true → p x = false →
      l.countP p < l.countP q := by
  intro l
  induction l with
  | nil => intro _ hx; simp at hx
  | cons y l ih =>
    intro himp hx hq hp
    have hmono : l.countP p ≤ l.countP q :=
      List.countP_mono_left (fun z hz => himp z (List.mem_cons_of_mem _ hz))
    rcases List.mem_cons.mp hx with h1 | h1
    · subst h1
      rw [List.countP_cons_of_pos _ _ hq, List.countP_cons_of_neg _ _ (by simp [hp])]
      omega
    · have ih' := ih (fun z hz => himp z (List.mem_cons_of_mem _ hz)) h1 hq hp
      by_cases hpy : p y = true
      · rw [List.countP_cons_of_pos _ _ hpy,
          List.countP_cons_of_pos _ _ (himp y (List.mem_cons_self _ _) hpy)]
        omega
      · rw [List.countP_cons_of_neg _ _ hpy]
        by_cases hqy : q y = true
        · rw [List.countP_cons_of_pos _ _ hqy]; omega
        · rw [List.countP_cons_of_neg _ _ hqy]; exact ih'

/-- In an acyclic automaton a walk is no longer than the transition table. -/
theorem Automata.walk_length_le (f : Automata) (hf : f.acyclic) (ext : List Nat) :
    ∀ state t, f.walk state ext = some t → ext.length ≤ f.transitions.length := by
  obtain ⟨rank, hrank⟩ := hf
  have key : ∀ (ext : List Nat) (state t : Nat), f.walk state ext = some t →
      ext.length ≤ f.transitions.countP (fun e => decide (rank e.1 ≤ rank state)) := by
    intro ext
    induction ext with
    | nil => intro state t _; simp
    | cons c e ih =>
      intro state t h
      have hc0 : f.TryWalkTransition state c ≠ 0 := by
        intro h0
        simp [Automata.walk, h0] at h
      have hwalk : f.walk (f.TryWalkTransition state c) e = some t := by
        simpa [Automata.walk, hc0] using h
      have hmem := f.TryWalkTransition_mem state c hc0
      have hr := hrank _ hmem
      simp only at hr
      have h1 := ih _ t hwalk
      have h2 := countP_lt_of_mem
        (fun e => decide (rank e.1 ≤ rank (f.TryWalkTransition state c)))
        (fun e => decide (rank e.1 ≤ rank state)) (state, c, f.TryWalkTransition state c)
        f.transitions
        (by
          intro y _ hy
          simp only [decide_eq_true_eq] at hy ⊢
          omega)
        hmem (by simp) (by simp; omega)
      simp only [List.length_cons]
      omega
  intro state t h
  exact Nat.le_trans (key ext state t h) (List.countP_le_length _)

theorem ZipStateTraverser.inner_eq (ps : List (Automata × Nat × TraversalPayload)) :
    ps.enum.map (fun e => ComparableStateTraverser.new e.2.1 e.2.2.1 e.2.2.2 true e.1) =
      ps.map near_trace := by
  have h : (fun e : Nat × Automata × Nat × TraversalPayload =>
      ComparableStateTraverser.new e.2.1 e.2.2.1 e.2.2.2 true e.1) = near_trace ∘ Prod.snd := by
    funext e
    simp [ComparableStateTraverser.new, near_trace]
  rw [h, ← List.map_map, List.enum_map_snd]

theorem near_trace_path (e : Automata × Nat × TraversalPayload) (q : Position)
    (hq : q ∈ near_trace e) :
    q.path = q.labels ∧ q.labels ≠ [] ∧ (∀ b ∈ q.labels, b < 256) ∧ q.fsa = e.1 ∧
      ∃ t, e.1.walk e.2.1 q.labels = some t ∧ q.is_final = e.1.IsFinalState t ∧
        q.state_value = e.1.GetStateValue t := by
  obtain ⟨ext, t, h1, h2, h3, h4, h5, h6, h7, h8⟩ := near_traverse_sound _ _ _ _ _ q hq
  simp only [List.nil_append] at h2
  refine ⟨?_, ?_, ?_, h7, t, ?_, h5, h6⟩
  · unfold Position.path
    rw [h3, List.take_length]
  · rw [h2]; exact h1
  · rw [h2]; exact h8
  · rw [h2]; exact h4

theorem near_trace_ordered (key : List Nat) (e : Automata × Nat × TraversalPayload)
    (he : e.2.2 = TraversalPayload.new key) : Traverser.ordered key (near_trace e) := by
  have h := near_traverse_ordered e.1 e.1.transitions.length e.2.1 [] e.2.2
    (by rw [he]; simp [TraversalPayload.new])
  unfold Traverser.ordered
  refine h.imp_of_mem ?_
  intro p q hp hq hpq
  have hst : near_state e.2.2 ([] : List Nat).length = some key := by
    rw [he]; simp [near_state, TraversalPayload.new]
  rw [hst] at hpq
  simp only [List.length_nil, List.drop_zero] at hpq
  rw [(near_trace_path e p hp).1, (near_trace_path e q hq).1]
  exact hpq

theorem emitted_sublist (g : Bool) (t : Traverser) : ∀ md, (emitted g md t).Sublist t := by
  induction t with
  | nil => intro md; simp [emitted]
  | cons p rest ih =>
    intro md
    unfold emitted
    split
    · split
      · exact List.Sublist.cons₂ _ (ih _)
      · exact List.Sublist.cons _ (ih _)
    · exact List.nil_sublist _

theorem FilterWithExactPrefix_spec_cons (f : Automata) (fs : List Automata) (query : List Nat)
    (n : Nat) :
    FilterWithExactPrefix_spec (f :: fs) query n =
      match f.walk f.GetStartState (query.take n) with
      | some state =>
        (f, state, TraversalPayload.new (query.drop n)) :: FilterWithExactPrefix_spec fs query n
      | none => FilterWithExactPrefix_spec fs query n := by
  unfold FilterWithExactPrefix_spec
  rw [List.filterMap_cons]
  cases f.walk f.GetStartState (query.take n) <;> rfl

theorem FilterWithExactPrefix_spec_payload (fsas : List Automata) (query : List Nat) (n : Nat) :
    ∀ e ∈ FilterWithExactPrefix_spec fsas query n, e.2.2 = TraversalPayload.new (query.drop n) := by
  intro e he
  unfold FilterWithExactPrefix_spec at he
  obtain ⟨f, _, hf⟩ := List.mem_filterMap.mp he
  cases hw : f.walk f.GetStartState (query.take n) with
  | none => simp [hw] at hf
  | some s =>
    simp [hw] at hf
    rw [← hf]

/-- The latest inner traverser that visits the path `ext` belongs to the
highest-priority segment that has a state under the query prefix followed by
`ext`; when that state is final, this segment is the highest-priority one
holding the key. -/
theorem zip_last_highest (query : List Nat) (n : Nat) (ext : List Nat) (hne : ext ≠ [])
    (hb : ∀ b ∈ ext, b < 256) :
    ∀ fsas : List Automata, (∀ f ∈ fsas, f.acyclic) →
      match zip_last ext ((FilterWithExactPrefix_spec fsas query n).map near_trace) with
      | some p => p.is_final = true →
          highest_priority (query.take n ++ ext) fsas = some (p.fsa, p.state_value)
      | none => highest_priority (query.take n ++ ext) fsas = none := by
  intro fsas
  induction fsas with
  | nil => intro _; simp [FilterWithExactPrefix_spec, zip_last, highest_priority]
  | cons f fs ih =>
    intro hac
    have ih' := ih (fun g hg => hac g (List.mem_cons_of_mem _ hg))
    rw [FilterWithExactPrefix_spec_cons]
    unfold highest_priority
    cases hw : f.walk f.GetStartState (query.take n) with
    | none =>
      simp only
      have hl : f.lookup (query.take n ++ ext) = none := by
        simp [Automata.lookup, Automata.walk_append, hw]
      cases hz : zip_last ext ((FilterWithExactPrefix_spec fs query n).map near_trace) with
      | some p =>
        rw [hz] at ih'
        simp only at ih' ⊢
        intro hp
        rw [ih' hp]
      | none =>
        rw [hz] at ih'
        simp only at ih' ⊢
        rw [ih', hl]
        rfl
    | some s =>
      simp only [List.map_cons, zip_last]
      cases hz : zip_last ext ((FilterWithExactPrefix_spec fs query n).map near_trace) with
      | some p =>
        rw [hz] at ih'
        simp only at ih' ⊢
        intro hp
        rw [ih' hp]
      | none =>
        rw [hz] at ih'
        simp only at ih' ⊢
        rw [ih']
        simp only
        cases hfind : (near_trace (f, s, TraversalPayload.new (query.drop n))).find?
            (fun q => decide (q.path = ext)) with
        | some p =>
          simp only
          intro hp
          have hmem := List.mem_of_find?_eq_some hfind
          have hpath := List.find?_some hfind
          simp only [decide_eq_true_eq] at hpath
          obtain ⟨h1, _, _, h4, t, h5, h6, h7⟩ := near_trace_path _ p hmem
          simp only at h4 h5 h6 h7
          rw [h1] at hpath
          rw [hpath] at h5
          have hl : f.lookup (query.take n ++ ext) = some p.state_value := by
            rw [h6] at hp
            simp [Automata.lookup, Automata.walk_append, hw, h5, hp, h7]
          rw [hl, h4]
          rfl
        | none =>
          simp only
          have hnone : f.walk s ext = none := by
            cases hws : f.walk s ext with
            | none => rfl
            | some t =>
              exfalso
              have hlen := f.walk_length_le (hac f (List.mem_cons_self _ _)) ext s t hws
              obtain ⟨q, hq, hql⟩ := near_traverse_complete f f.transitions.length s []
                (TraversalPayload.new (query.drop n)) ext t hne hlen hb hws
              have hq' : q ∈ near_trace (f, s, TraversalPayload.new (query.drop n)) := hq
              have h1 := (near_trace_path _ q hq').1
              have := List.find?_eq_none.mp hfind q hq'
              simp only [decide_eq_true_eq] at this
              apply this
              rw [h1, hql]
              rfl
          have hl : f.lookup (query.take n ++ ext) = none := by
            simp [Automata.lookup, Automata.walk_append, hw, hnone]
          rw [hl]
          rfl

/-- The zip traverser over the filtered segments: its stream is in the order
`near_before`, and each of its positions is the position of the latest segment
that visits the path. -/
theorem ZipStateTraverser.new_spec (fsas : List Automata) (query : List Nat) (n : Nat) :
    Traverser.ordered (query.drop n)
      (ZipStateTraverser.new (FilterWithExactPrefix_spec fsas query n)) ∧
    ∀ p ∈ ZipStateTraverser.new (FilterWithExactPrefix_spec fsas query n),
      (∃ e ∈ FilterWithExactPrefix_spec fsas query n, p ∈ near_trace e) ∧
      zip_last p.path ((FilterWithExactPrefix_spec fsas query n).map near_trace) = some p := by
  have hpay := FilterWithExactPrefix_spec_payload fsas query n
  have hord : ∀ t ∈ (FilterWithExactPrefix_spec fsas query n).map near_trace,
      Traverser.ordered (query.drop n) t := by
    intro t ht
    obtain ⟨e, he, rfl⟩ := List.mem_map.mp ht
    exact near_trace_ordered _ e (hpay e he)
  unfold ZipStateTraverser.new
  simp only [ZipStateTraverser.inner_eq]
  cases hps : FilterWithExactPrefix_spec fsas query n with
  | nil => simp [zip_merge, zip_head, Traverser.ordered]
  | cons e ps =>
    have hkey : e.2.2.lookup_key = query.drop n := by
      rw [hpay e (by rw [hps]; exact List.mem_cons_self _ _)]
      rfl
    simp only [hkey]
    rw [hps] at hord
    obtain ⟨h1, h2⟩ := zip_merge_spec (query.drop n)
      (((e :: ps).map near_trace).map List.length).sum ((e :: ps).map near_trace) hord
    refine ⟨h2, ?_⟩
    intro p hp
    obtain ⟨⟨t, ht, hpt⟩, h3⟩ := h1 p hp
    obtain ⟨e', he', rfl⟩ := List.mem_map.mp ht
    exact ⟨⟨e', he', hpt⟩, h3⟩

/-- C6 (de-duplication): over well-formed segments (start state not `0`, acyclic)
and with `minimum_exact_prefix <= len(query)`, the matcher `FromMulipleFsas`
builds on the traversers of sections 4.1 to 4.3 yields no two matches with the
same matched string, and every match carries the segment and the value of the
highest-priority segment (the latest in the list) that holds its key. -/
theorem C6_deduplication (fsas : List Automata) (query : List Nat) (n : Nat) (greedy : Bool)
    (h : n ≤ query.length) (hwf : ∀ f ∈ fsas, f.GetStartState ≠ 0 ∧ f.acyclic) :
    ∃ m, FromMulipleFsas near_traversers fsas query n greedy = Except.ok m ∧
      ((AllMatches m).map (fun r => r.matched_item)).Nodup ∧
      ∀ r ∈ AllMatches m, ∃ f v, highest_priority r.matched_item fsas = some (f, v) ∧
        r.fsa = some f ∧ r.state_value = v := by
  have hspec := FilterWithExactPrefix_eq_spec fsas query n h (fun f hf => (hwf f hf).1)
  rcases FromMulipleFsas_cases near_traversers fsas query n greedy h with h1 | ⟨ps, hps, h1⟩
  · refine ⟨_, h1, ?_, ?_⟩
    · rw [AllMatches_default]; exact List.nodup_nil
    · intro r hr; rw [AllMatches_default] at hr; simp at hr
  · rw [hspec] at hps
    have hps' : ps = FilterWithExactPrefix_spec fsas query n := by
      injection hps with hps; exact hps.symm
    subst hps'
    refine ⟨_, h1, ?_, ?_⟩
    · rw [AllMatches_new, List.map_map]
      obtain ⟨hord, _⟩ := ZipStateTraverser.new_spec fsas query n
      have hsub : (emitted greedy 0
          (ZipStateTraverser.new (FilterWithExactPrefix_spec fsas query n))).Pairwise
          (fun p q => near_before (some (query.drop n)) p.path q.path = true) :=
        List.Pairwise.sublist (emitted_sublist greedy _ 0) hord
      unfold List.Nodup
      rw [List.pairwise_map]
      refine hsub.imp ?_
      intro p q hpq heq
      simp only [Function.comp, make_match] at heq
      exact near_before_ne _ _ _ hpq (List.append_cancel_left heq)
    · intro r hr
      rw [AllMatches_new] at hr
      obtain ⟨p, hp, rfl⟩ := List.mem_map.mp hr
      obtain ⟨hpZ, hfin, _⟩ := emitted_spec greedy _ 0 p hp
      obtain ⟨_, hz⟩ := ZipStateTraverser.new_spec fsas query n
      obtain ⟨⟨e, _, hpe⟩, hlast⟩ := hz p hpZ
      obtain ⟨hpath, hne, hb, _, _⟩ := near_trace_path e p hpe
      have hh := zip_last_highest query n p.path (by rw [hpath]; exact hne)
        (by rw [hpath]; exact hb) fsas (fun f hf => (hwf f hf).2)
      rw [hlast] at hh
      exact ⟨p.fsa, p.state_value, hh hfin, rfl, rfl⟩

/-- Witness of C6: the key `ab` is in both segments and `ac`, `ad` in one each;
the greedy matcher for the query `ab` with prefix length `1` returns `ab` once,
with the value `5` of the later segment. -/
theorem C6_deduplication_witness :
    (1 ≤ [97, 98].length ∧
      ∀ f ∈ [fsa_ab_ac, fsa_ab_ad], f.GetStartState ≠ 0 ∧ f.acyclic) ∧
    (matches_of (FromMulipleFsas near_traversers [fsa_ab_ac, fsa_ab_ad] [97, 98] 1 true)).map
        (fun r => (r.matched_item, r.state_value)) =
      [([97, 98], 5), ([97, 99], 2), ([97, 100], 6)] ∧
    ∃ m, FromMulipleFsas near_traversers [fsa_ab_ac, fsa_ab_ad] [97, 98] 1 true = Except.ok m ∧
      ((AllMatches m).map (fun r => r.matched_item)).Nodup ∧
      ∀ r ∈ AllMatches m, ∃ f v,
        highest_priority r.matched_item [fsa_ab_ac, fsa_ab_ad] = some (f, v) ∧
        r.fsa = some f ∧ r.state_value = v := by
  have hwf : ∀ f ∈ [fsa_ab_ac, fsa_ab_ad], f.GetStartState ≠ 0 ∧ f.acyclic := by
    intro f hf
    simp only [List.mem_cons, List.mem_singleton, List.not_mem_nil, or_false] at hf
    rcases hf with rfl | rfl
    · exact ⟨by decide, fun s => 10 - s, by decide⟩
    · exact ⟨by decide, fun s => s, by decide⟩
  exact ⟨⟨by decide, hwf⟩, by decide,
    C6_deduplication [fsa_ab_ac, fsa_ab_ad] [97, 98] 1 true (by decide) hwf⟩

/-! ## One call of `NextMatch` -/

/-- A non-empty result of the loop: the traverser stood before some states that
are not final, all deeper than `matched_depth_`, and then on the final state
`p`; the match is the one of `p`, the lock is taken from `p` when not greedy,
and the traverser is left one step behind `p`. -/
theorem NextMatch_loop_split ( exact_prefix : List Nat) (greedy : Bool) (t : Traverser) :
    ∀ md, (NextMatch_loop exact_prefix greedy md t).1 ≠ Match.empty →
      ∃ skipped p rest, t = skipped ++ p :: rest ∧
        (∀ q ∈ skipped, q.is_final = false ∧ md < q.depth) ∧
        p.is_final = true ∧ md < p.depth ∧
        NextMatch_loop exact_prefix greedy md t =
          (make_match exact_prefix p, if !greedy then p.payload.exact_depth else md, rest) := by
  induction t with
  | nil => intro md h; simp [NextMatch_loop] at h
  | cons p rest ih =>
    intro md h
    unfold NextMatch_loop at h ⊢
    by_cases hd : p.depth > md
    · by_cases hf : p.is_final = true
      · simp only [hd, hf, if_true] at h ⊢
        exact ⟨[], p, rest, rfl, by simp, hf, hd, rfl⟩
      · simp only [hd, hf, if_true] at h ⊢
        obtain ⟨skipped, q, rest', h1, h2, h3, h4, h5⟩ := ih md h
        refine ⟨p :: skipped, q, rest', by rw [h1]; rfl, ?_, h3, h4, h5⟩
        intro x hx
        rcases List.mem_cons.mp hx with hx1 | hx1
        · subst hx1; exact ⟨by simpa using hf, hd⟩
        · exact h2 x hx1
    · simp [hd] at h

/-- A non-empty result of `NextMatch`, in full. -/
theorem NextMatch_split (m : NearMatching) (h : (NextMatch m).1 ≠ Match.empty) :
    ∃ skipped p rest, m.traverser_ptr_ = some (skipped ++ p :: rest) ∧
      (∀ q ∈ skipped, q.is_final = false ∧ m.matched_depth_ < q.depth) ∧
      p.is_final = true ∧ m.matched_depth_ < p.depth ∧
      (NextMatch m).1 = make_match m.exact_prefix_ p ∧
      (NextMatch m).2.traverser_ptr_ = some rest ∧
      (NextMatch m).2.matched_depth_ =
        if !m.greedy_ then p.payload.exact_depth else m.matched_depth_ := by
  unfold NextMatch at h ⊢
  cases ht : m.traverser_ptr_ with
  | none => simp [ht] at h
  | some t =>
    simp only [ht] at h ⊢
    obtain ⟨skipped, p, rest, h1, h2, h3, h4, h5⟩ := NextMatch_loop_split _ _ t _ h
    refine ⟨skipped, p, rest, by rw [h1], h2, h3, h4, ?_, ?_, ?_⟩
    · rw [h5]
    · rw [h5]
    · rw [h5]

/-- One call of the loop against `emitted`: it returns the match of the first
emitted position, or the empty match when there is none, and leaves the rest. -/
theorem NextMatch_loop_emitted ( exact_prefix : List Nat) (greedy : Bool) (t : Traverser) :
    ∀ md,
      (NextMatch_loop exact_prefix greedy md t).1 =
        ((emitted greedy md t).map (make_match exact_prefix)).headD Match.empty ∧
      emitted greedy (NextMatch_loop exact_prefix greedy md t).2.1
          (NextMatch_loop exact_prefix greedy md t).2.2 = (emitted greedy md t).tail := by
  induction t with
  | nil => intro md; simp [NextMatch_loop, emitted]
  | cons p rest ih =>
    intro md
    unfold NextMatch_loop
    by_cases hd : p.depth > md
    · by_cases hf : p.is_final = true
      · simp [emitted, hd, hf]
      · have h1 := ih md
        simp only [emitted, hd, hf, if_true]
        exact h1
    · simp [emitted, hd]

/-- The call number `k + 1` of `NextMatch` returns the match of the emitted
position number `k + 1`, and the empty match once these are used up. -/
theorem NextMatch_nth_emitted (ep : List Nat) (fm : Match) (g : Bool) (k : Nat) :
    ∀ (t : Traverser) (md : Nat),
      NextMatch_nth k
        { traverser_ptr_ := some t, exact_prefix_ := ep, first_match_ := fm, greedy_ := g,
          matched_depth_ := md } =
        ((emitted g md t).map (make_match ep)).getD k Match.empty := by
  induction k with
  | zero =>
    intro t md
    have h := (NextMatch_loop_emitted ep g t md).1
    simp only [NextMatch_nth, NextMatch_calls, NextMatch]
    rw [h]
    cases (emitted g md t).map (make_match ep) <;> rfl
  | succ k ih =>
    intro t md
    have h := (NextMatch_loop_emitted ep g t md).2
    have hstep : NextMatch_nth (k + 1)
        { traverser_ptr_ := some t, exact_prefix_ := ep, first_match_ := fm, greedy_ := g,
          matched_depth_ := md } =
        NextMatch_nth k
          { traverser_ptr_ := some (NextMatch_loop ep g md t).2.2, exact_prefix_ := ep,
            first_match_ := fm, greedy_ := g,
            matched_depth_ := (NextMatch_loop ep g md t).2.1 } := rfl
    rw [hstep, ih, h]
    cases emitted g md t with
    | nil => simp
    | cons p es => simp

theorem NextMatch_loop_greedy_depth ( exact_prefix : List Nat) (t : Traverser) :
    ∀ md, (NextMatch_loop exact_prefix true md t).2.1 = md := by
  induction t with
  | nil => intro md; rfl
  | cons p rest ih =>
    intro md
    unfold NextMatch_loop
    by_cases hd : p.depth > md
    · by_cases hf : p.is_final = true
      · simp [hd, hf]
      · simp only [hd, hf, if_true]
        exact ih md
    · simp [hd]

theorem NextMatch_greedy_depth (m : NearMatching) (hg : m.greedy_ = true) :
    (NextMatch m).2.matched_depth_ = m.matched_depth_ := by
  unfold NextMatch
  cases ht : m.traverser_ptr_ with
  | none => rfl
  | some t =>
    simp only [hg]
    exact NextMatch_loop_greedy_depth _ t _

theorem NextMatch_calls_greedy_depth (k : Nat) :
    ∀ m : NearMatching, m.greedy_ = true →
      (NextMatch_calls k m).matched_depth_ = m.matched_depth_ := by
  induction k with
  | zero => intro m _; rfl
  | succ k ih =>
    intro m hg
    have h1 : (NextMatch m).2.greedy_ = true := by rw [NextMatch_greedy, hg]
    simp only [NextMatch_calls]
    rw [ih _ h1, NextMatch_greedy_depth m hg]

/-- With `greedy` and every state at depth at least one, the emitted positions
are the final states of the traverser, in its order. -/
theorem emitted_greedy_filter (t : Traverser) (h : ∀ p ∈ t, 1 ≤ p.depth) :
    emitted true 0 t = t.filter (fun p => p.is_final) := by
  induction t with
  | nil => rfl
  | cons p rest ih =>
    have hp : p.depth > 0 := h p (List.mem_cons_self _ _)
    have ih' := ih (fun q hq => h q (List.mem_cons_of_mem _ hq))
    by_cases hf : p.is_final = true
    · simp [emitted, hp, hf, ih']
    · simp [emitted, hp, hf, ih']

theorem NextMatch_calls_succ (k : Nat) :
    ∀ m : NearMatching, NextMatch_calls (k + 1) m = (NextMatch (NextMatch_calls k m)).2 := by
  induction k with
  | zero => intro m; rfl
  | succ k ih =>
    intro m
    have h : NextMatch_calls (k + 1 + 1) m = NextMatch_calls (k + 1) (NextMatch m).2 := rfl
    rw [h, ih]
    rfl

/-- The prefix loop of `FromSingleFsa` against the walk of the bytes it reads. -/
theorem FromSingleFsa.walk_eq_walk (fsa : Automata) (query : List Nat) :
    ∀ (n i state : Nat) (calls : List (Nat × Nat)), i + n ≤ query.length →
      (FromSingleFsa.walk fsa query n i state calls).1 =
        fsa.walk state ((query.drop i).take n) := by
  intro n
  induction n with
  | zero => intro i state calls _; simp [FromSingleFsa.walk, Automata.walk]
  | succ n ih =>
    intro i state calls h
    have hlt : i < query.length := by omega
    have hdrop : query.drop i = query.getD i 0 :: query.drop (i + 1) := by
      rw [List.getD_eq_getElem _ _ hlt]
      exact List.drop_eq_getElem_cons hlt
    rw [hdrop, List.take_succ_cons]
    simp only [FromSingleFsa.walk, Automata.walk]
    by_cases ht : fsa.TryWalkTransition state (query.getD i 0) = 0
    · rw [if_pos ht, if_pos ht]
    · rw [if_neg ht, if_neg ht]
      exact ih (i + 1) _ _ (by omega)

/-- A segment in which the walk of the prefix fails is dropped by the loop of
`FilterWithExactPrefix`, whatever its start state. -/
theorem FilterWithExactPrefix.walk_fails (fsa : Automata) (query : List Nat) (n : Nat)
    (h : n ≤ query.length) (hw : fsa.walk fsa.GetStartState (query.take n) = none) :
    (FilterWithExactPrefix.walk fsa query n n fsa.GetStartState 0).1 = 0 := by
  by_cases hs : fsa.GetStartState = 0
  · rw [hs, FilterWithExactPrefix.walk_zero]
  · have h1 := FilterWithExactPrefix.walk_eq fsa query n h n fsa.GetStartState 0 hs (by omega)
    simp only [List.drop_zero] at h1
    rw [hw] at h1
    exact h1

/-- C11 (prefix absence), as the code has it. If the walk of the first
`minimum_exact_prefix` query bytes reaches state `0` in the automaton given to
`FromSingleFsa`, the matcher is the null matcher, whatever the prefix length. If
it does so in every automaton given to `FromMulipleFsas`, the filter returns
the empty list and the matcher is the null matcher as long as
`minimum_exact_prefix <= len(query)`; beyond the query length
`FilterWithExactPrefix` raises `std::out_of_range` from
`query.substr( minimum_exact_prefix)` before it walks, and `FromMulipleFsas` with
it: no matcher results. The null matcher holds no traverser and every
`NextMatch` on it returns the empty match. -/
theorem C11_prefix_absent_raises (T : Traversers) (fsa : Automata) (fsas : List Automata)
    (query : List Nat) ( minimum_exact_prefix : Nat) (greedy : Bool) :
    (fsa.walk fsa.GetStartState (query.take minimum_exact_prefix) = none →
      FromSingleFsa T fsa query minimum_exact_prefix greedy = Except.ok NearMatching.default) ∧
    ( minimum_exact_prefix ≤ query.length →
      (∀ f ∈ fsas, f.walk f.GetStartState (query.take minimum_exact_prefix) = none) →
      FilterWithExactPrefix fsas query minimum_exact_prefix = Except.ok [] ∧
      FromMulipleFsas T fsas query minimum_exact_prefix greedy =
        Except.ok NearMatching.default) ∧
    (query.length < minimum_exact_prefix →
      FilterWithExactPrefix fsas query minimum_exact_prefix =
        Except.error Error.out_of_range ∧
      FromMulipleFsas T fsas query minimum_exact_prefix greedy =
        Except.error Error.out_of_range) ∧
    NearMatching.default.traverser_ptr_ = none ∧
    ∀ k, NextMatch_nth k NearMatching.default = Match.empty := by
  refine ⟨?_, ?_, ?_, rfl, NextMatch_nth_default⟩
  · intro hw
    unfold FromSingleFsa FromSingleFsa.traced
    by_cases h : query.length < minimum_exact_prefix
    · rw [if_pos h]
    · have h1 := FromSingleFsa.walk_eq_walk fsa query minimum_exact_prefix 0
        fsa.GetStartState [] (by omega)
      simp only [List.drop_zero] at h1
      rw [hw] at h1
      rw [if_neg h]
      rcases hwalk : FromSingleFsa.walk fsa query minimum_exact_prefix 0 fsa.GetStartState []
        with ⟨_ | s, calls⟩
      · rfl
      · rw [hwalk] at h1
        simp at h1
  · intro h hall
    have hf : FilterWithExactPrefix fsas query minimum_exact_prefix = Except.ok [] := by
      rw [FilterWithExactPrefix_ok _ _ _ h]
      congr 1
      rw [List.filterMap_eq_nil_iff]
      intro f hf
      have := FilterWithExactPrefix.walk_fails f query minimum_exact_prefix h (hall f hf)
      simp [this]
    refine ⟨hf, ?_⟩
    unfold FromMulipleFsas
    rw [hf]
    rfl
  · intro h
    have h1 : FilterWithExactPrefix fsas query minimum_exact_prefix =
        Except.error Error.out_of_range := by
      simp [FilterWithExactPrefix, substr_from_error _ _ h]
    refine ⟨h1, ?_⟩
    unfold FromMulipleFsas
    rw [h1]

/-- Witness of C11. The dictionary `ab -> 1` has no transition for `x`. For the
query `x` with the prefix length `2` the walk reaches state `0` at the first
byte: `FromSingleFsa` returns the null matcher and `FromMulipleFsas` raises.
For the query `xb` with the prefix length `1` both return the null matcher. -/
theorem C11_prefix_absent_raises_witness :
    (fsa_ab.TryWalkTransition fsa_ab.GetStartState 120 = 0 ∧
      fsa_ab.walk fsa_ab.GetStartState ([120].take 2) = none ∧ [120].length < 2 ∧
      FromSingleFsa near_traversers fsa_ab [120] 2 false = Except.ok NearMatching.default ∧
      FilterWithExactPrefix [fsa_ab] [120] 2 = Except.error Error.out_of_range ∧
      FromMulipleFsas near_traversers [fsa_ab] [120] 2 false =
        Except.error Error.out_of_range) ∧
    (1 ≤ [120, 98].length ∧
      (∀ f ∈ [fsa_ab, fsa_ab_ac], f.walk f.GetStartState ([120, 98].take 1) = none) ∧
      FromSingleFsa near_traversers fsa_ab [120, 98] 1 false = Except.ok NearMatching.default ∧
      FilterWithExactPrefix [fsa_ab, fsa_ab_ac] [120, 98] 1 = Except.ok [] ∧
      FromMulipleFsas near_traversers [fsa_ab, fsa_ab_ac] [120, 98] 1 false =
        Except.ok NearMatching.default) :=
  ⟨⟨by decide, by decide, by decide,
      (C11_prefix_absent_raises near_traversers fsa_ab [fsa_ab] [120] 2 false).1 (by decide),
      ((C11_prefix_absent_raises near_traversers fsa_ab [fsa_ab] [120] 2 false).2.2.1
        (by decide)).1,
      ((C11_prefix_absent_raises near_traversers fsa_ab [fsa_ab] [120] 2 false).2.2.1
        (by decide)).2⟩,
    ⟨by decide, by decide,
      (C11_prefix_absent_raises near_traversers fsa_ab [fsa_ab, fsa_ab_ac] [120, 98] 1
        false).1 (by decide),
      ((C11_prefix_absent_raises near_traversers fsa_ab [fsa_ab, fsa_ab_ac] [120, 98] 1
        false).2.1 (by decide) (by decide)).1,
      ((C11_prefix_absent_raises near_traversers fsa_ab [fsa_ab, fsa_ab_ac] [120, 98] 1
        false).2.1 (by decide) (by decide)).2⟩⟩

/-- A matcher a constructor returns for `minimum_exact_prefix <= len(query)` is the
null matcher or a fresh matcher that stores the first `minimum_exact_prefix`
query bytes. -/
theorem built_cases (T : Traversers) (fsa : Automata) (fsas : List Automata) (start_state : Nat)
    (query : List Nat) (n : Nat) (greedy : Bool) (h : n ≤ query.length) (m : NearMatching)
    (hm : FromSingleFsa T fsa query n greedy = Except.ok m ∨
      FromSingleFsa.from_state T fsa start_state query n greedy = Except.ok m ∨
      FromMulipleFsas T fsas query n greedy = Except.ok m) :
    m = NearMatching.default ∨
      ∃ t, m = NearMatching.new t Match.empty (query.take n) greedy := by
  rcases hm with hm | hm | hm
  · rcases FromSingleFsa_cases T fsa query n greedy h with h1 | ⟨s, h1⟩
    · rw [h1] at hm; injection hm with hm; exact Or.inl hm.symm
    · rw [h1] at hm; injection hm with hm; exact Or.inr ⟨_, hm.symm⟩
  · rw [FromSingleFsa.from_state_ok T fsa start_state query n greedy h] at hm
    injection hm with hm; exact Or.inr ⟨_, hm.symm⟩
  · rcases FromMulipleFsas_cases T fsas query n greedy h with h1 | ⟨ps, _, h1⟩
    · rw [h1] at hm; injection hm with hm; exact Or.inl hm.symm
    · rw [h1] at hm; injection hm with hm; exact Or.inr ⟨_, hm.symm⟩

/-- A non-empty result of the call number `k + 1`, in full. -/
theorem NextMatch_nth_split (k : Nat) (m : NearMatching) (h : NextMatch_nth k m ≠ Match.empty) :
    ∃ skipped p rest, (NextMatch_calls k m).traverser_ptr_ = some (skipped ++ p :: rest) ∧
      (∀ q ∈ skipped, q.is_final = false ∧ (NextMatch_calls k m).matched_depth_ < q.depth) ∧
      p.is_final = true ∧ (NextMatch_calls k m).matched_depth_ < p.depth ∧
      NextMatch_nth k m = make_match m.exact_prefix_ p ∧
      (NextMatch_calls (k + 1) m).traverser_ptr_ = some rest := by
  obtain ⟨skipped, p, rest, h1, h2, h3, h4, h5, h6, _⟩ :=
    NextMatch_split (NextMatch_calls k m) h
  rw [NextMatch_calls_exact_prefix_eq] at h5
  exact ⟨skipped, p, rest, h1, h2, h3, h4, h5, by rw [NextMatch_calls_succ]; exact h6⟩

/-- C12 (score): for a matcher a constructor built with
`minimum_exact_prefix <= len(query)`, every non-empty match of a `NextMatch`
call was built at a final state `p` the traverser stood on after skipping
states that are not final, before it was advanced past `p`; its score is
`minimum_exact_prefix`, the length of the stored prefix `query[0..minimum_exact_prefix)`,
plus the `exact_depth` of the payload at `p`. -/
theorem C12_score (T : Traversers) (fsa : Automata) (fsas : List Automata) (start_state : Nat)
    (query : List Nat) ( minimum_exact_prefix : Nat) (greedy : Bool)
    (h : minimum_exact_prefix ≤ query.length) (m : NearMatching)
    (hm : FromSingleFsa T fsa query minimum_exact_prefix greedy = Except.ok m ∨
      FromSingleFsa.from_state T fsa start_state query minimum_exact_prefix greedy =
        Except.ok m ∨
      FromMulipleFsas T fsas query minimum_exact_prefix greedy = Except.ok m)
    (k : Nat) (hk : (NextMatch_nth k m).IsEmpty = false) :
    ∃ skipped p rest,
      (NextMatch_calls k m).traverser_ptr_ = some (skipped ++ p :: rest) ∧
      (∀ q ∈ skipped, q.is_final = false) ∧ p.is_final = true ∧
      (NextMatch_calls (k + 1) m).traverser_ptr_ = some rest ∧
      (NextMatch_calls k m).exact_prefix_ = query.take minimum_exact_prefix ∧
      (query.take minimum_exact_prefix).length = minimum_exact_prefix ∧
      (NextMatch_nth k m).score = minimum_exact_prefix + p.payload.exact_depth := by
  have hk' := (Match.IsEmpty_false_iff _).mp hk
  have hlen : (query.take minimum_exact_prefix).length = minimum_exact_prefix := by
    simp; omega
  rcases built_cases T fsa fsas start_state query minimum_exact_prefix greedy h m hm
    with rfl | ⟨t, rfl⟩
  · exact absurd (NextMatch_nth_default k) hk'
  · obtain ⟨skipped, p, rest, h1, h2, h3, _, h5, h6⟩ := NextMatch_nth_split k _ hk'
    refine ⟨skipped, p, rest, h1, fun q hq => (h2 q hq).1, h3, h6, ?_, hlen, ?_⟩
    · rw [NextMatch_calls_exact_prefix_eq]; rfl
    · rw [h5]
      show (query.take minimum_exact_prefix).length + p.payload.exact_depth = _
      rw [hlen]

/-- Witness of C12: the second match of the query `abcd` with prefix length `1`
over the dictionary `ab, abcx` is `abcx` with score `1 + 2`. -/
theorem C12_score_witness :
    (1 ≤ [97, 98, 99, 100].length ∧
      (NextMatch_nth 1 (NearMatching.new
        (near_traversers.comparable fsa_ab_abcx 2 (TraversalPayload.new [98, 99, 100]) true 0)
        Match.empty [97] false)).score = 3) ∧
    ∃ skipped p rest,
      (NextMatch_calls 1 (NearMatching.new
        (near_traversers.comparable fsa_ab_abcx 2 (TraversalPayload.new [98, 99, 100]) true 0)
        Match.empty [97] false)).traverser_ptr_ = some (skipped ++ p :: rest) ∧
      (∀ q ∈ skipped, q.is_final = false) ∧ p.is_final = true ∧
      (NextMatch_calls (1 + 1) (NearMatching.new
        (near_traversers.comparable fsa_ab_abcx 2 (TraversalPayload.new [98, 99, 100]) true 0)
        Match.empty [97] false)).traverser_ptr_ = some rest ∧
      (NextMatch_calls 1 (NearMatching.new
        (near_traversers.comparable fsa_ab_abcx 2 (TraversalPayload.new [98, 99, 100]) true 0)
        Match.empty [97] false)).exact_prefix_ = [97, 98, 99, 100].take 1 ∧
      ([97, 98, 99, 100].take 1).length = 1 ∧
      (NextMatch_nth 1 (NearMatching.new
        (near_traversers.comparable fsa_ab_abcx 2 (TraversalPayload.new [98, 99, 100]) true 0)
        Match.empty [97] false)).score = 1 + p.payload.exact_depth :=
  ⟨⟨by decide, by decide⟩,
    C12_score near_traversers fsa_ab_abcx [] 2 [97, 98, 99, 100] 1 false (by decide) _
      (Or.inl rfl) 1 (by decide)⟩

/-- C13 (greedy emits every final state): over a traverser that shows finitely
many states, all of depth at least one, the greedy matcher returns, call by
call, the match of each final state of the traverser in its order, none
skipped and none twice, then the empty match; `matched_depth_` stays `0`. -/
theorem C13_greedy_all_finals (t : Traverser) (first_match : Match) ( exact_prefix : List Nat)
    (h : ∀ p ∈ t, 1 ≤ p.depth) :
    (∀ k, NextMatch_nth k (NearMatching.new t first_match exact_prefix true) =
      ((t.filter (fun p => p.is_final)).map (make_match exact_prefix)).getD k Match.empty) ∧
    AllMatches (NearMatching.new t first_match exact_prefix true) =
      (t.filter (fun p => p.is_final)).map (make_match exact_prefix) ∧
    (∀ p ∈ t.filter (fun p => p.is_final), (make_match exact_prefix p).IsEmpty = false) ∧
    ∀ k, (NextMatch_calls k (NearMatching.new t first_match exact_prefix true)).matched_depth_
      = 0 := by
  refine ⟨?_, ?_, ?_, ?_⟩
  · intro k
    have h1 := NextMatch_nth_emitted exact_prefix first_match true k t 0
    rw [emitted_greedy_filter t h] at h1
    exact h1
  · rw [AllMatches_new, emitted_greedy_filter t h]
  · intro p hp
    have hp' := (List.mem_filter.mp hp).1
    exact (Match.IsEmpty_false_iff _).mpr (make_match_ne_empty _ p (h p hp'))
  · intro k
    exact NextMatch_calls_greedy_depth k _ rfl

/-- Witness of C13: the traverser of the dictionary `ab, abcdx, abcz` below the
prefix `a`; the greedy matcher returns `ab`, `abcdx`, `abcz`. -/
theorem C13_greedy_all_finals_witness :
    ((∀ p ∈ near_traversers.comparable fsa_ab_abcdx_abcz 2
        (TraversalPayload.new [98, 99, 100, 101]) true 0, 1 ≤ p.depth) ∧
      (AllMatches (NearMatching.new (near_traversers.comparable fsa_ab_abcdx_abcz 2
        (TraversalPayload.new [98, 99, 100, 101]) true 0) Match.empty [97] true)).map
          (fun r => r.matched_item) =
        [[97, 98], [97, 98, 99, 100, 120], [97, 98, 99, 122]]) ∧
    ((∀ k, NextMatch_nth k (NearMatching.new (near_traversers.comparable fsa_ab_abcdx_abcz 2
        (TraversalPayload.new [98, 99, 100, 101]) true 0) Match.empty [97] true) =
      (((near_traversers.comparable fsa_ab_abcdx_abcz 2
        (TraversalPayload.new [98, 99, 100, 101]) true 0).filter (fun p => p.is_final)).map
          (make_match [97])).getD k Match.empty) ∧
    AllMatches (NearMatching.new (near_traversers.comparable fsa_ab_abcdx_abcz 2
        (TraversalPayload.new [98, 99, 100, 101]) true 0) Match.empty [97] true) =
      ((near_traversers.comparable fsa_ab_abcdx_abcz 2
        (TraversalPayload.new [98, 99, 100, 101]) true 0).filter (fun p => p.is_final)).map
          (make_match [97]) ∧
    (∀ p ∈ (near_traversers.comparable fsa_ab_abcdx_abcz 2
        (TraversalPayload.new [98, 99, 100, 101]) true 0).filter (fun p => p.is_final),
      (make_match [97] p).IsEmpty = false) ∧
    ∀ k, (NextMatch_calls k (NearMatching.new (near_traversers.comparable fsa_ab_abcdx_abcz 2
        (TraversalPayload.new [98, 99, 100, 101]) true 0) Match.empty [97]
          true)).matched_depth_ = 0) :=
  ⟨⟨by decide, by decide⟩,
    C13_greedy_all_finals _ Match.empty [97] (by decide)⟩

/-- C14 (only final states emit): a non-empty match of `NextMatch` was built at
the position `p` the traverser reached after skipping states that are not
final; `IsFinalState()` is true there, and the matched string is the stored
exact prefix followed by the first `depth` label bytes of `p`. -/
theorem C14_final_states_only (m : NearMatching) (h : (NextMatch m).1.IsEmpty = false) :
    ∃ skipped p rest, m.traverser_ptr_ = some (skipped ++ p :: rest) ∧
      (∀ q ∈ skipped, q.is_final = false) ∧
      Traverser.IsFinalState (p :: rest) = true ∧
      (NextMatch m).1.matched_item = m.exact_prefix_ ++ p.labels.take (Traverser.GetDepth (p :: rest)) ∧
      (NextMatch m).2.traverser_ptr_ = some (Traverser.advance (p :: rest)) := by
  obtain ⟨skipped, p, rest, h1, h2, h3, _, h5, h6, _⟩ :=
    NextMatch_split m ((Match.IsEmpty_false_iff _).mp h)
  refine ⟨skipped, p, rest, h1, fun q hq => (h2 q hq).1, h3, ?_, h6⟩
  rw [h5]
  rfl

/-- Witness of C14: the first call on the matcher over the dictionary `ab, abcx`
returns `ab`. -/
theorem C14_final_states_only_witness :
    ((NextMatch (NearMatching.new traverser_abcx Match.empty [97] false)).1.IsEmpty = false ∧
      (NextMatch (NearMatching.new traverser_abcx Match.empty [97] false)).1.matched_item =
        [97, 98]) ∧
    ∃ skipped p rest,
      (NearMatching.new traverser_abcx Match.empty [97] false).traverser_ptr_ =
        some (skipped ++ p :: rest) ∧
      (∀ q ∈ skipped, q.is_final = false) ∧
      Traverser.IsFinalState (p :: rest) = true ∧
      (NextMatch (NearMatching.new traverser_abcx Match.empty [97] false)).1.matched_item =
        (NearMatching.new traverser_abcx Match.empty [97] false).exact_prefix_ ++
          p.labels.take (Traverser.GetDepth (p :: rest)) ∧
      (NextMatch (NearMatching.new traverser_abcx Match.empty [97] false)).2.traverser_ptr_ =
        some (Traverser.advance (p :: rest)) :=
  ⟨⟨by decide, by decide⟩, C14_final_states_only _ (by decide)⟩

/-- C18 (offsets): over a traverser whose label buffer holds at least `depth`
bytes at every position, a non-empty match of `NextMatch` has start offset `0`
and an end offset equal to the length of its matched string, which is the
length of the stored exact prefix plus the depth of the emitting state. -/
theorem C18_offsets (m : NearMatching)
    (hl : ∀ t, m.traverser_ptr_ = some t → ∀ p ∈ t, p.depth ≤ p.labels.length)
    (h : (NextMatch m).1.IsEmpty = false) :
    (NextMatch m).1.start = 0 ∧
    (NextMatch m).1.end_ = (NextMatch m).1.matched_item.length ∧
    ∃ skipped p rest, m.traverser_ptr_ = some (skipped ++ p :: rest) ∧
      (∀ q ∈ skipped, q.is_final = false) ∧ p.is_final = true ∧
      (NextMatch m).1.end_ = m.exact_prefix_.length + p.depth := by
  obtain ⟨skipped, p, rest, h1, h2, h3, _, h5, _, _⟩ :=
    NextMatch_split m ((Match.IsEmpty_false_iff _).mp h)
  have hp : p.depth ≤ p.labels.length :=
    hl _ h1 p (List.mem_append_right _ (List.mem_cons_self _ _))
  rw [h5]
  refine ⟨rfl, ?_, skipped, p, rest, h1, fun q hq => (h2 q hq).1, h3, ?_⟩
  · simp only [make_match, List.length_append, List.length_take]
    omega
  · simp only [make_match]
    omega

/-- Witness of C18: the second call on the matcher over the dictionary
`ab, abcx` returns `abcx` with the offsets `0` and `4`. -/
theorem C18_offsets_witness :
    ((∀ t, (NextMatch (NearMatching.new traverser_abcx Match.empty [97] false)).2.traverser_ptr_
        = some t → ∀ p ∈ t, p.depth ≤ p.labels.length) ∧
      (NextMatch (NextMatch (NearMatching.new traverser_abcx Match.empty [97]
        false)).2).1.IsEmpty = false ∧
      (NextMatch (NextMatch (NearMatching.new traverser_abcx Match.empty [97]
        false)).2).1.end_ = 4) ∧
    ((NextMatch (NextMatch (NearMatching.new traverser_abcx Match.empty [97]
        false)).2).1.start = 0 ∧
    (NextMatch (NextMatch (NearMatching.new traverser_abcx Match.empty [97]
        false)).2).1.end_ =
      (NextMatch (NextMatch (NearMatching.new traverser_abcx Match.empty [97]
        false)).2).1.matched_item.length ∧
    ∃ skipped p rest,
      (NextMatch (NearMatching.new traverser_abcx Match.empty [97] false)).2.traverser_ptr_ =
        some (skipped ++ p :: rest) ∧
      (∀ q ∈ skipped, q.is_final = false) ∧ p.is_final = true ∧
      (NextMatch (NextMatch (NearMatching.new traverser_abcx Match.empty [97]
        false)).2).1.end_ =
        (NextMatch (NearMatching.new traverser_abcx Match.empty [97]
          false)).2.exact_prefix_.length + p.depth) := by
  have hl : ∀ t, (NextMatch (NearMatching.new traverser_abcx Match.empty [97]
      false)).2.traverser_ptr_ = some t → ∀ p ∈ t, p.depth ≤ p.labels.length := by
    intro t ht
    have h2 : (NextMatch (NearMatching.new traverser_abcx Match.empty [97]
      false)).2.traverser_ptr_ = some (traverser_abcx.drop 1) := by decide
    rw [h2] at ht
    injection ht with ht
    subst ht
    decide
  exact ⟨⟨hl, by decide, by decide⟩, C18_offsets _ hl (by decide)⟩

/-- C20 (the query is split without loss): with
`minimum_exact_prefix <= len(query)`, the stored exact prefix is
`query[0..minimum_exact_prefix)`, the near key in the payload `FromSingleFsa`
hands to the traverser and in every payload `FilterWithExactPrefix` returns is
`query[minimum_exact_prefix..]`, at `exact_depth = 0`, and the prefix followed
by the near key is the query. -/
theorem C20_query_split (T : Traversers) (fsa : Automata) (fsas : List Automata)
    (start_state : Nat) (query : List Nat) ( minimum_exact_prefix : Nat) (greedy : Bool)
    (h : minimum_exact_prefix ≤ query.length) :
    query.take minimum_exact_prefix ++ query.drop minimum_exact_prefix = query ∧
    FromSingleFsa.from_state T fsa start_state query minimum_exact_prefix greedy =
      Except.ok (NearMatching.new
        (T.comparable fsa start_state
          { lookup_key := query.drop minimum_exact_prefix, exact_depth := 0 } true 0)
        Match.empty (query.take minimum_exact_prefix) greedy) ∧
    (FromSingleFsa T fsa query minimum_exact_prefix greedy = Except.ok NearMatching.default ∨
      ∃ s, FromSingleFsa T fsa query minimum_exact_prefix greedy =
        Except.ok (NearMatching.new
          (T.comparable fsa s
            { lookup_key := query.drop minimum_exact_prefix, exact_depth := 0 } true 0)
          Match.empty (query.take minimum_exact_prefix) greedy)) ∧
    ∃ ps, FilterWithExactPrefix fsas query minimum_exact_prefix = Except.ok ps ∧
      (∀ e ∈ ps, e.1 ∈ fsas ∧
        e.2.2 = { lookup_key := query.drop minimum_exact_prefix, exact_depth := 0 }) ∧
      (FromMulipleFsas T fsas query minimum_exact_prefix greedy =
          Except.ok NearMatching.default ∨
        FromMulipleFsas T fsas query minimum_exact_prefix greedy =
          Except.ok (NearMatching.new (T.zip ps) Match.empty
            (query.take minimum_exact_prefix) greedy)) := by
  refine ⟨List.take_append_drop _ _, ?_, ?_, ?_⟩
  · exact FromSingleFsa.from_state_ok T fsa start_state query minimum_exact_prefix greedy h
  · exact FromSingleFsa_cases T fsa query minimum_exact_prefix greedy h
  · have hf := FilterWithExactPrefix_ok fsas query minimum_exact_prefix h
    refine ⟨_, hf, ?_, ?_⟩
    · intro e he
      obtain ⟨f, hf1, hf2⟩ := List.mem_filterMap.mp he
      simp only at hf2
      split at hf2
      · injection hf2 with hf2
        rw [← hf2]
        exact ⟨hf1, rfl⟩
      · exact absurd hf2 (by simp)
    · rcases FromMulipleFsas_cases T fsas query minimum_exact_prefix greedy h
        with h1 | ⟨ps, hps, h1⟩
      · exact Or.inl h1
      · rw [hf] at hps
        injection hps with hps
        subst hps
        exact Or.inr h1

/-- Witness of C20: the query `ab` with the prefix length `1`, over the dictionary
`ab` and over the list of the dictionaries `ab` and `ab, ac`. -/
theorem C20_query_split_witness :
    1 ≤ [97, 98].length ∧
    ([97, 98].take 1 ++ [97, 98].drop 1 = [97, 98] ∧
    FromSingleFsa.from_state near_traversers fsa_ab 2 [97, 98] 1 false =
      Except.ok (NearMatching.new
        (near_traversers.comparable fsa_ab 2
          { lookup_key := [97, 98].drop 1, exact_depth := 0 } true 0)
        Match.empty ([97, 98].take 1) false) ∧
    (FromSingleFsa near_traversers fsa_ab [97, 98] 1 false = Except.ok NearMatching.default ∨
      ∃ s, FromSingleFsa near_traversers fsa_ab [97, 98] 1 false =
        Except.ok (NearMatching.new
          (near_traversers.comparable fsa_ab s
            { lookup_key := [97, 98].drop 1, exact_depth := 0 } true 0)
          Match.empty ([97, 98].take 1) false)) ∧
    ∃ ps, FilterWithExactPrefix [fsa_ab, fsa_ab_ac] [97, 98] 1 = Except.ok ps ∧
      (∀ e ∈ ps, e.1 ∈ [fsa_ab, fsa_ab_ac] ∧
        e.2.2 = { lookup_key := [97, 98].drop 1, exact_depth := 0 }) ∧
      (FromMulipleFsas near_traversers [fsa_ab, fsa_ab_ac] [97, 98] 1 false =
          Except.ok NearMatching.default ∨
        FromMulipleFsas near_traversers [fsa_ab, fsa_ab_ac] [97, 98] 1 false =
          Except.ok (NearMatching.new (near_traversers.zip ps) Match.empty
            ([97, 98].take 1) false))) :=
  ⟨by decide, C20_query_split near_traversers fsa_ab [fsa_ab, fsa_ab_ac] 2 [97, 98] 1 false
    (by decide)⟩

/-! ## Depth-first traversal and the lock -/

theorem common_prefix_length_le_left (key : List Nat) :
    ∀ path, common_prefix_length key path ≤ key.length := by
  induction key with
  | nil => intro path; simp [common_prefix_length]
  | cons k key ih =>
    intro path
    cases path with
    | nil => simp [common_prefix_length]
    | cons a path =>
      unfold common_prefix_length
      split
      · have := ih path
        simp only [List.length_cons]
        omega
      · exact Nat.zero_le _

theorem common_prefix_length_le_right (key : List Nat) :
    ∀ path, common_prefix_length key path ≤ path.length := by
  induction key with
  | nil => intro path; simp [common_prefix_length]
  | cons k key ih =>
    intro path
    cases path with
    | nil => simp [common_prefix_length]
    | cons a path =>
      unfold common_prefix_length
      split
      · have := ih path
        simp only [List.length_cons]
        omega
      · exact Nat.zero_le _

theorem common_prefix_length_take (key : List Nat) :
    ∀ path, path.take (common_prefix_length key path) =
      key.take (common_prefix_length key path) := by
  induction key with
  | nil => intro path; simp [common_prefix_length]
  | cons k key ih =>
    intro path
    cases path with
    | nil => simp [common_prefix_length]
    | cons a path =>
      unfold common_prefix_length
      split
      · rename_i h
        rw [List.take_succ_cons, List.take_succ_cons, ih path, h]
      · simp

theorem le_common_prefix_length (key : List Nat) :
    ∀ (path : List Nat) (n : Nat), n ≤ key.length → n ≤ path.length →
      path.take n = key.take n → n ≤ common_prefix_length key path := by
  induction key with
  | nil => intro path n h1 _ _; simp at h1; omega
  | cons k key ih =>
    intro path n h1 h2 h3
    cases n with
    | zero => exact Nat.zero_le _
    | succ n =>
      cases path with
      | nil => simp at h2
      | cons a path =>
        rw [List.take_succ_cons, List.take_succ_cons] at h3
        injection h3 with h4 h5
        unfold common_prefix_length
        rw [if_pos h4]
        have := ih path n (by simpa using h1) (by simpa using h2) h5
        omega

theorem Position.path_length (p : Position) (h : p.depth ≤ p.labels.length) :
    p.path.length = p.depth := by
  unfold Position.path
  rw [List.length_take]
  omega

theorem Traverser.depth_first_suffix (key : List Nat) (t s : Traverser)
    (h : Traverser.depth_first key t) (hs : s <:+ t) : Traverser.depth_first key s := by
  obtain ⟨h1, h2, h3⟩ := h
  exact ⟨fun p hp => h1 p (hs.subset hp), h2.sublist hs.sublist, h3.suffix hs⟩

/-- A position visited after `e` with the `exact_depth` of `e` lies deeper than
that `exact_depth`. -/
theorem depth_first_same_exact_depth (key : List Nat) (e x : Position)
    (he : e.payload.exact_depth = common_prefix_length key e.path)
    (hx : x.depth ≤ x.labels.length ∧ x.payload.exact_depth = common_prefix_length key x.path)
    (hne : ¬ x.path <+: e.path) (heq : x.payload.exact_depth = e.payload.exact_depth) :
    e.payload.exact_depth < x.depth := by
  have hlen := Position.path_length x hx.1
  have hle := common_prefix_length_le_right key x.path
  by_contra hc
  apply hne
  have hd : x.path.length = common_prefix_length key x.path := by
    rw [← hx.2, heq]; rw [← hx.2, heq] at hle; omega
  have h1 := common_prefix_length_take key x.path
  rw [← hd, List.take_length] at h1
  have h2 := common_prefix_length_take key e.path
  rw [← he, ← heq, hx.2, ← hd] at h2
  rw [h1, ← h2]
  exact List.take_prefix _ _

/-- One step of a depth-first traversal that stays deeper than `md` keeps the
first `md` bytes of the path. -/
theorem depth_first_step (key : List Nat) (md : Nat) (y x : Position)
    (hstep : x.path.dropLast <+: y.path) (hx : md < x.path.length)
    (hy : y.path.take md = key.take md) :
    x.path.take md = key.take md := by
  rw [← hy]
  obtain ⟨s, hs⟩ := hstep
  have h1 : md ≤ x.path.dropLast.length := by
    rw [List.length_dropLast]; omega
  rw [← hs, List.take_append_of_le_length h1, List.dropLast_eq_take, List.take_take]
  congr 1
  omega

/-- The steps of a depth-first traversal through positions deeper than `md` keep
the first `md` bytes of the path. -/
theorem depth_first_window (key : List Nat) (md : Nat) (tr : Traverser) :
    ∀ (skipped : List Position) (y : Position),
      List.Chain' (fun p q : Position => q.path.dropLast <+: p.path) (y :: (skipped ++ tr)) →
      (∀ q ∈ skipped, md < q.path.length) → y.path.take md = key.take md →
      ∃ z, List.Chain' (fun p q : Position => q.path.dropLast <+: p.path) (z :: tr) ∧
        z.path.take md = key.take md := by
  intro skipped
  induction skipped with
  | nil => intro y h1 _ h3; exact ⟨y, h1, h3⟩
  | cons q skipped ih =>
    intro y h1 h2 h3
    rw [List.cons_append, List.chain'_cons] at h1
    exact ih q h1.2 (fun r hr => h2 r (List.mem_cons_of_mem _ hr))
      (depth_first_step key md y q h1.1 (h2 q (List.mem_cons_self _ _)) h3)

/-- The loop passes over positions that are not final and lie deeper than the
lock. -/
theorem NextMatch_loop_skip ( exact_prefix : List Nat) (greedy : Bool) (md : Nat)
    (rest : Traverser) :
    ∀ skipped : List Position, (∀ q ∈ skipped, q.is_final = false ∧ md < q.depth) →
      NextMatch_loop exact_prefix greedy md (skipped ++ rest) =
        NextMatch_loop exact_prefix greedy md rest := by
  intro skipped
  induction skipped with
  | nil => intro _; rfl
  | cons q skipped ih =>
    intro h
    have hq := h q (List.mem_cons_self _ _)
    rw [List.cons_append]
    unfold NextMatch_loop
    simp only [gt_iff_lt, hq.2, if_true, hq.1, Bool.false_eq_true, if_false]
    rw [ih (fun r hr => h r (List.mem_cons_of_mem _ hr))]
    cases rest <;> rfl

/-- An empty result of the loop, in full: the lock is unchanged and the traverser
stands where the loop stopped. -/
theorem NextMatch_loop_empty_split ( exact_prefix : List Nat) (greedy : Bool) (t : Traverser) :
    ∀ md, (NextMatch_loop exact_prefix greedy md t).1 = Match.empty →
      ∃ skipped, t = skipped ++ (NextMatch_loop exact_prefix greedy md t).2.2 ∧
        (∀ q ∈ skipped, q.is_final = false ∧ md < q.depth) ∧
        (NextMatch_loop exact_prefix greedy md t).2.1 = md := by
  induction t with
  | nil => intro md _; exact ⟨[], rfl, by simp, rfl⟩
  | cons p rest ih =>
    intro md h
    unfold NextMatch_loop at h ⊢
    by_cases hd : p.depth > md
    · by_cases hf : p.is_final = true
      · simp only [hd, hf, if_true] at h
        exact absurd h (make_match_ne_empty _ p (by omega))
      · have hf2 : p.is_final = false := by simpa using hf
        simp only [hd, hf2, if_true, Bool.false_eq_true, if_false] at h ⊢
        obtain ⟨skipped, h1, h2, h3⟩ := ih md h
        refine ⟨p :: skipped, ?_, ?_, h3⟩
        · rw [List.cons_append, ← h1]
        · intro x hx
          rcases List.mem_cons.mp hx with hx1 | hx1
          · subst hx1; exact ⟨by simpa using hf, hd⟩
          · exact h2 x hx1
    · rw [if_neg hd]
      exact ⟨[], rfl, by simp, rfl⟩

theorem NextMatch_some (m : NearMatching) (tr : Traverser) (h : m.traverser_ptr_ = some tr) :
    NextMatch m =
      ((NextMatch_loop m.exact_prefix_ m.greedy_ m.matched_depth_ tr).1,
        { m with
          traverser_ptr_ := some (NextMatch_loop m.exact_prefix_ m.greedy_ m.matched_depth_ tr).2.2,
          matched_depth_ := (NextMatch_loop m.exact_prefix_ m.greedy_ m.matched_depth_ tr).2.1 }) := by
  unfold NextMatch
  rw [h]

/-- A match of a non-greedy matcher over a depth-first traversal locks it. -/
theorem NearMatching.locked_of_match (key : List Nat) (m : NearMatching) (tr : Traverser)
    (hg : m.greedy_ = false) (ht : m.traverser_ptr_ = some tr)
    (hdf : Traverser.depth_first key tr) (h : (NextMatch m).1 ≠ Match.empty) :
    NearMatching.locked key (NextMatch m).2 := by
  obtain ⟨skipped, p, rest, h1, _, _, _, _, h6, h7⟩ := NextMatch_split m h
  rw [ht] at h1
  injection h1 with h1
  rw [hg] at h7
  simp only [Bool.not_false, if_true] at h7
  have hsuf : (p :: rest) <:+ tr := ⟨skipped, h1.symm⟩
  have hdp := Traverser.depth_first_suffix key tr (p :: rest) hdf hsuf
  have hp := hdp.1 p (List.mem_cons_self _ _)
  refine ⟨by rw [NextMatch_greedy]; exact hg, rest, h6,
    Traverser.depth_first_suffix key _ rest hdp (List.suffix_cons _ _), ?_, ?_⟩
  · refine ⟨p, h7.symm, hp.2, ?_⟩
    intro x hx
    exact List.rel_of_pairwise_cons hdp.2.1 hx
  · refine ⟨p, hdp.2.2, ?_⟩
    rw [h7, hp.2]
    exact common_prefix_length_take key p.path

/-- A call of `NextMatch` leaves a locked matcher locked. -/
theorem NearMatching.locked_next (key : List Nat) (m : NearMatching)
    (h : NearMatching.locked key m) : NearMatching.locked key (NextMatch m).2 := by
  obtain ⟨hg, tr, ht, hdf, ⟨e, he1, he2, he3⟩, ⟨y, hy1, hy2⟩⟩ := h
  by_cases hm : (NextMatch m).1 = Match.empty
  · rw [NextMatch_some m tr ht] at hm ⊢
    simp only at hm ⊢
    obtain ⟨skipped, h1, h2, h3⟩ := NextMatch_loop_empty_split _ _ tr _ hm
    have hsuf : (NextMatch_loop m.exact_prefix_ m.greedy_ m.matched_depth_ tr).2.2 <:+ tr :=
      ⟨skipped, h1.symm⟩
    refine ⟨hg, _, rfl, Traverser.depth_first_suffix key tr _ hdf hsuf, ?_, ?_⟩
    · refine ⟨e, ?_, he2, fun x hx => he3 x (hsuf.subset hx)⟩
      simp only [h3]
      exact he1
    · simp only [h3]
      rw [h1] at hy1
      refine depth_first_window key m.matched_depth_ _ skipped y hy1 ?_ hy2
      intro q hq
      have hq2 : q ∈ tr := by rw [h1]; exact List.mem_append_left _ hq
      rw [Position.path_length q (hdf.1 q hq2).1]
      exact (h2 q hq).2
  · exact NearMatching.locked_of_match key m tr hg ht hdf hm

theorem NearMatching.locked_calls (key : List Nat) :
    ∀ (k : Nat) (m : NearMatching), NearMatching.locked key m →
      NearMatching.locked key (NextMatch_calls k m) := by
  intro k
  induction k with
  | zero => intro m h; exact h
  | succ k ih => intro m h; exact ih _ (NearMatching.locked_next key m h)

/-- Once the first call has returned a match, a non-greedy matcher over a
depth-first traversal is locked before every later call. -/
theorem NearMatching.locked_after_first (key : List Nat) (m : NearMatching) (tr : Traverser)
    (hg : m.greedy_ = false) (ht : m.traverser_ptr_ = some tr)
    (hdf : Traverser.depth_first key tr) (h : (NextMatch_nth 0 m).IsEmpty = false) (k : Nat) :
    NearMatching.locked key (NextMatch_calls (k + 1) m) :=
  NearMatching.locked_calls key k _
    (NearMatching.locked_of_match key m tr hg ht hdf ((Match.IsEmpty_false_iff _).mp h))

/-- In the locked state, a final position with the `exact_depth` of the lock that
the loop reaches is emitted. -/
theorem NearMatching.locked_equal (key : List Nat) (m : NearMatching)
    (h : NearMatching.locked key m) (skipped : List Position) (x : Position) (rest : Traverser)
    (ht : m.traverser_ptr_ = some (skipped ++ x :: rest))
    (hs : ∀ q ∈ skipped, q.is_final = false ∧ m.matched_depth_ < q.depth)
    (hx : x.is_final = true) (heq : x.payload.exact_depth = m.matched_depth_) :
    m.matched_depth_ < x.depth ∧
    NextMatch m = (make_match m.exact_prefix_ x,
      { m with traverser_ptr_ := some rest, matched_depth_ := x.payload.exact_depth }) := by
  obtain ⟨hg, tr, ht2, hdf, ⟨e, he1, he2, he3⟩, _⟩ := h
  rw [ht] at ht2
  injection ht2 with ht2
  subst ht2
  have hxm : x ∈ skipped ++ x :: rest := List.mem_append_right _ (List.mem_cons_self _ _)
  have hd : m.matched_depth_ < x.depth := by
    rw [← he1]
    exact depth_first_same_exact_depth key e x he2 (hdf.1 x hxm) (he3 x hxm) (by rw [heq, he1])
  refine ⟨hd, ?_⟩
  rw [NextMatch_some m _ ht, NextMatch_loop_skip _ _ _ _ skipped hs]
  unfold NextMatch_loop
  simp only [gt_iff_lt, hd, if_true, hx, hg, Bool.not_false]

/-- In the locked state, a position with an `exact_depth` below the lock that the
loop reaches stops it, for this call and every later one. -/
theorem NearMatching.locked_less (key : List Nat) (m : NearMatching)
    (h : NearMatching.locked key m) (skipped : List Position) (x : Position) (rest : Traverser)
    (ht : m.traverser_ptr_ = some (skipped ++ x :: rest))
    (hs : ∀ q ∈ skipped, q.is_final = false ∧ m.matched_depth_ < q.depth)
    (hlt : x.payload.exact_depth < m.matched_depth_) :
    x.depth ≤ m.matched_depth_ ∧
    NextMatch m = (Match.empty, { m with traverser_ptr_ := some (x :: rest) }) := by
  obtain ⟨hg, tr, ht2, hdf, ⟨e, he1, he2, he3⟩, ⟨y, hy1, hy2⟩⟩ := h
  rw [ht] at ht2
  injection ht2 with ht2
  subst ht2
  have hxm : x ∈ skipped ++ x :: rest := List.mem_append_right _ (List.mem_cons_self _ _)
  have hxf := hdf.1 x hxm
  have hd : x.depth ≤ m.matched_depth_ := by
    by_contra hc
    have hlen := Position.path_length x hxf.1
    obtain ⟨z, hz1, hz2⟩ := depth_first_window key m.matched_depth_ (x :: rest) skipped y hy1
      (fun q hq => by
        rw [Position.path_length q (hdf.1 q (List.mem_append_left _ hq)).1]
        exact (hs q hq).2) hy2
    have h1 := depth_first_step key m.matched_depth_ z x (List.chain'_cons.mp hz1).1
      (by omega) hz2
    have h2 := le_common_prefix_length key x.path m.matched_depth_
      (by rw [← he1, he2]; exact common_prefix_length_le_left _ _) (by omega) h1
    rw [← hxf.2] at h2
    omega
  refine ⟨hd, ?_⟩
  rw [NextMatch_some m _ ht, NextMatch_loop_skip _ _ _ _ skipped hs]
  unfold NextMatch_loop
  have hn : ¬ x.depth > m.matched_depth_ := by omega
  simp only [hn, if_false]

/-- A matcher whose traverser stands on a position that is not deeper than the
lock returns the empty match for ever. -/
theorem NextMatch_nth_stuck (m : NearMatching) (x : Position) (rest : Traverser)
    (ht : m.traverser_ptr_ = some (x :: rest)) (hd : x.depth ≤ m.matched_depth_) :
    ∀ k, NextMatch_calls k m = m ∧ NextMatch_nth k m = Match.empty := by
  have h1 : NextMatch m = (Match.empty, m) := by
    rw [NextMatch_some m _ ht]
    unfold NextMatch_loop
    have hn : ¬ x.depth > m.matched_depth_ := by omega
    simp only [hn, if_false]
    rw [← ht]
  intro k
  induction k with
  | zero => exact ⟨rfl, by unfold NextMatch_nth NextMatch_calls; rw [h1]⟩
  | succ k ih =>
    have h2 : NextMatch_calls (k + 1) m = m := by
      show NextMatch_calls k (NextMatch m).2 = m
      rw [h1]; exact ih.1
    refine ⟨h2, ?_⟩
    unfold NextMatch_nth
    rw [h2, h1]

/-! ## The near traversers are depth first -/

theorem near_before_extension (p : List Nat) :
    ∀ (key : Option (List Nat)) (s : List Nat), s ≠ [] → near_before key p (p ++ s) = true := by
  induction p with
  | nil =>
    intro key s hs
    cases s with
    | nil => exact absurd rfl hs
    | cons c s => rfl
  | cons a p ih =>
    intro key s hs
    rw [List.cons_append]
    unfold near_before
    rw [if_pos rfl]
    exact ih _ s hs

theorem near_before_not_prefix (key : Option (List Nat)) (p q : List Nat)
    (h : near_before key p q = true) : ¬ q <+: p := by
  rintro ⟨s, hs⟩
  by_cases hnil : s = []
  · subst hnil
    rw [List.append_nil] at hs
    exact near_before_ne key p q h hs.symm
  · have h2 := near_before_extension q key s hnil
    rw [hs, near_before_asymm key p q h] at h2
    exact absurd h2 (by simp)

/-- Between a path and one of its extensions, the near order has extensions of that
path only. -/
theorem near_before_convex (π : List Nat) :
    ∀ (key : Option (List Nat)) (a b c : List Nat), π <+: a → π <+: c →
      near_before key a b = true → near_before key b c = true → π <+: b := by
  induction π with
  | nil => intro key a b c _ _ _ _; exact List.nil_prefix
  | cons x π ih =>
    intro key a b c ha hc hab hbc
    obtain ⟨sa, rfl⟩ := ha
    obtain ⟨sc, rfl⟩ := hc
    cases b with
    | nil => simp [near_before] at hab
    | cons y b =>
      rw [List.cons_append] at hab hbc
      unfold near_before at hab hbc
      by_cases hxy : x = y
      · subst hxy
        simp only [if_true] at hab hbc
        have := ih _ (π ++ sa) b (π ++ sc) (List.prefix_append _ _) (List.prefix_append _ _)
          hab hbc
        exact (List.prefix_cons_inj x).mpr this
      · have hyx : ¬ y = x := fun hh => hxy hh.symm
        simp only [hxy, hyx, if_false, decide_eq_true_eq] at hab hbc
        omega

/-- A stream in near order that holds, with every path, the path without its last
byte moves by depth-first steps. -/
theorem ordered_chain (key : List Nat) :
    ∀ (t pre : Traverser), Traverser.ordered key (pre ++ t) →
      (∀ p ∈ t, p.path.dropLast = [] ∨ ∃ z ∈ pre ++ t, z.path = p.path.dropLast) →
      List.Chain' (fun p q : Position => q.path.dropLast <+: p.path) t := by
  intro t
  induction t with
  | nil => intro _ _ _; exact List.chain'_nil
  | cons y t ih =>
    intro pre hord hcl
    cases t with
    | nil => exact List.chain'_singleton _
    | cons y2 l2 =>
      rw [List.chain'_cons]
      constructor
      · by_cases h0 : y2.path.dropLast = []
        · rw [h0]; exact List.nil_prefix
        · rcases hcl y2 (List.mem_cons_of_mem _ (List.mem_cons_self _ _)) with h1 | ⟨z, hz, hzp⟩
          · exact absurd h1 h0
          · have hne : y2.path ≠ [] := by
              intro hh
              rw [hh] at h0
              exact h0 rfl
            have hext : near_before (some key) z.path y2.path = true := by
              have := near_before_extension y2.path.dropLast (some key) [y2.path.getLast hne]
                (by simp)
              rw [List.dropLast_append_getLast hne] at this
              rw [hzp]
              exact this
            unfold Traverser.ordered at hord
            rw [List.pairwise_append, List.pairwise_cons, List.pairwise_cons] at hord
            obtain ⟨_, ⟨hy, hy2, _⟩, hpre⟩ := hord
            have hyy2 := hy y2 (List.mem_cons_self _ _)
            rcases List.mem_append.mp hz with hz1 | hz1
            · have hzy := hpre z hz1 y (List.mem_cons_self _ _)
              rw [← hzp]
              refine near_before_convex z.path (some key) z.path y.path y2.path
                (List.prefix_refl _) ?_ hzy hyy2
              rw [hzp]
              exact List.dropLast_prefix _
            · rcases List.mem_cons.mp hz1 with hz2 | hz2
              · subst hz2
                rw [← hzp]
              · rcases List.mem_cons.mp hz2 with hz3 | hz3
                · subst hz3
                  rw [near_before_irrefl] at hext
                  exact absurd hext (by simp)
                · have := hy2 z hz3
                  rw [near_before_asymm _ _ _ hext] at this
                  exact absurd this (by simp)
      · have := ih (pre ++ [y]) (by rw [List.append_assoc]; exact hord)
          (fun p hp => by
            rcases hcl p (List.mem_cons_of_mem _ hp) with h0 | ⟨z, hz, hzp⟩
            · exact Or.inl h0
            · exact Or.inr ⟨z, by rw [List.append_assoc]; exact hz, hzp⟩)
        exact this

theorem common_prefix_length_snoc (key : List Nat) (c : Nat) :
    ∀ path : List Nat, common_prefix_length key (path ++ [c]) =
      if common_prefix_length key path = path.length ∧ key.get? path.length = some c
      then path.length + 1 else common_prefix_length key path := by
  induction key with
  | nil => intro path; cases path <;> simp [common_prefix_length]
  | cons k key ih =>
    intro path
    cases path with
    | nil =>
      simp only [List.nil_append, common_prefix_length, List.length_nil, List.get?_cons_zero,
        true_and, Option.some.injEq]
      by_cases h : c = k
      · subst h; simp [common_prefix_length]
      · have h2 : ¬ k = c := fun hh => h hh.symm
        simp [h, h2]
    | cons a path =>
      have hi := ih path
      rw [List.cons_append]
      simp only [common_prefix_length, List.length_cons, List.get?_cons_succ]
      by_cases h : a = k
      · rw [if_pos h, if_pos h, hi]
        by_cases h2 : common_prefix_length key path = path.length ∧
            key.get? path.length = some c
        · rw [if_pos h2, if_pos ⟨by omega, h2.2⟩]
        · rw [if_neg h2, if_neg (fun hh => h2 ⟨by omega, hh.2⟩)]
      · simp [h]

/-- The payload of every position of the near traverser counts the bytes its path
shares with the near key. -/
theorem near_traverse_exact_depth (f : Automata) (key : List Nat) (fuel : Nat) :
    ∀ (state : Nat) (path : List Nat) (payload : TraversalPayload),
      payload.lookup_key = key → payload.exact_depth = common_prefix_length key path →
      ∀ q ∈ near_traverse f fuel state path payload,
        q.payload.exact_depth = common_prefix_length key q.labels := by
  induction fuel with
  | zero => intro state path payload _ _ q hq; simp [near_traverse] at hq
  | succ fuel ih =>
    intro state path payload hk hd q hq
    rw [near_traverse_succ] at hq
    obtain ⟨c, _, hq2⟩ := List.mem_flatMap.mp hq
    have hchild : (near_payload payload path.length c).exact_depth =
        common_prefix_length key (path ++ [c]) := by
      rw [common_prefix_length_snoc]
      unfold near_payload
      rw [hk, hd]
      split
      · rfl
      · exact hd
    rcases List.mem_cons.mp hq2 with h1 | h1
    · rw [h1]; exact hchild
    · exact ih _ _ _ (by rw [near_payload_lookup_key]; exact hk) hchild q h1

/-- With every position, the near traverser visits the state above it. -/
theorem near_traverse_closed (f : Automata) (fuel : Nat) :
    ∀ (state : Nat) (path : List Nat) (payload : TraversalPayload),
      ∀ q ∈ near_traverse f fuel state path payload,
        q.labels.dropLast = path ∨
          ∃ z ∈ near_traverse f fuel state path payload, z.labels = q.labels.dropLast := by
  induction fuel with
  | zero => intro state path payload q hq; simp [near_traverse] at hq
  | succ fuel ih =>
    intro state path payload q hq
    rw [near_traverse_succ] at hq ⊢
    obtain ⟨c, hc, hq2⟩ := List.mem_flatMap.mp hq
    rcases List.mem_cons.mp hq2 with h1 | h1
    · left; rw [h1]; simp
    · right
      rcases ih _ _ _ q h1 with h2 | ⟨z, hz, hz2⟩
      · exact ⟨_, List.mem_flatMap.mpr ⟨c, hc, List.mem_cons_self _ _⟩, h2.symm⟩
      · exact ⟨z, List.mem_flatMap.mpr ⟨c, hc, List.mem_cons_of_mem _ hz⟩, hz2⟩

/-- The near traverser of one segment is depth first. -/
theorem near_trace_depth_first (key : List Nat) (e : Automata × Nat × TraversalPayload)
    (he : e.2.2 = TraversalPayload.new key) : Traverser.depth_first key (near_trace e) := by
  have hpath := near_trace_path e
  refine ⟨?_, ?_, ?_⟩
  · intro p hp
    obtain ⟨ext, t, _, _, h3, _⟩ := near_traverse_sound _ _ _ _ _ p hp
    refine ⟨by omega, ?_⟩
    rw [(hpath p hp).1]
    exact near_traverse_exact_depth e.1 key _ e.2.1 [] e.2.2 (by rw [he]; rfl)
      (by rw [he]; cases key <;> rfl) p hp
  · exact (near_trace_ordered key e he).imp (fun h => near_before_not_prefix _ _ _ h)
  · refine ordered_chain key (near_trace e) [] (near_trace_ordered key e he) ?_
    intro p hp
    rcases near_traverse_closed _ _ _ _ _ p hp with h1 | ⟨z, hz, hz2⟩
    · left; rw [(hpath p hp).1]; exact h1
    · right
      exact ⟨z, hz, by rw [(hpath p hp).1, (hpath z hz).1]; exact hz2⟩

/-- The traverser `FromSingleFsa` builds is depth first. -/
theorem near_comparable_depth_first (f : Automata) (state : Nat) (key : List Nat)
    (order : Nat) :
    Traverser.depth_first key
      (near_traversers.comparable f state (TraversalPayload.new key) true order) :=
  near_trace_depth_first key (f, state, TraversalPayload.new key) rfl

/-- The merged stream of the zip traverser is depth first. -/
theorem near_zip_depth_first (key : List Nat)
    (ps : List (Automata × Nat × TraversalPayload))
    (hpay : ∀ e ∈ ps, e.2.2 = TraversalPayload.new key) :
    Traverser.depth_first key (near_traversers.zip ps) := by
  show Traverser.depth_first key (ZipStateTraverser.new ps)
  have hord : ∀ t ∈ ps.map near_trace, Traverser.ordered key t := by
    intro t ht
    obtain ⟨e, he, rfl⟩ := List.mem_map.mp ht
    exact near_trace_ordered _ e (hpay e he)
  unfold ZipStateTraverser.new
  simp only [ZipStateTraverser.inner_eq]
  cases hps : ps with
  | nil => simp [zip_merge, zip_head, Traverser.depth_first]
  | cons e0 ps0 =>
    have hkey : e0.2.2.lookup_key = key := by
      rw [hpay e0 (by rw [hps]; exact List.mem_cons_self _ _)]
      rfl
    simp only [hkey]
    rw [hps] at hord hpay
    obtain ⟨h1, h2⟩ := zip_merge_spec key
      (((e0 :: ps0).map near_trace).map List.length).sum ((e0 :: ps0).map near_trace) hord
    have hcomp := zip_merge_complete key
      (((e0 :: ps0).map near_trace).map List.length).sum ((e0 :: ps0).map near_trace)
      (Nat.le_refl _)
    have hin : ∀ p ∈ zip_merge key (((e0 :: ps0).map near_trace).map List.length).sum
        ((e0 :: ps0).map near_trace), ∃ e ∈ e0 :: ps0, p ∈ near_trace e := by
      intro p hp
      obtain ⟨⟨t, ht, hpt⟩, _⟩ := h1 p hp
      obtain ⟨e, he, rfl⟩ := List.mem_map.mp ht
      exact ⟨e, he, hpt⟩
    refine ⟨?_, ?_, ?_⟩
    · intro p hp
      obtain ⟨e, he, hpe⟩ := hin p hp
      exact (near_trace_depth_first key e (hpay e he)).1 p hpe
    · exact h2.imp (fun h => near_before_not_prefix _ _ _ h)
    · refine ordered_chain key _ [] h2 ?_
      intro p hp
      obtain ⟨e, he, hpe⟩ := hin p hp
      have hpath := near_trace_path e
      rcases near_traverse_closed _ _ _ _ _ p hpe with h3 | ⟨z, hz, hz2⟩
      · left; rw [(hpath p hpe).1]; exact h3
      · right
        obtain ⟨p2, hp2, hp3⟩ := hcomp (near_trace e) (List.mem_map_of_mem _ he) z hz
        refine ⟨p2, hp2, ?_⟩
        rw [hp3, (hpath p hpe).1, (hpath z hz).1]
        exact hz2

/-- In a depth-first traversal, the positions between the latest match and a
position that follows the near key for `md` bytes and lies deeper than `md` all
lie deeper than `md`. -/
theorem depth_first_reach (key : List Nat) (md : Nat) (e x : Position) (rest : Traverser)
    (he : e.path.take md = key.take md)
    (hx1 : x.path.take md = key.take md) (hx2 : md < x.path.length) :
    ∀ skipped : List Position,
      List.Chain' (fun p q : Position => q.path.dropLast <+: p.path) (skipped ++ x :: rest) →
      (∀ q ∈ skipped, ¬ q.path <+: e.path) →
      ∀ q ∈ skipped, q.path.take md = key.take md ∧ md < q.path.length := by
  intro skipped
  induction skipped with
  | nil => intro _ _ q hq; simp at hq
  | cons q skipped ih =>
    intro hch hne
    rw [List.cons_append, List.chain'_cons'] at hch
    have ih2 := ih hch.2 (fun r hr => hne r (List.mem_cons_of_mem _ hr))
    have hhead : ∃ h, (skipped ++ x :: rest).head? = some h ∧
        h.path.take md = key.take md ∧ md < h.path.length := by
      cases skipped with
      | nil => exact ⟨x, rfl, hx1, hx2⟩
      | cons r s => exact ⟨r, rfl, ih2 r (List.mem_cons_self _ _)⟩
    obtain ⟨h, hh, hh1, hh2⟩ := hhead
    have hstep : h.path.dropLast <+: q.path := hch.1 h hh
    obtain ⟨s, hs⟩ := hstep
    have hlen : md ≤ h.path.dropLast.length := by
      rw [List.length_dropLast]; omega
    have hq1 : q.path.take md = key.take md := by
      rw [← hh1, ← hs, List.take_append_of_le_length hlen, List.dropLast_eq_take,
        List.take_take]
      congr 1
      omega
    have hq2 : md ≤ q.path.length := by
      rw [← hs, List.length_append]; omega
    have hq3 : md < q.path.length := by
      by_contra hc
      have hq4 : q.path.length = md := by omega
      apply hne q (List.mem_cons_self _ _)
      have : q.path = key.take md := by
        rw [← hq1, ← hq4, List.take_length]
      rw [this, ← he]
      exact List.take_prefix _ _
    intro r hr
    rcases List.mem_cons.mp hr with hr1 | hr1
    · subst hr1; exact ⟨hq1, hq3⟩
    · exact ih2 r hr1

/-- In the locked state, the positions before a position with the `exact_depth` of
the lock all pass the gate of the loop. -/
theorem NearMatching.locked_reach (key : List Nat) (m : NearMatching)
    (h : NearMatching.locked key m) (skipped : List Position) (x : Position) (rest : Traverser)
    (ht : m.traverser_ptr_ = some (skipped ++ x :: rest))
    (heq : x.payload.exact_depth = m.matched_depth_) :
    ∀ q ∈ skipped, m.matched_depth_ < q.depth := by
  obtain ⟨_, tr, ht2, hdf, ⟨e, he1, he2, he3⟩, _⟩ := h
  rw [ht] at ht2
  injection ht2 with ht2
  subst ht2
  have hxm : x ∈ skipped ++ x :: rest := List.mem_append_right _ (List.mem_cons_self _ _)
  have hxf := hdf.1 x hxm
  have hd : m.matched_depth_ < x.depth := by
    rw [← he1]
    exact depth_first_same_exact_depth key e x he2 hxf (he3 x hxm) (by rw [heq, he1])
  have hek : e.path.take m.matched_depth_ = key.take m.matched_depth_ := by
    rw [← he1, he2]; exact common_prefix_length_take _ _
  have hxk : x.path.take m.matched_depth_ = key.take m.matched_depth_ := by
    rw [← heq, hxf.2]; exact common_prefix_length_take _ _
  intro q hq
  have := depth_first_reach key m.matched_depth_ e x rest hek hxk
    (by rw [Position.path_length x hxf.1]; exact hd) skipped hdf.2.2
    (fun r hr => he3 r (List.mem_append_left _ hr)) q hq
  rw [Position.path_length q (hdf.1 q (List.mem_append_left _ hq)).1] at this
  exact this.2

theorem NextMatch_calls_add (a : Nat) :
    ∀ (b : Nat) (m : NearMatching),
      NextMatch_calls (a + b) m = NextMatch_calls b (NextMatch_calls a m) := by
  induction a with
  | zero => intro b m; rw [Nat.zero_add]; rfl
  | succ a ih =>
    intro b m
    have h : a + 1 + b = (a + b) + 1 := by omega
    rw [h]
    show NextMatch_calls (a + b) (NextMatch m).2 = _
    rw [ih]
    rfl

/-- A loop that meets a position not deeper than the lock, after positions that are
not final, returns the empty match in this call and in every later one. -/
theorem NextMatch_nth_stop (m : NearMatching) :
    ∀ (skipped : List Position) (q : Position) (rest : Traverser),
      m.traverser_ptr_ = some (skipped ++ q :: rest) →
      (∀ r ∈ skipped, r.is_final = false) → q.depth ≤ m.matched_depth_ →
      ∀ j, NextMatch_nth j m = Match.empty := by
  intro skipped
  induction skipped generalizing m with
  | nil =>
    intro q rest ht _ hq j
    exact (NextMatch_nth_stuck m q rest ht hq j).2
  | cons r skipped ih =>
    intro q rest ht hs hq j
    by_cases hr : r.depth ≤ m.matched_depth_
    · exact (NextMatch_nth_stuck m r _ ht hr j).2
    · have hrf := hs r (List.mem_cons_self _ _)
      have h1 : NextMatch_loop m.exact_prefix_ m.greedy_ m.matched_depth_
          (r :: skipped ++ q :: rest) =
          NextMatch_loop m.exact_prefix_ m.greedy_ m.matched_depth_ (skipped ++ q :: rest) :=
        NextMatch_loop_skip _ _ _ _ [r] (by
          intro p hp
          rw [List.mem_singleton] at hp
          subst hp
          exact ⟨hrf, by omega⟩)
      have h2 := NextMatch_some m _ ht
      have h3 := NextMatch_some { m with traverser_ptr_ := some (skipped ++ q :: rest) } _ rfl
      have h4 : NextMatch m =
          NextMatch { m with traverser_ptr_ := some (skipped ++ q :: rest) } := by
        rw [h2, h3, h1]
      have h5 := ih { m with traverser_ptr_ := some (skipped ++ q :: rest) } q rest rfl
        (fun p hp => hs p (List.mem_cons_of_mem _ hp)) hq
      cases j with
      | zero =>
        have := h5 0
        unfold NextMatch_nth NextMatch_calls at this ⊢
        rw [h4]; exact this
      | succ j =>
        have := h5 (j + 1)
        unfold NextMatch_nth at this ⊢
        have e1 : NextMatch_calls (j + 1) m = NextMatch_calls j (NextMatch m).2 := rfl
        have e2 : NextMatch_calls (j + 1)
            { m with traverser_ptr_ := some (skipped ++ q :: rest) } =
            NextMatch_calls j
              (NextMatch { m with traverser_ptr_ := some (skipped ++ q :: rest) }).2 := rfl
        rw [e2, ← h4] at this
        rw [e1]; exact this

/-- A final state at the depth of the current lock is emitted: without `greedy`,
over a depth-first traversal, once the first call of `NextMatch` has returned a
match, every final state the traverser comes to after states that are not
final, and whose `exact_depth` equals the `matched_depth_` of that moment (the
`exact_depth` of the latest match, not of the first), is emitted: the call
returns the match built at it and leaves `matched_depth_` as it is. -/
theorem locked_equal_depth_emitted (key ep : List Nat) (t : Traverser) (fm : Match) (k : Nat)
    (skipped : List Position) (x : Position) (rest : Traverser)
    (hdf : Traverser.depth_first key t)
    (h0 : (NextMatch_nth 0 (NearMatching.new t fm ep false)).IsEmpty = false)
    (ht : (NextMatch_calls (k + 1) (NearMatching.new t fm ep false)).traverser_ptr_ =
      some (skipped ++ x :: rest))
    (hs : ∀ q ∈ skipped, q.is_final = false) (hx : x.is_final = true)
    (heq : x.payload.exact_depth =
      (NextMatch_calls (k + 1) (NearMatching.new t fm ep false)).matched_depth_) :
    NextMatch_nth (k + 1) (NearMatching.new t fm ep false) = make_match ep x ∧
    (NextMatch_nth (k + 1) (NearMatching.new t fm ep false)).IsEmpty = false ∧
    (NextMatch_calls (k + 2) (NearMatching.new t fm ep false)).traverser_ptr_ = some rest ∧
    (NextMatch_calls (k + 2) (NearMatching.new t fm ep false)).matched_depth_ =
      (NextMatch_calls (k + 1) (NearMatching.new t fm ep false)).matched_depth_ := by
  have hl := NearMatching.locked_after_first key (NearMatching.new t fm ep false) t rfl rfl
    hdf h0 k
  have hgate := NearMatching.locked_reach key _ hl skipped x rest ht heq
  obtain ⟨hd, hn⟩ := NearMatching.locked_equal key _ hl skipped x rest ht
    (fun q hq => ⟨hs q hq, hgate q hq⟩) hx heq
  have hep : (NextMatch_calls (k + 1) (NearMatching.new t fm ep false)).exact_prefix_ = ep :=
    NextMatch_calls_exact_prefix_eq _ _
  have hnth : NextMatch_nth (k + 1) (NearMatching.new t fm ep false) = make_match ep x := by
    unfold NextMatch_nth
    rw [hn, hep]
  refine ⟨hnth, ?_, ?_, ?_⟩
  · rw [hnth, Match.IsEmpty_false_iff]
    exact make_match_ne_empty ep x (by omega)
  · rw [NextMatch_calls_succ (k + 1), hn]
  · rw [NextMatch_calls_succ (k + 1), hn]
    exact heq

/-- An instance: the dictionary `ab, abcdx, abcz`, the query `abq` and the prefix
`a`. The first call returns `ab` and locks at `exact_depth` 1; the second call
passes `abc` and `abcd` and returns `abcdx`, whose `exact_depth` is 1. -/
theorem locked_equal_depth_emitted_instance :
    NextMatch_nth 1 (NearMatching.new traverser_abq Match.empty [97] false) =
      make_match [97]
        { depth := 4, is_final := true, labels := [98, 99, 100, 120],
          payload := { lookup_key := [98, 113], exact_depth := 1 },
          fsa := fsa_ab_abcdx_abcz, state_value := 2 } ∧
    (NextMatch_nth 1 (NearMatching.new traverser_abq Match.empty [97] false)).IsEmpty = false ∧
    (NextMatch_calls 2 (NearMatching.new traverser_abq Match.empty [97] false)).traverser_ptr_ =
      some (traverser_abq.drop 4) ∧
    (NextMatch_calls 2 (NearMatching.new traverser_abq Match.empty [97] false)).matched_depth_ =
      (NextMatch_calls 1 (NearMatching.new traverser_abq Match.empty [97] false)).matched_depth_ :=
  locked_equal_depth_emitted [98, 113] [97] traverser_abq Match.empty 0
    ((traverser_abq.drop 1).take 2) _ (traverser_abq.drop 4)
    (near_comparable_depth_first fsa_ab_abcdx_abcz 2 [98, 113] 0)
    (by decide) (by decide) (by decide) (by decide) (by decide)

/-- C16 (locked, lower depth): without `greedy`, over a depth-first traversal, once
the first call of `NextMatch` has returned a match, when the traverser comes,
after states that are not final, to a state whose `exact_depth` is less than
the `matched_depth_` of that moment, nothing is emitted any more: that call
and every later one return the empty match. -/
theorem C16_locked_lower_depth (key ep : List Nat) (t : Traverser) (fm : Match) (k : Nat)
    (skipped : List Position) (x : Position) (rest : Traverser)
    (hdf : Traverser.depth_first key t)
    (h0 : (NextMatch_nth 0 (NearMatching.new t fm ep false)).IsEmpty = false)
    (ht : (NextMatch_calls (k + 1) (NearMatching.new t fm ep false)).traverser_ptr_ =
      some (skipped ++ x :: rest))
    (hs : ∀ q ∈ skipped, q.is_final = false)
    (hlt : x.payload.exact_depth <
      (NextMatch_calls (k + 1) (NearMatching.new t fm ep false)).matched_depth_) :
    ∀ j, NextMatch_nth (k + 1 + j) (NearMatching.new t fm ep false) = Match.empty := by
  have hl := NearMatching.locked_after_first key (NearMatching.new t fm ep false) t rfl rfl
    hdf h0 k
  intro j
  have hj : NextMatch_nth (k + 1 + j) (NearMatching.new t fm ep false) =
      NextMatch_nth j (NextMatch_calls (k + 1) (NearMatching.new t fm ep false)) := by
    unfold NextMatch_nth
    rw [NextMatch_calls_add]
  rw [hj]
  by_cases hall : ∀ q ∈ skipped,
      (NextMatch_calls (k + 1) (NearMatching.new t fm ep false)).matched_depth_ < q.depth
  · have hd := (NearMatching.locked_less key _ hl skipped x rest ht
      (fun q hq => ⟨hs q hq, hall q hq⟩) hlt).1
    exact NextMatch_nth_stop _ skipped x rest ht hs hd j
  · have hex : ∃ q ∈ skipped,
        q.depth ≤ (NextMatch_calls (k + 1) (NearMatching.new t fm ep false)).matched_depth_ := by
      by_contra hc
      apply hall
      intro q hq
      by_contra hq2
      exact hc ⟨q, hq, by omega⟩
    obtain ⟨q, hq, hqd⟩ := hex
    obtain ⟨s1, s2, hsplit⟩ := List.append_of_mem hq
    rw [hsplit, List.append_assoc, List.cons_append] at ht
    exact NextMatch_nth_stop _ s1 q _ ht
      (fun r hr => hs r (by rw [hsplit]; exact List.mem_append_left _ hr)) hqd j

/-- Witness of C16: the dictionary `ab, abcdx, abcz`, the query `abcde` and the
prefix `a`. The second call returns `abcdx` and locks at `exact_depth` 3; the
traverser then stands on `abcz`, whose `exact_depth` is 2. -/
theorem C16_locked_lower_depth_witness :
    (NextMatch_nth 1 (NearMatching.new traverser_abcdx Match.empty [97] false)).IsEmpty = false ∧
    (NextMatch_calls 2 (NearMatching.new traverser_abcdx Match.empty [97]
      false)).matched_depth_ = 3 ∧
    ∀ j, NextMatch_nth (1 + 1 + j) (NearMatching.new traverser_abcdx Match.empty [97] false) =
      Match.empty :=
  ⟨by decide, by decide,
    C16_locked_lower_depth [98, 99, 100, 101] [97] traverser_abcdx Match.empty 1 []
      { depth := 3, is_final := true, labels := [98, 99, 122],
        payload := { lookup_key := [98, 99, 100, 101], exact_depth := 2 },
        fsa := fsa_ab_abcdx_abcz, state_value := 3 } []
      (near_comparable_depth_first fsa_ab_abcdx_abcz 2 [98, 99, 100, 101] 0)
      (by decide) (by decide) (by decide) (by decide)⟩

/-! ## The order of the matches -/

theorem bytes_le_append (ep : List Nat) (p q : List Nat) (h : bytes_le p q = true) :
    bytes_le (ep ++ p) (ep ++ q) = true := by
  induction ep with
  | nil => exact h
  | cons c ep ih => simp [bytes_le, ih]

/-- Off the near key, the near order is the byte-lexicographic order. -/
theorem near_before_none_bytes_le (p : List Nat) :
    ∀ q, near_before none p q = true → bytes_le p q = true := by
  induction p with
  | nil => intro q _; rfl
  | cons a p ih =>
    intro q h
    cases q with
    | nil => simp [near_before] at h
    | cons b q =>
      unfold near_before at h
      unfold bytes_le
      by_cases hab : a = b
      · subst hab
        simp only [if_true] at h
        have h2 : near_next none a = none := rfl
        rw [h2] at h
        simp [ih q h]
      · simp only [hab, if_false, decide_eq_true_eq, near_rank] at h
        have : a < b := by omega
        simp [this]

/-- The near order puts a path before a lexicographically smaller one only when the
first shares more bytes with the near key. -/
theorem near_before_bytes_le (p : List Nat) :
    ∀ (key q : List Nat), near_before (some key) p q = true →
      common_prefix_length key p ≤ common_prefix_length key q → bytes_le p q = true := by
  induction p with
  | nil => intro key q _ _; rfl
  | cons a p ih =>
    intro key q h hc
    cases q with
    | nil => simp [near_before] at h
    | cons b q =>
      unfold near_before at h
      unfold bytes_le
      cases key with
      | nil =>
        by_cases hab : a = b
        · subst hab
          simp only [if_true] at h
          have h2 : near_next (some []) a = none := rfl
          rw [h2] at h
          simp [near_before_none_bytes_le p q h]
        · simp only [hab, if_false, decide_eq_true_eq, near_rank] at h
          have : a < b := by omega
          simp [this]
      | cons k ks =>
        by_cases hab : a = b
        · subst hab
          simp only [if_true] at h
          by_cases hak : a = k
          · subst hak
            have h2 : near_next (some (a :: ks)) a = some ks := by simp [near_next]
            rw [h2] at h
            simp only [common_prefix_length, if_true] at hc
            simp [ih ks q h (by omega)]
          · have h2 : near_next (some (k :: ks)) a = none := by simp [near_next, hak]
            rw [h2] at h
            simp [near_before_none_bytes_le p q h]
        · simp only [hab, if_false, decide_eq_true_eq, near_rank] at h
          by_cases hak : a = k
          · subst hak
            have hbk : ¬ b = a := fun hh => hab hh.symm
            simp only [common_prefix_length, if_true, hbk, if_false] at hc
            omega
          · by_cases hbk : b = k
            · simp [hak, hbk] at h
            · simp only [hak, hbk, if_false] at h
              have : a < b := by omega
              simp [this]

/-- Over a depth-first traversal the lock never falls: a position emitted without
`greedy` has at least the `exact_depth` of the lock, and of every position
emitted before it. -/
theorem emitted_exact_depth_mono (key : List Nat) (t : Traverser) :
    ∀ md : Nat,
      (∀ p ∈ t, p.depth ≤ p.labels.length ∧
        p.payload.exact_depth = common_prefix_length key p.path) →
      List.Chain' (fun p q : Position => q.path.dropLast <+: p.path) t →
      (md = 0 ∨ ∃ y : Position,
        List.Chain' (fun p q : Position => q.path.dropLast <+: p.path) (y :: t) ∧
        y.path.take md = key.take md ∧ md ≤ key.length) →
      (∀ x ∈ emitted false md t, md ≤ x.payload.exact_depth) ∧
      (emitted false md t).Pairwise (fun e x => e.payload.exact_depth ≤ x.payload.exact_depth) := by
  induction t with
  | nil => intro md _ _ _; simp [emitted]
  | cons p rest ih =>
    intro md hf hch hinv
    have hpf := hf p (List.mem_cons_self _ _)
    have hrest : ∀ q ∈ rest, q.depth ≤ q.labels.length ∧
        q.payload.exact_depth = common_prefix_length key q.path :=
      fun q hq => hf q (List.mem_cons_of_mem _ hq)
    have hch2 : List.Chain' (fun p q : Position => q.path.dropLast <+: p.path) rest :=
      (List.chain'_cons'.mp hch).2
    unfold emitted
    by_cases hd : p.depth > md
    · have hmdp : md ≤ p.payload.exact_depth ∧ (md = 0 ∨ p.path.take md = key.take md) := by
        rcases hinv with h0 | ⟨y, hy1, hy2, hy3⟩
        · exact ⟨by omega, Or.inl h0⟩
        · have hlen := Position.path_length p hpf.1
          have h1 := depth_first_step key md y p (List.chain'_cons.mp hy1).1 (by omega) hy2
          have h2 := le_common_prefix_length key p.path md hy3 (by omega) h1
          rw [← hpf.2] at h2
          exact ⟨h2, Or.inr h1⟩
      by_cases hfin : p.is_final = true
      · simp only [hd, hfin, if_true, Bool.not_false]
        have hi := ih p.payload.exact_depth hrest hch2 (Or.inr ⟨p, hch, by
          rw [hpf.2]; exact common_prefix_length_take key p.path, by
          rw [hpf.2]; exact common_prefix_length_le_left _ _⟩)
        refine ⟨?_, List.pairwise_cons.mpr ⟨hi.1, hi.2⟩⟩
        intro x hx
        rcases List.mem_cons.mp hx with hx1 | hx1
        · rw [hx1]; exact hmdp.1
        · have := hi.1 x hx1
          omega
      · have hfin2 : p.is_final = false := by simpa using hfin
        simp only [hd, hfin2, if_true, Bool.false_eq_true, if_false]
        refine ih md hrest hch2 ?_
        rcases hmdp.2 with h0 | h1
        · exact Or.inl h0
        · rcases hinv with h0 | ⟨y, _, _, hy3⟩
          · exact Or.inl h0
          · exact Or.inr ⟨p, hch, h1, hy3⟩
    · simp [hd]

/-- The matches over a traverser in near order come in near order, whatever the
flag. -/
theorem matches_near_order (key ep : List Nat) (t : Traverser) (g : Bool)
    (hord : Traverser.ordered key t) :
    List.Pairwise (fun a b : Match =>
        near_before (some key) (a.matched_item.drop ep.length)
          (b.matched_item.drop ep.length) = true)
      ((emitted g 0 t).map (make_match ep)) := by
  rw [List.pairwise_map]
  have h1 : (emitted g 0 t).Pairwise
      (fun p q => near_before (some key) p.path q.path = true) :=
    List.Pairwise.sublist (emitted_sublist g t 0) hord
  refine h1.imp ?_
  intro p q hpq
  have hp : (make_match ep p).matched_item = ep ++ p.path := rfl
  have hq : (make_match ep q).matched_item = ep ++ q.path := rfl
  rw [hp, hq, List.drop_left, List.drop_left]
  exact hpq

/-- Without `greedy`, the matches over a depth-first traverser in near order come
in byte-lexicographic order. -/
theorem matches_bytes_order (key ep : List Nat) (t : Traverser)
    (hord : Traverser.ordered key t) (hdf : Traverser.depth_first key t) :
    List.Pairwise (fun a b : Match => bytes_le a.matched_item b.matched_item = true)
      ((emitted false 0 t).map (make_match ep)) := by
  rw [List.pairwise_map]
  have h1 : (emitted false 0 t).Pairwise
      (fun p q => near_before (some key) p.path q.path = true) :=
    List.Pairwise.sublist (emitted_sublist false t 0) hord
  have h2 := (emitted_exact_depth_mono key t 0 hdf.1 hdf.2.2 (Or.inl rfl)).2
  refine (h1.and h2).imp_of_mem ?_
  intro p q hp hq hpq
  have hpt := hdf.1 p ((emitted_spec false t 0 p hp).1)
  have hqt := hdf.1 q ((emitted_spec false t 0 q hq).1)
  have hmp : (make_match ep p).matched_item = ep ++ p.path := rfl
  have hmq : (make_match ep q).matched_item = ep ++ q.path := rfl
  rw [hmp, hmq]
  apply bytes_le_append
  apply near_before_bytes_le p.path key q.path hpq.1
  rw [← hpt.2, ← hqt.2]
  exact hpq.2

/-- The child order `near_order` against the order of section 4.1: over the one
segment `ab, ac`, the query `ac` with the prefix `a` and `greedy` yields `ac` and
then `ab`, the byte that continues the query first, which is not the
byte-lexicographic order. -/
theorem near_order_greedy_instance :
    (matches_of (FromSingleFsa near_traversers fsa_ab_ac [97, 99] 1 true)).map
        (fun r => r.matched_item) = [[97, 99], [97, 98]] ∧
    ¬ List.Pairwise (fun a b : Match => bytes_le a.matched_item b.matched_item = true)
      (matches_of (FromSingleFsa near_traversers fsa_ab_ac [97, 99] 1 true)) := by
  decide

/-- The order of the matches over the traverser `near_traversers`, for a matcher
over one segment: the matched strings of successive `NextMatch` calls are in
non-decreasing byte-lexicographic order when `greedy` is off; with either flag
they are in the order of the near traversal below the exact prefix: a key
before its extensions, and where two keys part, the key that goes on with the
byte of the query (both having followed the query so far) first, otherwise the
key with the smaller byte. -/
theorem near_matches_order (fsa : Automata) (query : List Nat) ( minimum_exact_prefix : Nat)
    (greedy : Bool) :
    List.Pairwise (fun a b : Match => bytes_le a.matched_item b.matched_item = true)
      (matches_of (FromSingleFsa near_traversers fsa query minimum_exact_prefix false)) ∧
    List.Pairwise (fun a b : Match =>
        near_before (some (query.drop minimum_exact_prefix))
          (a.matched_item.drop minimum_exact_prefix)
          (b.matched_item.drop minimum_exact_prefix) = true)
      (matches_of (FromSingleFsa near_traversers fsa query minimum_exact_prefix greedy)) := by
  by_cases h : minimum_exact_prefix ≤ query.length
  · have hlen : (query.take minimum_exact_prefix).length = minimum_exact_prefix := by
      rw [List.length_take]; omega
    constructor
    · rcases FromSingleFsa_cases near_traversers fsa query minimum_exact_prefix false h
        with h1 | ⟨s, h1⟩
      · rw [h1]
        show List.Pairwise _ (AllMatches NearMatching.default)
        rw [AllMatches_default]
        exact List.Pairwise.nil
      · rw [h1]
        show List.Pairwise _ (AllMatches _)
        rw [AllMatches_new]
        exact matches_bytes_order (query.drop minimum_exact_prefix) _ _
          (near_trace_ordered _ (fsa, s, TraversalPayload.new _) rfl)
          (near_comparable_depth_first fsa s _ 0)
    · rcases FromSingleFsa_cases near_traversers fsa query minimum_exact_prefix greedy h
        with h1 | ⟨s, h1⟩
      · rw [h1]
        show List.Pairwise _ (AllMatches NearMatching.default)
        rw [AllMatches_default]
        exact List.Pairwise.nil
      · rw [h1]
        show List.Pairwise _ (AllMatches _)
        rw [AllMatches_new]
        have := matches_near_order (query.drop minimum_exact_prefix)
          (query.take minimum_exact_prefix)
          (near_traversers.comparable fsa s
            (TraversalPayload.new (query.drop minimum_exact_prefix)) true 0) greedy
          (near_trace_ordered _ (fsa, s, TraversalPayload.new _) rfl)
        rw [hlen] at this
        exact this
  · have hd : ∀ g, FromSingleFsa near_traversers fsa query minimum_exact_prefix g =
        Except.ok NearMatching.default := by
      intro g
      unfold FromSingleFsa FromSingleFsa.traced
      rw [if_pos (by omega)]
    rw [hd, hd]
    constructor
    · show List.Pairwise _ (AllMatches NearMatching.default)
      rw [AllMatches_default]
      exact List.Pairwise.nil
    · show List.Pairwise _ (AllMatches NearMatching.default)
      rw [AllMatches_default]
      exact List.Pairwise.nil

/-! ## Fuzzy matching with edit distance `0` -/

theorem levenshtein_step_length (key row : List Nat) (b : Nat) :
    (levenshtein_step key row b).length = key.length + 1 := by
  simp [levenshtein_step]

theorem levenshtein_step_getD (key row : List Nat) (b j : Nat) (h : j ≤ key.length) :
    (levenshtein_step key row b).getD j 0 = levenshtein_cell key row b j := by
  unfold levenshtein_step
  rw [List.getD_eq_getElem?_getD, List.getElem?_map, List.getElem?_range (by omega)]
  rfl

theorem fuzzy_row_snoc (key path : List Nat) (b : Nat) :
    fuzzy_row key (path ++ [b]) = levenshtein_step key (fuzzy_row key path) b := by
  simp [fuzzy_row, List.foldl_append]

theorem fuzzy_row_length (key path : List Nat) : (fuzzy_row key path).length = key.length + 1 := by
  induction path using List.reverseRecOn with
  | nil => simp [fuzzy_row, levenshtein_init]
  | append_singleton p b _ => rw [fuzzy_row_snoc, levenshtein_step_length]

/-- A cell of the row is `0` exactly when the path is the part of the key the cell
stands for. -/
theorem fuzzy_row_zero (key : List Nat) :
    ∀ (path : List Nat) (j : Nat), j ≤ key.length →
      ((fuzzy_row key path).getD j 0 = 0 ↔ path = key.take j) := by
  intro path
  induction path using List.reverseRecOn with
  | nil =>
    intro j hj
    have h1 : (fuzzy_row key []).getD j 0 = j := by
      unfold fuzzy_row levenshtein_init
      rw [List.foldl_nil, List.getD_eq_getElem?_getD, List.getElem?_range (by omega)]
      rfl
    rw [h1]
    constructor
    · intro h; subst h; rfl
    · intro h
      have h2 := congrArg List.length h
      rw [List.length_take, List.length_nil] at h2
      omega
  | append_singleton p b ih =>
    intro j hj
    rw [fuzzy_row_snoc, levenshtein_step_getD _ _ _ _ hj]
    cases j with
    | zero =>
      unfold levenshtein_cell
      constructor
      · intro h; omega
      · intro h; simp at h
    | succ j =>
      unfold levenshtein_cell
      have hjk : j < key.length := by omega
      have hget : key.getD j 0 = key[j] := by
        rw [List.getD_eq_getElem?_getD, List.getElem?_eq_getElem hjk]; rfl
      have htake : key.take (j + 1) = key.take j ++ [key[j]] := by
        rw [List.take_succ, List.getElem?_eq_getElem hjk]; rfl
      rw [htake, hget]
      constructor
      · intro h
        have h1 : (fuzzy_row key p).getD j 0 + (if key[j] = b then 0 else 1) = 0 := by
          omega
        have h2 : (fuzzy_row key p).getD j 0 = 0 := by omega
        have h3 : key[j] = b := by
          by_contra hc
          rw [if_neg hc] at h1
          omega
        rw [(ih j (by omega)).mp h2, h3]
      · intro h
        have h1 := List.append_inj' h rfl
        have h2 := (ih j (by omega)).mpr h1.1
        have h3 : key[j] = b := by
          have := h1.2
          simp at this
          exact this.symm
        rw [h2, if_pos h3]
        simp

theorem foldl_min_le (row : List Nat) : ∀ (a x : Nat), x ∈ row → row.foldl min a ≤ x := by
  induction row with
  | nil => intro a x hx; simp at hx
  | cons r row ih =>
    intro a x hx
    rw [List.foldl_cons]
    rcases List.mem_cons.mp hx with h | h
    · subst h
      have : ∀ (l : List Nat) (c : Nat), l.foldl min c ≤ c := by
        intro l
        induction l with
        | nil => intro c; exact Nat.le_refl _
        | cons d l ihl =>
          intro c
          rw [List.foldl_cons]
          exact Nat.le_trans (ihl _) (Nat.min_le_left _ _)
      exact Nat.le_trans (this row _) (Nat.min_le_right _ _)
    · exact ih _ x h

/-- The row of a path that follows the key has a cell `0`, so the path is not
pruned, whatever the lookahead bound. -/
theorem fuzzy_row_admissible (key : List Nat) (lookahead j : Nat) (hj : j ≤ key.length) :
    ¬ row_min (fuzzy_row key (key.take j)) - lookahead > 0 := by
  have h1 := (fuzzy_row_zero key (key.take j) j hj).mpr rfl
  have hlen := fuzzy_row_length key (key.take j)
  have hmem : (fuzzy_row key (key.take j)).getD j 0 ∈ fuzzy_row key (key.take j) := by
    rw [List.getD_eq_getElem?_getD, List.getElem?_eq_getElem (by omega)]
    exact List.getElem_mem _
  rw [h1] at hmem
  have := foldl_min_le _ ((fuzzy_row key (key.take j)).headD 0) 0 hmem
  unfold row_min
  omega

/-- The distance a row reports is `0` exactly when the path is the key. -/
theorem fuzzy_row_distance (key path : List Nat) :
    (fuzzy_row key path).getLastD 0 = 0 ↔ path = key := by
  have hlen := fuzzy_row_length key path
  have h1 : (fuzzy_row key path).getLastD 0 = (fuzzy_row key path).getD key.length 0 := by
    rw [List.getLastD_eq_getLast?, List.getLast?_eq_getElem?, hlen,
      List.getD_eq_getElem?_getD]
    rfl
  rw [h1, fuzzy_row_zero key path key.length (Nat.le_refl _), List.take_length]

theorem fuzzy_position_path (f : Automata) (key : List Nat) (k order : Nat) (ext : List Nat)
    (t : Nat) : (fuzzy_position f key k order ext t).path = ext := by
  simp [fuzzy_position, FuzzyPosition.path]

theorem fuzzy_traverse_succ (f : Automata) (key : List Nat) (k lookahead order fuel state : Nat)
    (path row : List Nat) :
    fuzzy_traverse f key k lookahead order (fuel + 1) state path row =
      (f.outgoing_labels state).flatMap (fun c =>
        if row_min (levenshtein_step key row c) - lookahead > k then []
        else
          { depth := path.length + 1,
            is_final := f.IsFinalState (f.TryWalkTransition state c),
            labels := path ++ [c],
            payload := { row := levenshtein_step key row c, max_edit_distance := k },
            fsa := f,
            state_value := f.GetStateValue (f.TryWalkTransition state c),
            order := order } ::
            fuzzy_traverse f key k lookahead order fuel (f.TryWalkTransition state c)
              (path ++ [c]) (levenshtein_step key row c)) := rfl

theorem fuzzy_position_child (f : Automata) (key : List Nat) (k order : Nat) (path : List Nat)
    (c t : Nat) :
    ({ depth := path.length + 1,
       is_final := f.IsFinalState t,
       labels := path ++ [c],
       payload := { row := levenshtein_step key (fuzzy_row key path) c, max_edit_distance := k },
       fsa := f,
       state_value := f.GetStateValue t,
       order := order } : FuzzyPosition) = fuzzy_position f key k order (path ++ [c]) t := by
  simp [fuzzy_position, fuzzy_row_snoc]

/-- Every position of the fuzzy traverser below `state` stands on the state a walk of
bytes from `state` reaches, and carries the row of its path. -/
theorem fuzzy_traverse_sound (f : Automata) (key : List Nat) (k lookahead order : Nat)
    (fuel : Nat) :
    ∀ (state : Nat) (path : List Nat),
      ∀ q ∈ fuzzy_traverse f key k lookahead order fuel state path (fuzzy_row key path),
        ∃ ext t, ext ≠ [] ∧ f.walk state ext = some t ∧
          q = fuzzy_position f key k order (path ++ ext) t := by
  induction fuel with
  | zero => intro state path q hq; simp [fuzzy_traverse] at hq
  | succ fuel ih =>
    intro state path q hq
    rw [fuzzy_traverse_succ] at hq
    obtain ⟨c, hc, hq⟩ := List.mem_flatMap.mp hq
    have hc2 := (mem_outgoing_labels f state c).mp hc
    split at hq
    · simp at hq
    · rw [fuzzy_position_child, ← fuzzy_row_snoc] at hq
      rcases List.mem_cons.mp hq with h1 | h1
      · exact ⟨[c], f.TryWalkTransition state c, by simp, by simp [Automata.walk, hc2.2], h1⟩
      · obtain ⟨ext, t, h2, h3, h4⟩ := ih _ _ q h1
        refine ⟨c :: ext, t, by simp, by simp [Automata.walk, hc2.2, h3], ?_⟩
        rw [h4]; simp

/-- The fuzzy traverser visits every state a walk of at most `fuel` bytes reaches
from `state` through transitions that are not pruned. -/
theorem fuzzy_traverse_complete (f : Automata) (key : List Nat) (k lookahead order : Nat)
    (fuel : Nat) :
    ∀ (state : Nat) (path : List Nat) (ext : List Nat) (t : Nat),
      ext ≠ [] → ext.length ≤ fuel → (∀ b ∈ ext, b < 256) → f.walk state ext = some t →
      (∀ j, 0 < j → j ≤ ext.length →
        ¬ row_min (fuzzy_row key (path ++ ext.take j)) - lookahead > k) →
      fuzzy_position f key k order (path ++ ext) t ∈
        fuzzy_traverse f key k lookahead order fuel state path (fuzzy_row key path) := by
  induction fuel with
  | zero =>
    intro state path ext t h1 h2
    cases ext with
    | nil => exact absurd rfl h1
    | cons c e => simp at h2
  | succ fuel ih =>
    intro state path ext t h1 h2 h3 h4 h5
    cases ext with
    | nil => exact absurd rfl h1
    | cons c e =>
      have hc0 : f.TryWalkTransition state c ≠ 0 := by
        intro h0
        simp [Automata.walk, h0] at h4
      have hwalk : f.walk (f.TryWalkTransition state c) e = some t := by
        simpa [Automata.walk, hc0] using h4
      have hc : c ∈ f.outgoing_labels state :=
        (mem_outgoing_labels f state c).mpr ⟨h3 c (List.mem_cons_self _ _), hc0⟩
      have hadm : ¬ row_min (levenshtein_step key (fuzzy_row key path) c) - lookahead > k := by
        have := h5 1 (by omega) (by simp)
        rw [← fuzzy_row_snoc]
        simpa using this
      rw [fuzzy_traverse_succ]
      refine List.mem_flatMap.mpr ⟨c, hc, ?_⟩
      rw [if_neg hadm, fuzzy_position_child, ← fuzzy_row_snoc]
      cases e with
      | nil =>
        simp only [Automata.walk, Option.some.injEq] at hwalk
        subst hwalk
        exact List.mem_cons_self _ _
      | cons d e =>
        have := ih (f.TryWalkTransition state c) (path ++ [c]) (d :: e) t (by simp)
          (by simpa using h2) (fun b hb => h3 b (List.mem_cons_of_mem _ hb)) hwalk
          (by
            intro j hj1 hj2
            have := h5 (j + 1) (by omega) (by simp at hj2 ⊢; omega)
            simpa using this)
        refine List.mem_cons_of_mem _ ?_
        simpa using this

/-- Every position of the fuzzy traverser of a segment, the first one included. -/
theorem FuzzyStateTraverser.sound (f : Automata) (state : Nat) (key : List Nat)
    (k lookahead order : Nat) :
    ∀ q ∈ FuzzyStateTraverser.new f state key k lookahead order,
      ∃ ext t, f.walk state ext = some t ∧ q = fuzzy_position f key k order ext t := by
  intro q hq
  unfold FuzzyStateTraverser.new at hq
  rcases List.mem_cons.mp hq with h1 | h1
  · exact ⟨[], state, rfl, h1⟩
  · have := fuzzy_traverse_sound f key k lookahead order f.transitions.length state [] q h1
    obtain ⟨ext, t, _, h3, h4⟩ := this
    exact ⟨ext, t, h3, by simpa using h4⟩

/-- With edit distance `0`, the fuzzy traverser of a segment visits the state the
query suffix leads to. -/
theorem FuzzyStateTraverser.complete (f : Automata) (hf : f.acyclic) (state : Nat)
    (key : List Nat) (hkey : ∀ b ∈ key, b < 256) (lookahead order t : Nat)
    (hw : f.walk state key = some t) :
    fuzzy_position f key 0 order key t ∈ FuzzyStateTraverser.new f state key 0 lookahead order := by
  unfold FuzzyStateTraverser.new
  by_cases hnil : key = []
  · subst hnil
    simp only [Automata.walk, Option.some.injEq] at hw
    subst hw
    exact List.mem_cons_self _ _
  · refine List.mem_cons_of_mem _ ?_
    have hlen := Automata.walk_length_le f hf key state t hw
    have := fuzzy_traverse_complete f key 0 lookahead order f.transitions.length state [] key t
      hnil hlen hkey hw (by
        intro j _ hj
        rw [List.nil_append]
        exact fuzzy_row_admissible key lookahead j hj)
    simpa using this

/-- With edit distance `0`, the position the fuzzy traverser of a segment shows at
the path of the query suffix. -/
theorem FuzzyStateTraverser.find_key (f : Automata) (hf : f.acyclic) (state : Nat)
    (key : List Nat) (hkey : ∀ b ∈ key, b < 256) (lookahead order : Nat) :
    (FuzzyStateTraverser.new f state key 0 lookahead order).find?
        (fun q => decide (q.path = key)) =
      (f.walk state key).map (fuzzy_position f key 0 order key) := by
  cases hw : f.walk state key with
  | none =>
    rw [Option.map_none', List.find?_eq_none]
    intro q hq hp
    obtain ⟨ext, t, h1, h2⟩ := FuzzyStateTraverser.sound f state key 0 lookahead order q hq
    rw [h2, fuzzy_position_path] at hp
    simp only [decide_eq_true_eq] at hp
    rw [hp, hw] at h1
    exact absurd h1 (by simp)
  | some t =>
    rw [Option.map_some']
    have hmem := FuzzyStateTraverser.complete f hf state key hkey lookahead order t hw
    cases hfind : (FuzzyStateTraverser.new f state key 0 lookahead order).find?
        (fun q => decide (q.path = key)) with
    | none =>
      rw [List.find?_eq_none] at hfind
      have := hfind _ hmem
      rw [fuzzy_position_path] at this
      simp at this
    | some x =>
      have hx1 := List.find?_some hfind
      have hx2 := List.mem_of_find?_eq_some hfind
      obtain ⟨ext, t2, h1, h2⟩ := FuzzyStateTraverser.sound f state key 0 lookahead order x hx2
      rw [h2, fuzzy_position_path] at hx1
      simp only [decide_eq_true_eq] at hx1
      subst hx1
      rw [hw] at h1
      injection h1 with h1
      rw [h2, h1]

theorem filterMap_filter_single {α β : Type} [DecidableEq α] (R : α → Option β) (φ : β → Bool)
    (key : α) :
    ∀ L : List α, L.Nodup →
      (∀ π ∈ L, π ≠ key → ∀ p, R π = some p → φ p = false) →
      (L.filterMap R).filter φ = if key ∈ L then (R key).toList.filter φ else [] := by
  intro L
  induction L with
  | nil => intro _ _; rfl
  | cons a L ih =>
    intro hnd h
    rw [List.nodup_cons] at hnd
    have ih2 := ih hnd.2 (fun π hπ => h π (List.mem_cons_of_mem _ hπ))
    by_cases hak : a = key
    · subst hak
      rw [if_neg hnd.1] at ih2
      rw [if_pos (List.mem_cons_self _ _)]
      cases hr : R a with
      | none => rw [List.filterMap_cons_none hr, ih2]; rfl
      | some p =>
        rw [List.filterMap_cons_some hr, List.filter_cons, ih2]
        simp only [Option.toList, List.filter_cons, List.filter_nil]
    · have hmem : key ∈ a :: L ↔ key ∈ L := by
        rw [List.mem_cons]
        constructor
        · rintro (h1 | h1)
          · exact absurd h1.symm hak
          · exact h1
        · exact Or.inr
      simp only [hmem]
      cases hr : R a with
      | none => rw [List.filterMap_cons_none hr, ih2]
      | some p =>
        rw [List.filterMap_cons_some hr, List.filter_cons,
          h a (List.mem_cons_self _ _) hak p hr]
        simpa using ih2

/-- The state the zip traverser exposes at a path is the state of one of its inner
traversers at that path. -/
theorem fuzzy_zip_report_mem (path : List Nat) (ts : List (List FuzzyPosition))
    (p : FuzzyPosition) (h : fuzzy_zip_report path ts = some p) :
    ∃ t ∈ ts, t.find? (fun q => decide (q.path = path)) = some p := by
  unfold fuzzy_zip_report at h
  have hmem : p ∈ ts.filterMap (fun t => t.find? (fun q => decide (q.path = path))) := by
    simp only at h
    split at h
    · rename_i q hq
      injection h with h
      subst h
      exact List.mem_reverse.mp (List.mem_of_find?_eq_some hq)
    · exact List.mem_of_getLast?_eq_some h
  obtain ⟨t, ht, hp⟩ := List.mem_filterMap.mp hmem
  exact ⟨t, ht, hp⟩

/-- The paths of the merged stream are those of the inner traversers, each once. -/
theorem fuzzy_zip_paths (ts : List (List FuzzyPosition)) :
    (((ts.flatMap id).map FuzzyPosition.path).dedup.insertionSort
      (fun a b => bytes_le a b = true)).Nodup ∧
    ∀ path, path ∈ ((ts.flatMap id).map FuzzyPosition.path).dedup.insertionSort
        (fun a b => bytes_le a b = true) ↔ ∃ t ∈ ts, ∃ q ∈ t, q.path = path := by
  constructor
  · exact (List.perm_insertionSort _ _).nodup_iff.mpr (List.nodup_dedup _)
  · intro path
    rw [(List.perm_insertionSort _ _).mem_iff, List.mem_dedup, List.mem_map]
    constructor
    · rintro ⟨q, hq, hp⟩
      obtain ⟨t, ht, hqt⟩ := List.mem_flatMap.mp hq
      exact ⟨t, ht, q, hqt, hp⟩
    · rintro ⟨t, ht, q, hq, hp⟩
      exact ⟨q, List.mem_flatMap.mpr ⟨t, ht, hq⟩, hp⟩

/-- A filter that only lets through positions on the path `key` sees of the merged
stream what the zip traverser exposes at `key`. -/
theorem fuzzy_zip_filter (ts : List (List FuzzyPosition)) (φ : FuzzyPosition → Bool)
    (key : List Nat)
    (h : ∀ t ∈ ts, ∀ q ∈ t, q.path ≠ key → φ q = false) :
    (fuzzy_zip ts).filter φ = (fuzzy_zip_report key ts).toList.filter φ := by
  obtain ⟨hnd, hmem⟩ := fuzzy_zip_paths ts
  unfold fuzzy_zip
  rw [filterMap_filter_single (fun path => fuzzy_zip_report path ts) φ key _ hnd]
  · split
    · rfl
    · rename_i hk
      have hnone : fuzzy_zip_report key ts = none := by
        cases hr : fuzzy_zip_report key ts with
        | none => rfl
        | some p =>
          exfalso
          obtain ⟨t, ht, hp⟩ := fuzzy_zip_report_mem key ts p hr
          have h1 := List.find?_some hp
          simp only [decide_eq_true_eq] at h1
          exact hk ((hmem key).mpr ⟨t, ht, p, List.mem_of_find?_eq_some hp, h1⟩)
      rw [hnone]
      rfl
  · intro π _ hne p hp
    obtain ⟨t, ht, hpt⟩ := fuzzy_zip_report_mem π ts p hp
    have h1 := List.find?_some hpt
    simp only [decide_eq_true_eq] at h1
    exact h t ht p (List.mem_of_find?_eq_some hpt) (by rw [h1]; exact hne)

/-- What the zip traverser exposes at a path, for a filter that asks for a final
state: the state of the inner traverser of the highest priority that is final
there. -/
theorem fuzzy_zip_report_final (path : List Nat) (ts : List (List FuzzyPosition))
    (φ : FuzzyPosition → Bool) (h : ∀ p, φ p = true → p.is_final = true) :
    (fuzzy_zip_report path ts).toList.filter φ =
      (((ts.filterMap (fun t => t.find? (fun q => decide (q.path = path)))).reverse.find?
        (fun q => q.is_final)).toList).filter φ := by
  unfold fuzzy_zip_report
  simp only
  split
  · rename_i q hq
    rw [hq]
  · rename_i hnone
    rw [hnone]
    cases hl : (ts.filterMap (fun t => t.find? (fun q => decide (q.path = path)))).getLast? with
    | none => rfl
    | some p =>
      have hp : p ∈ (ts.filterMap
          (fun t => t.find? (fun q => decide (q.path = path)))).reverse :=
        List.mem_reverse.mpr (List.mem_of_getLast?_eq_some hl)
      have hnf := List.find?_eq_none.mp hnone p hp
      have hφ : φ p = false := by
        cases hc : φ p with
        | false => rfl
        | true => exact absurd (h p hc) hnf
      simp [Option.toList, hφ]

/-- With edit distance `0`, the states the inner traversers show at the path of the
query suffix, in the order of the segments: one for every segment in which the
query leads to a state. -/
theorem fuzzy_heads (fsas : List Automata) (hwf : ∀ f ∈ fsas, f.acyclic) (query : List Nat)
    (n lookahead : Nat) (hq : ∀ b ∈ query, b < 256) :
    ((fuzzy_gate fsas query n).map (fun e =>
        FuzzyStateTraverser.new e.2.1 e.2.2 (query.drop n) 0 lookahead e.1)).filterMap
      (fun t => t.find? (fun q => decide (q.path = query.drop n))) =
    fsas.enum.filterMap (fun e =>
      (e.2.walk e.2.GetStartState query).map
        (fuzzy_position e.2 (query.drop n) 0 e.1 (query.drop n))) := by
  have hkey : ∀ b ∈ query.drop n, b < 256 := fun b hb => hq b (List.mem_of_mem_drop hb)
  unfold fuzzy_gate
  rw [List.filterMap_map, List.filterMap_filterMap]
  apply List.filterMap_congr
  intro e he
  have hf : e.2.acyclic := by
    apply hwf
    rw [← List.enum_map_snd fsas]
    exact List.mem_map_of_mem _ he
  have hsplit : e.2.walk e.2.GetStartState query =
      (e.2.walk e.2.GetStartState (query.take n)).bind (fun s => e.2.walk s (query.drop n)) := by
    rw [← Automata.walk_append, List.take_append_drop]
  rw [hsplit]
  cases hw : e.2.walk e.2.GetStartState (query.take n) with
  | none => rfl
  | some s =>
    simp only [Option.bind_some, Function.comp]
    exact FuzzyStateTraverser.find_key e.2 hf s (query.drop n) hkey lookahead e.1

/-- Of the states the segments show at the query, the final one of the highest
priority belongs to the highest-priority segment that holds the query. -/
theorem fuzzy_heads_final (query key : List Nat) :
    ∀ es : List (Nat × Automata),
      ((es.filterMap (fun e =>
          (e.2.walk e.2.GetStartState query).map
            (fuzzy_position e.2 key 0 e.1 key))).reverse.find? (fun q => q.is_final)) =
        (highest_priority_segment query es).map (fun r =>
          { depth := key.length, is_final := true, labels := key,
            payload := { row := fuzzy_row key key, max_edit_distance := 0 },
            fsa := r.2.1, state_value := r.2.2, order := r.1 }) := by
  intro es
  induction es with
  | nil => rfl
  | cons e es ih =>
    have hsplit : ((e :: es).filterMap (fun e =>
        (e.2.walk e.2.GetStartState query).map (fuzzy_position e.2 key 0 e.1 key))).reverse =
        (es.filterMap (fun e =>
          (e.2.walk e.2.GetStartState query).map (fuzzy_position e.2 key 0 e.1 key))).reverse ++
        ((e.2.walk e.2.GetStartState query).map (fuzzy_position e.2 key 0 e.1 key)).toList := by
      cases hw : e.2.walk e.2.GetStartState query with
      | none => simp [List.filterMap_cons, hw]
      | some t => simp [List.filterMap_cons, hw]
    rw [hsplit, List.find?_append, ih]
    have hcons : highest_priority_segment query (e :: es) =
        (match highest_priority_segment query es with
        | some r => some r
        | none => (e.2.lookup query).map (fun v => (e.1, e.2, v))) := rfl
    rw [hcons]
    cases hh : highest_priority_segment query es with
    | some r => simp
    | none =>
      simp only [Option.map_none', Option.none_or]
      unfold Automata.lookup
      cases hw : e.2.walk e.2.GetStartState query with
      | none => rfl
      | some t =>
        by_cases hfin : e.2.IsFinalState t = true
        · simp [Option.toList, List.find?, fuzzy_position, hfin]
        · simp [Option.toList, List.find?, fuzzy_position, hfin]

/-- The model against the test `fuzzyMatching`: before the deletions the query
`abc` with edit distance `0` yields `abc` with the value `{a:1}` of the first
segment, although the second segment has a state for `abc` (below `abcde`);
after the deletions the query `abbc` with edit distance `4` yields `abbc`,
`abc` and `abdd` and leaves out `abcde`, deleted in the second segment only. -/
theorem FuzzyMatching_test :
    (FuzzyMatching (fun _ _ => false) 0 [fsa_fuzzy_0, fsa_fuzzy_1] [97, 98, 99] 0 2).map
      (fun r => (r.matched_item, r.state_value)) = [([97, 98, 99], 11)] ∧
    (FuzzyMatching fuzzy_deleted 0 [fsa_fuzzy_0, fsa_fuzzy_1] [97, 98, 98, 99] 4 1).map
      (fun r => (r.matched_item, r.state_value)) =
      [([97, 98, 98, 99], 22), ([97, 98, 99], 11), ([97, 98, 100, 100], 23)] := by
  decide

/-- Counterexample to C19 as stated, on the segments and deletions of the test
`fuzzyMatching`: the key `abcde` is stored in both segments and marked deleted
in the second one only. Fuzzy matching with edit distance `0` emits nothing
for the query `abcde`, although the first segment holds the key and has not
deleted it. Nor is anything emitted for the stored key `babdd` when
`minimum_exact_prefix` exceeds its length (section 6). -/
theorem C19_deleted_in_newer_segment :
    FuzzyMatching fuzzy_deleted 0 [fsa_fuzzy_0, fsa_fuzzy_1] [97, 98, 99, 100, 101] 0 2 = [] ∧
    fsa_fuzzy_0.lookup [97, 98, 99, 100, 101] = some 11 ∧
    fuzzy_deleted 0 [97, 98, 99, 100, 101] = false ∧
    fsa_fuzzy_1.lookup [97, 98, 99, 100, 101] = some 241 ∧
    fuzzy_deleted 1 [97, 98, 99, 100, 101] = true ∧
    FuzzyMatching (fun _ _ => false) 0 [fsa_fuzzy_0, fsa_fuzzy_1] [98, 97, 98, 100, 100] 0 6 =
      [] ∧
    fsa_fuzzy_1.lookup [98, 97, 98, 100, 100] = some 72 := by
  decide

/-- C19 (exactness for edit distance `0`, amended): over acyclic segments, for a
byte string `query` and `minimum_exact_prefix <= len(query)`, fuzzy matching
with `max_edit_distance = 0` emits the query, once, with the value of the
highest-priority segment that holds it, exactly when a segment holds it and it
is not marked deleted in the highest-priority segment that holds it; it emits
nothing else. -/
theorem C19_fuzzy_exact (deleted : Nat → List Nat → Bool) (lookahead : Nat)
    (fsas : List Automata) (query : List Nat) ( minimum_exact_prefix : Nat)
    (h : minimum_exact_prefix ≤ query.length) (hq : ∀ b ∈ query, b < 256)
    (hwf : ∀ f ∈ fsas, f.acyclic) :
    FuzzyMatching deleted lookahead fsas query 0 minimum_exact_prefix =
      match highest_priority_segment query fsas.enum with
      | some r =>
        if deleted r.1 query then []
        else [{ start := 0, end_ := query.length, matched_item := query, score := 0,
                fsa := some r.2.1, state_value := r.2.2 }]
      | none => [] := by
  have hqsplit : query.take minimum_exact_prefix ++ query.drop minimum_exact_prefix = query :=
    List.take_append_drop _ _
  have hdist : ∀ ext : List Nat, ext ≠ query.drop minimum_exact_prefix →
      ¬ (fuzzy_row (query.drop minimum_exact_prefix) ext).getLastD 0 ≤ 0 := by
    intro ext hne hle
    exact hne ((fuzzy_row_distance _ ext).mp (by omega))
  unfold FuzzyMatching
  rw [if_neg (by omega)]
  simp only
  rw [fuzzy_zip_filter _ _ (query.drop minimum_exact_prefix), fuzzy_zip_report_final,
    fuzzy_heads fsas hwf query minimum_exact_prefix lookahead hq, fuzzy_heads_final]
  · cases hh : highest_priority_segment query fsas.enum with
    | none => rfl
    | some r =>
      have hd0 : (fuzzy_row (query.drop minimum_exact_prefix)
          (query.drop minimum_exact_prefix)).getLastD 0 = 0 :=
        (fuzzy_row_distance _ _).mpr rfl
      simp only [Option.map_some', Option.toList, List.filter_cons, List.filter_nil,
        FuzzyPosition.path, FuzzyPayload.distance, List.take_length, hqsplit, hd0,
        Nat.le_refl, decide_True, Bool.true_and, Bool.and_true]
      by_cases hdel : deleted r.1 query = true
      · simp only [hdel, Bool.not_true, Bool.false_eq_true, if_false, if_true, List.map_nil]
      · have hdel2 : deleted r.1 query = false := by simpa using hdel
        simp only [hdel2, Bool.not_false, if_true, Bool.false_eq_true, if_false, List.map_cons,
          List.map_nil]
        rw [List.take_length, hqsplit, hd0]
  · intro p hp
    simp only [Bool.and_eq_true] at hp
    exact hp.1.1
  · intro t ht q hq2 hne
    obtain ⟨e, _, rfl⟩ := List.mem_map.mp ht
    obtain ⟨ext, s, _, rfl⟩ := FuzzyStateTraverser.sound _ _ _ _ _ _ q hq2
    rw [fuzzy_position_path] at hne
    have := hdist ext hne
    simp only [fuzzy_position, FuzzyPayload.distance, this, decide_False, Bool.and_false,
      Bool.false_and]

/-- Witness of C19: the segments of the test `fuzzyMatching` before the deletions,
the query `babdd` with `minimum_exact_prefix` 5 and 4: the only match is
`babdd` with the value `{g:2}` of the second segment. -/
theorem C19_fuzzy_exact_witness :
    FuzzyMatching (fun _ _ => false) 0 [fsa_fuzzy_0, fsa_fuzzy_1] [98, 97, 98, 100, 100] 0 5 =
      [{ start := 0, end_ := 5, matched_item := [98, 97, 98, 100, 100], score := 0,
         fsa := some fsa_fuzzy_1, state_value := 72 }] ∧
    FuzzyMatching (fun _ _ => false) 0 [fsa_fuzzy_0, fsa_fuzzy_1] [98, 97, 98, 100, 100] 0 4 =
      [{ start := 0, end_ := 5, matched_item := [98, 97, 98, 100, 100], score := 0,
         fsa := some fsa_fuzzy_1, state_value := 72 }] := by
  have hwf : ∀ f ∈ [fsa_fuzzy_0, fsa_fuzzy_1], f.acyclic := by
    intro f hf
    simp only [List.mem_cons, List.mem_singleton, List.not_mem_nil, or_false] at hf
    rcases hf with rfl | rfl
    · exact ⟨fun s => 100 - s, by decide⟩
    · exact ⟨fun s => 100 - s, by decide⟩
  rw [C19_fuzzy_exact (fun _ _ => false) 0 [fsa_fuzzy_0, fsa_fuzzy_1] [98, 97, 98, 100, 100] 5
      (by decide) (by decide) hwf,
    C19_fuzzy_exact (fun _ _ => false) 0 [fsa_fuzzy_0, fsa_fuzzy_1] [98, 97, 98, 100, 100] 4
      (by decide) (by decide) hwf]
  decide

/-! ## The first match and the lock -/

theorem NextMatch_calls_first_match (n : Nat) :
    ∀ m : NearMatching, (NextMatch_calls n m).first_match_ = m.first_match_ := by
  induction n with
  | zero => intro m; rfl
  | succ n ih =>
    intro m
    show (NextMatch_calls n (NextMatch m).2).first_match_ = _
    rw [ih, NextMatch_first_match]

theorem FromMulipleFsas.from_payloads_first_match (T : Traversers)
    (ps : List (Automata × Nat × TraversalPayload)) (query : List Nat) (n : Nat) (greedy : Bool)
    (m : NearMatching) (hm : FromMulipleFsas.from_payloads T ps query n greedy = Except.ok m) :
    m.first_match_ = Match.empty := by
  unfold FromMulipleFsas.from_payloads at hm
  split at hm
  · injection hm with hm; rw [← hm]; rfl
  · split at hm
    · exact absurd hm (by simp)
    · injection hm with hm; rw [← hm]; rfl

/-- Every constructor leaves `first_match_` the default constructed `Match()`. -/
theorem built_first_match (T : Traversers) (fsa : Automata) (fsas : List Automata)
    (ps : List (Automata × Nat × TraversalPayload)) (start_state : Nat) (query : List Nat)
    (n : Nat) (greedy : Bool) (m : NearMatching)
    (hm : FromSingleFsa T fsa query n greedy = Except.ok m ∨
      FromSingleFsa.from_state T fsa start_state query n greedy = Except.ok m ∨
      FromMulipleFsas T fsas query n greedy = Except.ok m ∨
      FromMulipleFsas.from_payloads T ps query n greedy = Except.ok m) :
    m.first_match_ = Match.empty := by
  have hstate : ∀ s, FromSingleFsa.from_state T fsa s query n greedy = Except.ok m →
      m.first_match_ = Match.empty := by
    intro s hs
    unfold FromSingleFsa.from_state at hs
    split at hs
    · exact absurd hs (by simp)
    · injection hs with hs; rw [← hs]; rfl
  rcases hm with hm | hm | hm | hm
  · unfold FromSingleFsa FromSingleFsa.traced at hm
    split at hm
    · injection hm with hm; rw [← hm]; rfl
    · rcases hw : FromSingleFsa.walk fsa query n 0 fsa.GetStartState [] with ⟨_ | s, calls⟩
      · simp only [hw] at hm
        injection hm with hm; rw [← hm]; rfl
      · simp only [hw] at hm
        exact hstate _ hm
  · exact hstate _ hm
  · unfold FromMulipleFsas at hm
    split at hm
    · exact absurd hm (by simp)
    · exact FromMulipleFsas.from_payloads_first_match T _ query n greedy m hm
  · exact FromMulipleFsas.from_payloads_first_match T ps query n greedy m hm

/-- C21 (first match): a matcher any constructor returns, on any input, has the
default constructed `Match()` as its first match: `FirstMatch()` returns the
empty sentinel before and after any number of `NextMatch` calls. -/
theorem C21_first_match_empty (T : Traversers) (fsa : Automata) (fsas : List Automata)
    (ps : List (Automata × Nat × TraversalPayload)) (start_state : Nat) (query : List Nat)
    ( minimum_exact_prefix : Nat) (greedy : Bool) (m : NearMatching)
    (hm : FromSingleFsa T fsa query minimum_exact_prefix greedy = Except.ok m ∨
      FromSingleFsa.from_state T fsa start_state query minimum_exact_prefix greedy =
        Except.ok m ∨
      FromMulipleFsas T fsas query minimum_exact_prefix greedy = Except.ok m ∨
      FromMulipleFsas.from_payloads T ps query minimum_exact_prefix greedy = Except.ok m)
    (k : Nat) :
    FirstMatch (NextMatch_calls k m) = Match.empty ∧
    (FirstMatch (NextMatch_calls k m)).IsEmpty = true := by
  have h1 : FirstMatch (NextMatch_calls k m) = Match.empty := by
    unfold FirstMatch
    rw [NextMatch_calls_first_match]
    exact built_first_match T fsa fsas ps start_state query minimum_exact_prefix greedy m hm
  exact ⟨h1, by rw [h1]; decide⟩

/-- Witness of C21: the dictionary `ab -> 1` and the query `ab` with the prefix
length `2`, for which the prefix walk ends in state `3`. The key equals the
exact prefix, yet `FirstMatch()` is empty after three calls of `NextMatch`. -/
theorem C21_first_match_empty_witness :
    fsa_ab.lookup [97, 98] = some 1 ∧
    FromSingleFsa.from_state near_traversers fsa_ab 3 [97, 98] 2 false =
      Except.ok (NearMatching.new
        (near_traversers.comparable fsa_ab 3 (TraversalPayload.new []) true 0)
        Match.empty [97, 98] false) ∧
    FirstMatch (NextMatch_calls 3 (NearMatching.new
        (near_traversers.comparable fsa_ab 3 (TraversalPayload.new []) true 0)
        Match.empty [97, 98] false)) = Match.empty ∧
    (FirstMatch (NextMatch_calls 3 (NearMatching.new
        (near_traversers.comparable fsa_ab 3 (TraversalPayload.new []) true 0)
        Match.empty [97, 98] false))).IsEmpty = true :=
  ⟨by decide, FromSingleFsa.from_state_ok near_traversers fsa_ab 3 [97, 98] 2 false (by decide),
    C21_first_match_empty near_traversers fsa_ab [] [] 3 [97, 98] 2 false _
      (Or.inr (Or.inl
        (FromSingleFsa.from_state_ok near_traversers fsa_ab 3 [97, 98] 2 false (by decide)))) 3⟩

/-- The lock after one run of the loop without `greedy`: the `exact_depth` of the
position it emitted, the old lock when it emitted none. -/
theorem NextMatch_loop_lock ( exact_prefix : List Nat) (t : Traverser) :
    ∀ md, (NextMatch_loop exact_prefix false md t).2.1 =
      ((emitted false md t).head?.map (fun p => p.payload.exact_depth)).getD md := by
  induction t with
  | nil => intro md; rfl
  | cons p rest ih =>
    intro md
    unfold NextMatch_loop emitted
    by_cases hd : p.depth > md
    · by_cases hf : p.is_final = true
      · simp [hd, hf]
      · have hf2 : p.is_final = false := by simpa using hf
        simp only [hd, hf2, if_true, Bool.false_eq_true, if_false]
        exact ih md
    · simp [hd]

/-- The lock after `k` calls without `greedy`: the `exact_depth` of the position of
the latest match among the first `k` calls, the initial lock when there is
none. -/
theorem NextMatch_calls_lock (ep : List Nat) (fm : Match) (k : Nat) :
    ∀ (t : Traverser) (md : Nat),
      (NextMatch_calls k
        { traverser_ptr_ := some t, exact_prefix_ := ep, first_match_ := fm, greedy_ := false,
          matched_depth_ := md }).matched_depth_ =
        ((((emitted false md t).take k).getLast?).map (fun p => p.payload.exact_depth)).getD md := by
  induction k with
  | zero => intro t md; rfl
  | succ k ih =>
    intro t md
    have hstep : NextMatch_calls (k + 1)
        { traverser_ptr_ := some t, exact_prefix_ := ep, first_match_ := fm, greedy_ := false,
          matched_depth_ := md } =
        NextMatch_calls k
          { traverser_ptr_ := some (NextMatch_loop ep false md t).2.2, exact_prefix_ := ep,
            first_match_ := fm, greedy_ := false,
            matched_depth_ := (NextMatch_loop ep false md t).2.1 } := rfl
    rw [hstep, ih, (NextMatch_loop_emitted ep false t md).2, NextMatch_loop_lock]
    cases hE : emitted false md t with
    | nil => simp
    | cons e E =>
      simp only [List.tail_cons, List.head?_cons, Option.map_some', Option.getD_some,
        List.take_succ_cons]
      cases hT : E.take k with
      | nil => simp
      | cons x xs =>
        rw [List.getLast?_cons_cons]
        rcases hl : (x :: xs).getLast? with _ | l
        · exact absurd hl (by simp)
        · rfl

/-- Without `greedy`, every emitted position lies deeper than the lock it meets:
the first deeper than the initial lock, each later one deeper than the
`exact_depth` of the position emitted before it. -/
theorem emitted_chain (t : Traverser) :
    ∀ md, (∀ x ∈ (emitted false md t).head?, md < x.depth) ∧
      (emitted false md t).Chain' (fun e x => e.payload.exact_depth < x.depth) := by
  induction t with
  | nil => intro md; simp [emitted]
  | cons p rest ih =>
    intro md
    unfold emitted
    by_cases hd : p.depth > md
    · by_cases hf : p.is_final = true
      · simp only [hd, hf, if_true, Bool.not_false]
        refine ⟨by intro x hx; simp at hx; subst hx; exact hd, ?_⟩
        rw [List.chain'_cons']
        exact ⟨(ih _).1, (ih _).2⟩
      · have hf2 : p.is_final = false := by simpa using hf
        simp only [hd, hf2, if_true, Bool.false_eq_true, if_false]
        exact ih md
    · simp [hd]

/-- C23 (the lock follows the matches): without `greedy`, for a matcher built on
the traverser `t`, let `E` be the positions at which the successive `NextMatch`
calls build their matches (call `k + 1` returns the match of `E[k]`, and the
empty match beyond `E`). After any `k` calls `matched_depth_` is the
`exact_depth` of the latest position emitted so far, and `0` when none was; the
score of a match is the length of the exact prefix plus that `exact_depth`;
and every emitted position after the first has a depth greater than the
`exact_depth` of the one before it. -/
theorem C23_lock_follows_matches (t : Traverser) (first_match : Match)
    ( exact_prefix : List Nat) :
    (∀ k, NextMatch_nth k (NearMatching.new t first_match exact_prefix false) =
      ((emitted false 0 t).map (make_match exact_prefix)).getD k Match.empty) ∧
    (∀ k, (NextMatch_calls k (NearMatching.new t first_match exact_prefix false)).matched_depth_ =
      ((((emitted false 0 t).take k).getLast?).map (fun p => p.payload.exact_depth)).getD 0) ∧
    (∀ p ∈ emitted false 0 t, (make_match exact_prefix p).IsEmpty = false ∧
      (make_match exact_prefix p).score = exact_prefix.length + p.payload.exact_depth) ∧
    (emitted false 0 t).Chain' (fun e x => e.payload.exact_depth < x.depth) ∧
    ∀ k, (NextMatch_calls k NearMatching.default).matched_depth_ = 0 := by
  refine ⟨?_, ?_, ?_, (emitted_chain t 0).2, ?_⟩
  · intro k
    exact NextMatch_nth_emitted exact_prefix first_match false k t 0
  · intro k
    exact NextMatch_calls_lock exact_prefix first_match k t 0
  · intro p hp
    exact ⟨(Match.IsEmpty_false_iff _).mpr
      (make_match_ne_empty _ p (emitted_spec false t 0 p hp).2.2), rfl⟩
  · intro k
    rw [NextMatch_calls_default]
    rfl

/-! ## The two prefix walks -/

/-- The filter over one automaton whose start state is a state: the single entry
of the state the walk of the prefix reaches, or nothing. -/
theorem FilterWithExactPrefix_single (fsa : Automata) (query : List Nat) (n : Nat)
    (h : n ≤ query.length) (hstart : fsa.GetStartState ≠ 0) :
    FilterWithExactPrefix [fsa] query n =
      Except.ok (match fsa.walk fsa.GetStartState (query.take n) with
        | some s => [(fsa, s, TraversalPayload.new (query.drop n))]
        | none => []) := by
  rw [FilterWithExactPrefix_eq_spec [fsa] query n h (by simpa using hstart)]
  unfold FilterWithExactPrefix_spec
  cases hw : fsa.walk fsa.GetStartState (query.take n) <;> simp [hw]

/-- The single automaton constructor in terms of the state its prefix loop ends in. -/
theorem FromSingleFsa_walk (T : Traversers) (fsa : Automata) (query : List Nat) (n : Nat)
    (greedy : Bool) (h : n ≤ query.length) :
    FromSingleFsa T fsa query n greedy =
      match (FromSingleFsa.walk fsa query n 0 fsa.GetStartState []).1 with
      | some s => FromSingleFsa.from_state T fsa s query n greedy
      | none => Except.ok NearMatching.default := by
  unfold FromSingleFsa FromSingleFsa.traced
  rw [if_neg (by omega)]
  rcases hw : FromSingleFsa.walk fsa query n 0 fsa.GetStartState [] with ⟨_ | s, calls⟩ <;> rfl

/-- An automaton without a start state (an empty dictionary) and the prefix
length `0`: `FromSingleFsa` runs no step of its loop and builds a traverser on
state `0`, where `FilterWithExactPrefix` drops the automaton and
`FromMulipleFsas` returns the null matcher. -/
theorem FromSingleFsa_no_start_state (T : Traversers) (fsa : Automata) (query : List Nat)
    (greedy : Bool) (hstart : fsa.GetStartState = 0) :
    FromSingleFsa T fsa query 0 greedy =
      Except.ok (NearMatching.new (T.comparable fsa 0 (TraversalPayload.new query) true 0)
        Match.empty [] greedy) ∧
    FilterWithExactPrefix [fsa] query 0 = Except.ok [] ∧
    FromMulipleFsas T [fsa] query 0 greedy = Except.ok NearMatching.default := by
  have hf : FilterWithExactPrefix [fsa] query 0 = Except.ok [] := by
    rw [FilterWithExactPrefix_ok _ _ _ (Nat.zero_le _)]
    simp [FilterWithExactPrefix.walk, hstart]
  refine ⟨?_, hf, ?_⟩
  · rw [FromSingleFsa_walk T fsa query 0 greedy (Nat.zero_le _)]
    simp only [FromSingleFsa.walk, hstart]
    rw [FromSingleFsa.from_state_ok T fsa 0 query 0 greedy (Nat.zero_le _)]
    simp
  · unfold FromMulipleFsas
    rw [hf]
    rfl

/-- C24 (the two prefix walks agree): for an automaton whose start state is a state
(not the reserved id `0`), a query and `minimum_exact_prefix <= len(query)`, the
prefix loop of `FromSingleFsa` ends in a state `s` other than `0`, on which the
constructor then builds its traverser, if and only if `FilterWithExactPrefix`
over the list `[fsa]` returns the single entry of `fsa` with the start state
`s`; the loop never ends in state `0`, and when it fails both results are
empty: `FromSingleFsa` returns the null matcher, the filter the empty list and
`FromMulipleFsas` the null matcher. -/
theorem C24_prefix_walks_agree (T : Traversers) (fsa : Automata) (query : List Nat)
    ( minimum_exact_prefix : Nat) (greedy : Bool) (h : minimum_exact_prefix ≤ query.length)
    (hstart : fsa.GetStartState ≠ 0) :
    (∀ s, ((FromSingleFsa.walk fsa query minimum_exact_prefix 0 fsa.GetStartState []).1 = some s ∧
        s ≠ 0) ↔
      FilterWithExactPrefix [fsa] query minimum_exact_prefix =
        Except.ok [(fsa, s, TraversalPayload.new (query.drop minimum_exact_prefix))]) ∧
    (∀ s, (FromSingleFsa.walk fsa query minimum_exact_prefix 0 fsa.GetStartState []).1 = some s →
      s ≠ 0 ∧
      FromSingleFsa T fsa query minimum_exact_prefix greedy =
        Except.ok (NearMatching.new
          (T.comparable fsa s (TraversalPayload.new (query.drop minimum_exact_prefix)) true 0)
          Match.empty (query.take minimum_exact_prefix) greedy) ∧
      FromMulipleFsas T [fsa] query minimum_exact_prefix greedy =
        Except.ok (NearMatching.new
          (T.zip [(fsa, s, TraversalPayload.new (query.drop minimum_exact_prefix))])
          Match.empty (query.take minimum_exact_prefix) greedy)) ∧
    ((FromSingleFsa.walk fsa query minimum_exact_prefix 0 fsa.GetStartState []).1 = none →
      FromSingleFsa T fsa query minimum_exact_prefix greedy = Except.ok NearMatching.default ∧
      FilterWithExactPrefix [fsa] query minimum_exact_prefix = Except.ok [] ∧
      FromMulipleFsas T [fsa] query minimum_exact_prefix greedy =
        Except.ok NearMatching.default) := by
  have hw : (FromSingleFsa.walk fsa query minimum_exact_prefix 0 fsa.GetStartState []).1 =
      fsa.walk fsa.GetStartState (query.take minimum_exact_prefix) := by
    rw [FromSingleFsa.walk_eq_walk fsa query minimum_exact_prefix 0 _ _ (by omega)]
    rfl
  have hne : ∀ s, fsa.walk fsa.GetStartState (query.take minimum_exact_prefix) = some s →
      s ≠ 0 := by
    intro s hs
    have h1 := FilterWithExactPrefix.walk_eq fsa query minimum_exact_prefix h
      minimum_exact_prefix fsa.GetStartState 0 hstart (by omega)
    simp only [List.drop_zero] at h1
    rw [hs] at h1
    exact h1.2
  have hfilter := FilterWithExactPrefix_single fsa query minimum_exact_prefix h hstart
  have hsingle := FromSingleFsa_walk T fsa query minimum_exact_prefix greedy h
  have hmulti : ∀ ps, FilterWithExactPrefix [fsa] query minimum_exact_prefix = Except.ok ps →
      FromMulipleFsas T [fsa] query minimum_exact_prefix greedy =
        FromMulipleFsas.from_payloads T ps query minimum_exact_prefix greedy := by
    intro ps hps
    unfold FromMulipleFsas
    rw [hps]
  rw [hw] at hsingle ⊢
  refine ⟨?_, ?_, ?_⟩
  · intro s
    constructor
    · rintro ⟨hs, _⟩
      rw [hfilter, hs]
    · intro hf
      rw [hfilter] at hf
      cases hwalk : fsa.walk fsa.GetStartState (query.take minimum_exact_prefix) with
      | none =>
        rw [hwalk] at hf
        simp at hf
      | some s2 =>
        rw [hwalk] at hf
        simp at hf
        exact ⟨by rw [hf], by rw [← hf]; exact hne s2 hwalk⟩
  · intro s hs
    rw [hs] at hsingle hfilter
    refine ⟨hne s hs, ?_, ?_⟩
    · rw [hsingle]
      exact FromSingleFsa.from_state_ok T fsa s query minimum_exact_prefix greedy h
    · rw [hmulti _ hfilter]
      simp [FromMulipleFsas.from_payloads, substr_from_ok _ _ h, substr_to]
  · intro hs
    rw [hs] at hsingle hfilter
    refine ⟨hsingle, hfilter, ?_⟩
    rw [hmulti _ hfilter]
    rfl

/-- Witness of C24: the dictionary `ab -> 1`. With the query `abc` and the prefix
length `2` both walks end in state `3`; with the query `ax` and the prefix length
`2` both results are empty. -/
theorem C24_prefix_walks_agree_witness :
    (2 ≤ [97, 98, 99].length ∧ fsa_ab.GetStartState ≠ 0) ∧
    (FromSingleFsa.walk fsa_ab [97, 98, 99] 2 0 fsa_ab.GetStartState []).1 = some 3 ∧
    FilterWithExactPrefix [fsa_ab] [97, 98, 99] 2 =
      Except.ok [(fsa_ab, 3, TraversalPayload.new [99])] ∧
    FromSingleFsa near_traversers fsa_ab [97, 98, 99] 2 false =
      Except.ok (NearMatching.new
        (near_traversers.comparable fsa_ab 3 (TraversalPayload.new [99]) true 0)
        Match.empty [97, 98] false) ∧
    (FromSingleFsa.walk fsa_ab [97, 120] 2 0 fsa_ab.GetStartState []).1 = none ∧
    FromSingleFsa near_traversers fsa_ab [97, 120] 2 false = Except.ok NearMatching.default ∧
    FilterWithExactPrefix [fsa_ab] [97, 120] 2 = Except.ok [] :=
  ⟨⟨by decide, by decide⟩, by decide,
    ((C24_prefix_walks_agree near_traversers fsa_ab [97, 98, 99] 2 false (by decide)
      (by decide)).1 3).mp ⟨by decide, by decide⟩,
    ((C24_prefix_walks_agree near_traversers fsa_ab [97, 98, 99] 2 false (by decide)
      (by decide)).2.1 3 (by decide)).2.1,
    by decide,
    ((C24_prefix_walks_agree near_traversers fsa_ab [97, 120] 2 false (by decide)
      (by decide)).2.2 (by decide)).1,
    ((C24_prefix_walks_agree near_traversers fsa_ab [97, 120] 2 false (by decide)
      (by decide)).2.2 (by decide)).2.1⟩

/-! ## Exhaustion -/

/-- After a run of the loop that returns the empty match the traverser is
exhausted or at a position the lock excludes. -/
theorem NextMatch_loop_empty_rest ( exact_prefix : List Nat) (greedy : Bool) (t : Traverser) :
    ∀ md, (NextMatch_loop exact_prefix greedy md t).1 = Match.empty →
      (NextMatch_loop exact_prefix greedy md t).2.2 = [] ∨
      ∃ x rest, (NextMatch_loop exact_prefix greedy md t).2.2 = x :: rest ∧ x.depth ≤ md := by
  induction t with
  | nil => intro md _; left; rfl
  | cons p rest ih =>
    intro md h
    unfold NextMatch_loop at h ⊢
    by_cases hd : p.depth > md
    · by_cases hf : p.is_final = true
      · simp only [hd, hf, if_true] at h
        exact absurd h (make_match_ne_empty _ p (by omega))
      · have hf2 : p.is_final = false := by simpa using hf
        simp only [hd, hf2, if_true, Bool.false_eq_true, if_false] at h ⊢
        exact ih md h
    · simp only [hd, if_false]
      right
      exact ⟨p, rest, rfl, by omega⟩

/-- On a traverser without dead end the loop returns a match from every position
deeper than the lock. -/
theorem NextMatch_loop_no_dead_end ( exact_prefix : List Nat) (greedy : Bool) (md : Nat)
    (t : Traverser) :
    ∀ p, Traverser.no_dead_end (p :: t) = true → md < p.depth →
      (NextMatch_loop exact_prefix greedy md (p :: t)).1 ≠ Match.empty := by
  induction t with
  | nil =>
    intro p hp hd
    have hf : p.is_final = true := hp
    unfold NextMatch_loop
    simp only [gt_iff_lt, hd, hf, if_true]
    exact make_match_ne_empty _ p (by omega)
  | cons q rest ih =>
    intro p hp hd
    have hp2 : (p.is_final || decide (p.depth < q.depth)) = true ∧
        Traverser.no_dead_end (q :: rest) = true := by
      simpa [Traverser.no_dead_end] using hp
    unfold NextMatch_loop
    by_cases hf : p.is_final = true
    · simp only [gt_iff_lt, hd, hf, if_true]
      exact make_match_ne_empty _ p (by omega)
    · have hf2 : p.is_final = false := by simpa using hf
      simp only [gt_iff_lt, hd, hf2, if_true, Bool.false_eq_true, if_false]
      have hq : p.depth < q.depth := by simpa [hf2] using hp2.1
      exact ih q hp2.2 (by omega)

/-- On a traverser without dead end a run of the loop that returns the empty match
changes nothing. -/
theorem NextMatch_loop_empty_fixed ( exact_prefix : List Nat) (greedy : Bool) (md : Nat)
    (t : Traverser) (hn : Traverser.no_dead_end t = true)
    (h : (NextMatch_loop exact_prefix greedy md t).1 = Match.empty) :
    NextMatch_loop exact_prefix greedy md t = (Match.empty, md, t) := by
  cases t with
  | nil => rfl
  | cons p rest =>
    by_cases hd : md < p.depth
    · exact absurd h (NextMatch_loop_no_dead_end exact_prefix greedy md rest p hn hd)
    · unfold NextMatch_loop
      simp only [gt_iff_lt, hd, if_false]

/-- A call of `NextMatch` that returns the empty match leaves a matcher on which
every call returns the empty match and changes nothing. -/
theorem NextMatch_empty_fixed (m : NearMatching) (h : (NextMatch m).1 = Match.empty) :
    NextMatch (NextMatch m).2 = (Match.empty, (NextMatch m).2) := by
  cases ht : m.traverser_ptr_ with
  | none =>
    have h1 : NextMatch m = (Match.empty, m) := by unfold NextMatch; rw [ht]
    rw [h1, h1]
  | some t =>
    rw [NextMatch_some m t ht] at h ⊢
    rcases NextMatch_loop_empty_rest _ _ t _ h with h2 | ⟨x, rest, h2, h3⟩
    · simp only [h2]
      rfl
    · have h4 := (NextMatch_loop_empty_split _ _ t _ h).choose_spec.2.2
      simp only [h2, h4]
      unfold NextMatch
      simp only [NextMatch_loop]
      have hn : ¬ x.depth > m.matched_depth_ := by omega
      simp only [hn, if_false]

theorem NextMatch_calls_fixed (m : NearMatching) (h : NextMatch m = (Match.empty, m)) :
    ∀ k, NextMatch_calls k m = m ∧ NextMatch_nth k m = Match.empty := by
  intro k
  induction k with
  | zero => exact ⟨rfl, by unfold NextMatch_nth NextMatch_calls; rw [h]⟩
  | succ k ih =>
    have h2 : NextMatch_calls (k + 1) m = m := by
      show NextMatch_calls k (NextMatch m).2 = m
      rw [h]; exact ih.1
    refine ⟨h2, ?_⟩
    unfold NextMatch_nth
    rw [h2, h]

/-- Why the traverser must have no dead end for a call that returns the empty match
to leave it in place: over a transition table with a state that is neither final
nor has a transition, which no dictionary contains, the matcher `FromSingleFsa`
builds for the query `a` stands on that state, deeper than the lock `0`; the
loop steps over it, finds the traverser exhausted and returns `Match()`. -/
theorem NextMatch_steps_over_dead_end :
    FromSingleFsa near_traversers fsa_dead_end [97] 0 false = Except.ok matcher_dead_end ∧
    (NextMatch matcher_dead_end).1.IsEmpty = true ∧
    matcher_dead_end.traverser_ptr_.map Traverser.GetDepth = some 1 ∧
    (NextMatch matcher_dead_end).2.traverser_ptr_ = some [] ∧
    (NextMatch matcher_dead_end).2.traverser_ptr_ ≠ matcher_dead_end.traverser_ptr_ ∧
    (NextMatch matcher_dead_end).2.matched_depth_ = matcher_dead_end.matched_depth_ :=
  ⟨rfl, by decide, by decide, by decide, by decide, by decide⟩

/-- C22 (exhaustion is absorbing): if `NextMatch` returns the empty match, the call
left `matched_depth_` unchanged, and every later call returns the empty match
and changes nothing. Over a traverser without dead end, as every traversal of a
dictionary is, the call left the whole matcher unchanged, the position of the
traverser included; so it did on a null traverser. Whatever the traverser, the
positions the call stepped over are not final and deeper than `matched_depth_`. -/
theorem C22_exhaustion_absorbing (m : NearMatching) (h : (NextMatch m).1.IsEmpty = true) :
    (NextMatch m).2.matched_depth_ = m.matched_depth_ ∧
    (∀ k, NextMatch_nth k (NextMatch m).2 = Match.empty ∧
      NextMatch_calls k (NextMatch m).2 = (NextMatch m).2) ∧
    (m.traverser_ptr_ = none → (NextMatch m).2 = m) ∧
    (∀ t, m.traverser_ptr_ = some t →
      (∃ skipped rest, t = skipped ++ rest ∧ (NextMatch m).2.traverser_ptr_ = some rest ∧
        ∀ q ∈ skipped, q.is_final = false ∧ m.matched_depth_ < q.depth) ∧
      (Traverser.no_dead_end t = true → (NextMatch m).2 = m)) := by
  have he : (NextMatch m).1 = Match.empty := (Match.IsEmpty_iff _).mp h
  have hfix := NextMatch_calls_fixed _ (NextMatch_empty_fixed m he)
  refine ⟨?_, fun k => ⟨(hfix k).2, (hfix k).1⟩, ?_, ?_⟩
  · cases ht : m.traverser_ptr_ with
    | none =>
      have h1 : NextMatch m = (Match.empty, m) := by unfold NextMatch; rw [ht]
      rw [h1]
    | some t =>
      rw [NextMatch_some m t ht] at he ⊢
      exact (NextMatch_loop_empty_split _ _ t _ he).choose_spec.2.2
  · intro ht
    unfold NextMatch
    rw [ht]
  · intro t ht
    rw [NextMatch_some m t ht] at he ⊢
    constructor
    · obtain ⟨skipped, h1, h2, _⟩ := NextMatch_loop_empty_split _ _ t _ he
      exact ⟨skipped, _, h1, rfl, h2⟩
    · intro hn
      rw [NextMatch_loop_empty_fixed _ _ _ t hn he]
      simp only
      rw [← ht]

/-- Witness of C22: the matcher over `ab -> 5, ad -> 6` for the query `ab` after it
returned `ab`. The lock is `2` and the traverser stands on `ad`, of depth `2`:
the call returns the empty match and changes nothing. -/
theorem C22_exhaustion_absorbing_witness :
    ((NextMatch matcher_ab_ad).1.IsEmpty = true ∧ matcher_ab_ad.matched_depth_ = 2 ∧
      matcher_ab_ad.traverser_ptr_.map Traverser.GetDepth = some 2 ∧
      matcher_ab_ad.traverser_ptr_.map Traverser.no_dead_end = some true) ∧
    (NextMatch matcher_ab_ad).2.matched_depth_ = matcher_ab_ad.matched_depth_ ∧
    (∀ k, NextMatch_nth k (NextMatch matcher_ab_ad).2 = Match.empty ∧
      NextMatch_calls k (NextMatch matcher_ab_ad).2 = (NextMatch matcher_ab_ad).2) ∧
    (NextMatch matcher_ab_ad).2 = matcher_ab_ad :=
  ⟨⟨by decide, by decide, by decide, by decide⟩,
    (C22_exhaustion_absorbing matcher_ab_ad (by decide)).1,
    (C22_exhaustion_absorbing matcher_ab_ad (by decide)).2.1,
    ((C22_exhaustion_absorbing matcher_ab_ad (by decide)).2.2.2
      ((near_traversers.comparable fsa_ab_ad 7 (TraversalPayload.new [97, 98]) true 0).drop 2)
      (by decide)).2 (by decide)⟩

/-! ## Traversals without dead end -/

theorem no_dead_end_tail (p : Position) (t : Traverser)
    (h : Traverser.no_dead_end (p :: t) = true) : Traverser.no_dead_end t = true := by
  cases t with
  | nil => rfl
  | cons q rest =>
    have h2 : (p.is_final || decide (p.depth < q.depth)) = true ∧
        Traverser.no_dead_end (q :: rest) = true := by
      simpa [Traverser.no_dead_end] using h
    exact h2.2

theorem no_dead_end_suffix (s : Traverser) :
    ∀ t : Traverser, Traverser.no_dead_end (s ++ t) = true → Traverser.no_dead_end t = true := by
  induction s with
  | nil => intro t h; exact h
  | cons p s ih =>
    intro t h
    exact ih t (no_dead_end_tail p (s ++ t) h)

/-- A stream in near order, in which the depth of a position is the length of its
path and every position that is not final has a longer path through it in the
stream, has no dead end. -/
theorem ordered_no_dead_end (key : List Nat) :
    ∀ t : Traverser, Traverser.ordered key t → (∀ p ∈ t, p.depth = p.path.length) →
      (∀ p ∈ t, p.is_final = false → ∃ x ∈ t, p.path <+: x.path ∧ x.path ≠ p.path) →
      Traverser.no_dead_end t = true := by
  intro t
  induction t with
  | nil => intro _ _ _; rfl
  | cons p rest ih =>
    intro hord hdepth hext
    have hord2 : (∀ q ∈ rest, near_before (some key) p.path q.path = true) ∧
        Traverser.ordered key rest := List.pairwise_cons.mp hord
    have hrest : Traverser.no_dead_end rest = true := by
      refine ih hord2.2 (fun q hq => hdepth q (List.mem_cons_of_mem _ hq)) ?_
      intro q hq hqf
      obtain ⟨x, hx, hx1, hx2⟩ := hext q (List.mem_cons_of_mem _ hq) hqf
      rcases List.mem_cons.mp hx with rfl | hx3
      · exact absurd hx1 ( near_before_not_prefix _ _ _ (hord2.1 q hq))
      · exact ⟨x, hx3, hx1, hx2⟩
    by_cases hf : p.is_final = true
    · cases rest with
      | nil => exact hf
      | cons q rest2 =>
        show ((p.is_final || decide (p.depth < q.depth)) &&
          Traverser.no_dead_end (q :: rest2)) = true
        rw [hf, hrest]
        rfl
    · have hf2 : p.is_final = false := by simpa using hf
      obtain ⟨x, hx, hx1, hx2⟩ := hext p (List.mem_cons_self _ _) hf2
      have hx3 : x ∈ rest := by
        rcases List.mem_cons.mp hx with rfl | hx3
        · exact absurd rfl hx2
        · exact hx3
      cases rest with
      | nil => simp at hx3
      | cons q rest2 =>
        have hpq := hord2.1 q (List.mem_cons_self _ _)
        have hq1 : p.path <+: q.path := by
          rcases List.mem_cons.mp hx3 with rfl | hx4
          · exact hx1
          · have hqx := (List.pairwise_cons.mp hord2.2).1 x hx4
            exact near_before_convex p.path (some key) p.path q.path x.path
              (List.prefix_refl _) hx1 hpq hqx
        have hq2 : p.path ≠ q.path := near_before_ne _ _ _ hpq
        have hlen : p.path.length < q.path.length := by
          obtain ⟨s, hs⟩ := hq1
          cases s with
          | nil => rw [List.append_nil] at hs; exact absurd hs hq2
          | cons c s => rw [← hs]; simp
        have hd : p.depth < q.depth := by
          rw [hdepth p (List.mem_cons_self _ _),
            hdepth q (List.mem_cons_of_mem _ (List.mem_cons_self _ _))]
          exact hlen
        show ((p.is_final || decide (p.depth < q.depth)) &&
          Traverser.no_dead_end (q :: rest2)) = true
        rw [hrest, decide_eq_true hd]
        simp

/-- The last step of a walk. -/
theorem Automata.walk_concat (f : Automata) (l : List Nat) (c state t : Nat)
    (h : f.walk state (l ++ [c]) = some t) :
    ∃ s, f.walk state l = some s ∧ f.TryWalkTransition s c = t ∧ t ≠ 0 := by
  rw [Automata.walk_append] at h
  cases hs : f.walk state l with
  | none => rw [hs] at h; simp at h
  | some s =>
    rw [hs] at h
    simp only [Option.some_bind, Automata.walk] at h
    by_cases h0 : f.TryWalkTransition s c = 0
    · rw [if_pos h0] at h; exact absurd h (by simp)
    · rw [if_neg h0] at h
      injection h with h
      exact ⟨s, rfl, h, by rw [← h]; exact h0⟩

/-- In the traversal of an acyclic automaton without dead end, every position that
is not final has a child in the traversal. -/
theorem near_trace_child (e : Automata × Nat × TraversalPayload) (hf : e.1.acyclic)
    (ht : e.1.trim) (p : Position) (hp : p ∈ near_trace e) (hpf : p.is_final = false) :
    ∃ x ∈ near_trace e, p.path <+: x.path ∧ x.path ≠ p.path := by
  obtain ⟨h1, h2, h3, _, t, h5, h6, _⟩ := near_trace_path e p hp
  obtain ⟨l, c, hl⟩ : ∃ l c, p.labels = l ++ [c] :=
    ⟨p.labels.dropLast, p.labels.getLast h2, (List.dropLast_append_getLast h2).symm⟩
  rw [hl] at h5
  obtain ⟨s, _, hs2, hs3⟩ := Automata.walk_concat e.1 l c e.2.1 t h5
  have hmem := Automata.TryWalkTransition_mem e.1 s c (by rw [hs2]; exact hs3)
  rw [hs2] at hmem
  have hout := ht _ hmem hs3 (by rw [← h6]; exact hpf)
  obtain ⟨b, hb⟩ := List.exists_mem_of_ne_nil _ hout
  obtain ⟨hb1, hb2⟩ := (mem_outgoing_labels e.1 t b).mp hb
  rw [← hl] at h5
  have hwalk : e.1.walk e.2.1 (p.labels ++ [b]) = some (e.1.TryWalkTransition t b) := by
    rw [Automata.walk_append, h5]
    simp [Automata.walk, hb2]
  have hlen := Automata.walk_length_le e.1 hf _ _ _ hwalk
  obtain ⟨x, hx, hx2⟩ := near_traverse_complete e.1 e.1.transitions.length e.2.1 [] e.2.2
    (p.labels ++ [b]) _ (by simp) hlen
    (by
      intro a ha
      rcases List.mem_append.mp ha with ha | ha
      · exact h3 a ha
      · simp at ha; rw [ha]; exact hb1)
    hwalk
  have hx3 : x.path = p.labels ++ [b] := by
    rw [(near_trace_path e x hx).1, hx2]
    rfl
  refine ⟨x, hx, ?_, ?_⟩
  · rw [hx3, h1]
    exact List.prefix_append _ _
  · rw [hx3, h1]
    intro hc
    have := congrArg List.length hc
    simp at this

theorem near_trace_depth (e : Automata × Nat × TraversalPayload) (p : Position)
    (hp : p ∈ near_trace e) : p.depth = p.path.length := by
  obtain ⟨ext, t, _, _, h3, _⟩ := near_traverse_sound _ _ _ _ _ p hp
  rw [(near_trace_path e p hp).1]
  exact h3

/-- The near traverser over an acyclic automaton without dead end has no dead end. -/
theorem near_comparable_no_dead_end (f : Automata) (state : Nat) (key : List Nat)
    (order : Nat) (hf : f.acyclic) (ht : f.trim) :
    Traverser.no_dead_end
      (near_traversers.comparable f state (TraversalPayload.new key) true order) = true := by
  show Traverser.no_dead_end (near_trace (f, state, TraversalPayload.new key)) = true
  exact ordered_no_dead_end key _ (near_trace_ordered key _ rfl)
    (fun p hp => near_trace_depth _ p hp)
    (fun p hp hpf => near_trace_child _ hf ht p hp hpf)

/-- The zip traverser over acyclic automata without dead end has no dead end. -/
theorem near_zip_no_dead_end (key : List Nat)
    (ps : List (Automata × Nat × TraversalPayload))
    (hpay : ∀ e ∈ ps, e.2.2 = TraversalPayload.new key)
    (hf : ∀ e ∈ ps, e.1.acyclic ∧ e.1.trim) :
    Traverser.no_dead_end (near_traversers.zip ps) = true := by
  show Traverser.no_dead_end (ZipStateTraverser.new ps) = true
  have hord : ∀ t ∈ ps.map near_trace, Traverser.ordered key t := by
    intro t ht
    obtain ⟨e, he, rfl⟩ := List.mem_map.mp ht
    exact near_trace_ordered _ e (hpay e he)
  unfold ZipStateTraverser.new
  simp only [ZipStateTraverser.inner_eq]
  cases hps : ps with
  | nil => simp [zip_merge, zip_head, Traverser.no_dead_end]
  | cons e0 ps0 =>
    have hkey : e0.2.2.lookup_key = key := by
      rw [hpay e0 (by rw [hps]; exact List.mem_cons_self _ _)]
      rfl
    simp only [hkey]
    rw [hps] at hord hpay hf
    obtain ⟨h1, h2⟩ := zip_merge_spec key
      (((e0 :: ps0).map near_trace).map List.length).sum ((e0 :: ps0).map near_trace) hord
    have hcomp := zip_merge_complete key
      (((e0 :: ps0).map near_trace).map List.length).sum ((e0 :: ps0).map near_trace)
      (Nat.le_refl _)
    have hin : ∀ p ∈ zip_merge key (((e0 :: ps0).map near_trace).map List.length).sum
        ((e0 :: ps0).map near_trace), ∃ e ∈ e0 :: ps0, p ∈ near_trace e := by
      intro p hp
      obtain ⟨⟨t, ht, hpt⟩, _⟩ := h1 p hp
      obtain ⟨e, he, rfl⟩ := List.mem_map.mp ht
      exact ⟨e, he, hpt⟩
    refine ordered_no_dead_end key _ h2 ?_ ?_
    · intro p hp
      obtain ⟨e, _, hpe⟩ := hin p hp
      exact near_trace_depth e p hpe
    · intro p hp hpf
      obtain ⟨e, he, hpe⟩ := hin p hp
      obtain ⟨x, hx, hx1, hx2⟩ := near_trace_child e (hf e he).1 (hf e he).2 p hpe hpf
      obtain ⟨y, hy, hy2⟩ := hcomp (near_trace e) (List.mem_map_of_mem _ he) x hx
      exact ⟨y, hy, by rw [hy2]; exact hx1, by rw [hy2]; exact hx2⟩

/-- The calls of `NextMatch` keep a traverser without dead end so. -/
theorem NextMatch_calls_no_dead_end (k : Nat) :
    ∀ (m : NearMatching) (t : Traverser), m.traverser_ptr_ = some t →
      Traverser.no_dead_end t = true →
      ∃ s, (NextMatch_calls k m).traverser_ptr_ = some s ∧ Traverser.no_dead_end s = true := by
  induction k with
  | zero => intro m t ht hn; exact ⟨t, ht, hn⟩
  | succ k ih =>
    intro m t ht hn
    show ∃ s, (NextMatch_calls k (NextMatch m).2).traverser_ptr_ = some s ∧ _
    refine ih (NextMatch m).2 (NextMatch_loop m.exact_prefix_ m.greedy_ m.matched_depth_ t).2.2
      (by rw [NextMatch_some m t ht]) ?_
    by_cases he : (NextMatch_loop m.exact_prefix_ m.greedy_ m.matched_depth_ t).1 = Match.empty
    · rw [NextMatch_loop_empty_fixed _ _ _ t hn he]
      exact hn
    · obtain ⟨skipped, p, rest, h1, _, _, _, h5⟩ := NextMatch_loop_split _ _ t _ he
      rw [h5]
      rw [h1] at hn
      exact no_dead_end_tail p rest (no_dead_end_suffix skipped _ hn)

/-- On a traverser without dead end a call of `NextMatch` that returns the empty
match changes nothing. -/
theorem NextMatch_empty_in_place (m : NearMatching) (t : Traverser)
    (ht : m.traverser_ptr_ = some t) (hn : Traverser.no_dead_end t = true)
    (he : (NextMatch m).1 = Match.empty) : (NextMatch m).2 = m := by
  rw [NextMatch_some m t ht] at he ⊢
  rw [NextMatch_loop_empty_fixed _ _ _ t hn he]
  simp only
  rw [← ht]

/-- The entries of the filter carry an automaton of the list and a fresh payload
over the query tail. -/
theorem FilterWithExactPrefix_entries (fsas : List Automata) (query : List Nat) (n : Nat)
    (h : n ≤ query.length) (ps : List (Automata × Nat × TraversalPayload))
    (hps : FilterWithExactPrefix fsas query n = Except.ok ps) :
    ∀ e ∈ ps, e.1 ∈ fsas ∧ e.2.2 = TraversalPayload.new (query.drop n) := by
  rw [FilterWithExactPrefix_ok _ _ _ h] at hps
  injection hps with hps
  intro e he
  rw [← hps] at he
  obtain ⟨f, hf, hfe⟩ := List.mem_filterMap.mp he
  simp only at hfe
  split at hfe
  · injection hfe with hfe
    rw [← hfe]
    exact ⟨hf, rfl⟩
  · exact absurd hfe (by simp)

/-- Over acyclic automata without dead end, with the traversers modelled from the
spec, a call of `NextMatch` that returns the empty match leaves the matcher as
it was, the position of the traverser included. -/
theorem built_stops_in_place (fsa : Automata) (fsas : List Automata) (query : List Nat)
    (n : Nat) (greedy : Bool) (h : n ≤ query.length)
    (hf : fsa.acyclic ∧ fsa.trim) (hfs : ∀ f ∈ fsas, f.acyclic ∧ f.trim) (m : NearMatching)
    (hm : FromSingleFsa near_traversers fsa query n greedy = Except.ok m ∨
      FromMulipleFsas near_traversers fsas query n greedy = Except.ok m)
    (k : Nat) (he : NextMatch_nth k m = Match.empty) :
    NextMatch_calls (k + 1) m = NextMatch_calls k m := by
  have hmain : m = NearMatching.default ∨
      ∃ t, m.traverser_ptr_ = some t ∧ Traverser.no_dead_end t = true := by
    rcases hm with hm | hm
    · rcases FromSingleFsa_cases near_traversers fsa query n greedy h with h1 | ⟨s, h1⟩
      · rw [h1] at hm; injection hm with hm; exact Or.inl hm.symm
      · rw [h1] at hm; injection hm with hm
        right
        rw [← hm]
        exact ⟨_, rfl, near_comparable_no_dead_end fsa s (query.drop n) 0 hf.1 hf.2⟩
    · rcases FromMulipleFsas_cases near_traversers fsas query n greedy h with h1 | ⟨ps, hps, h1⟩
      · rw [h1] at hm; injection hm with hm; exact Or.inl hm.symm
      · rw [h1] at hm; injection hm with hm
        right
        rw [← hm]
        have hent := FilterWithExactPrefix_entries fsas query n h ps hps
        exact ⟨_, rfl, near_zip_no_dead_end (query.drop n) ps (fun e he => (hent e he).2)
          (fun e he => hfs e.1 (hent e he).1)⟩
  rw [NextMatch_calls_succ]
  rcases hmain with hd | ⟨t, ht, hn⟩
  · rw [hd, NextMatch_calls_default]
    rfl
  · obtain ⟨s, hs, hsn⟩ := NextMatch_calls_no_dead_end k m t ht hn
    exact NextMatch_empty_in_place _ s hs hsn he

theorem Automata.TryWalkTransition_ne_zero (f : Automata) (hf : f.well_formed)
    (t : Nat × Nat × Nat) (ht : t ∈ f.transitions) : f.TryWalkTransition t.1 t.2.1 ≠ 0 := by
  unfold Automata.TryWalkTransition
  cases hfind : f.transitions.find? (fun x => x.1 == t.1 && x.2.1 == t.2.1) with
  | none =>
    have := List.find?_eq_none.mp hfind t ht
    simp at this
  | some x =>
    exact (hf.1 x (List.mem_of_find?_eq_some hfind)).2

theorem Automata.mem_labels_of (f : Automata) (state c : Nat) :
    c ∈ f.labels_of state ↔ ∃ t ∈ f.transitions, t.1 = state ∧ t.2.1 = c := by
  unfold Automata.labels_of
  rw [(List.perm_insertionSort _ _).mem_iff]
  simp only [List.mem_map, List.mem_filter, beq_iff_eq]
  constructor
  · rintro ⟨t, ⟨h1, h2⟩, h3⟩; exact ⟨t, h1, h2, h3⟩
  · rintro ⟨t, h1, h2, h3⟩; exact ⟨t, ⟨h1, h2⟩, h3⟩

/-- On a well formed transition table the labels read off the table are the
outgoing labels. -/
theorem Automata.outgoing_labels_eq (f : Automata) (hf : f.well_formed) (state : Nat) :
    f.outgoing_labels state = f.labels_of state := by
  have hA : (f.outgoing_labels state).Pairwise (fun a b => a < b) := outgoing_labels_sorted f state
  have hmap : (f.transitions.filter (fun t => t.1 == state)).map (fun t => (t.1, t.2.1)) =
      ((f.transitions.filter (fun t => t.1 == state)).map (fun t => t.2.1)).map
        (fun c => (state, c)) := by
    rw [List.map_map]
    apply List.map_congr_left
    intro t ht
    have := (List.mem_filter.mp ht).2
    simp only [beq_iff_eq] at this
    simp [this]
  have hL : ((f.transitions.filter (fun t => t.1 == state)).map (fun t => t.2.1)).Nodup := by
    have h1 : ((f.transitions.filter (fun t => t.1 == state)).map
        (fun t => (t.1, t.2.1))).Nodup :=
      List.Nodup.sublist ((List.filter_sublist _).map _) hf.2
    rw [hmap] at h1
    exact List.Nodup.of_map _ h1
  have hB : (f.labels_of state).Nodup :=
    (List.perm_insertionSort _ _).nodup_iff.mpr hL
  have hmem : ∀ a, a ∈ f.outgoing_labels state ↔ a ∈ f.labels_of state := by
    intro a
    rw [mem_outgoing_labels, Automata.mem_labels_of]
    constructor
    · rintro ⟨_, h2⟩
      exact ⟨_, Automata.TryWalkTransition_mem f state a h2, rfl, rfl⟩
    · rintro ⟨t, h1, h2, h3⟩
      refine ⟨?_, ?_⟩
      · rw [← h3]; exact (hf.1 t h1).1
      · rw [← h2, ← h3]; exact Automata.TryWalkTransition_ne_zero f hf t h1
  have hperm : (f.outgoing_labels state).Perm (f.labels_of state) :=
    (List.perm_ext_iff_of_nodup (hA.imp (fun h => Nat.ne_of_lt h)) hB).mpr hmem
  exact List.eq_of_perm_of_sorted hperm (hA.imp (fun h => Nat.le_of_lt h))
    (List.sorted_insertionSort _ _)

theorem near_traverse_fast_eq (f : Automata) (hf : f.well_formed) (fuel : Nat) :
    ∀ (state : Nat) (path : List Nat) (payload : TraversalPayload),
      near_traverse f fuel state path payload = near_traverse_fast f fuel state path payload := by
  induction fuel with
  | zero => intro state path payload; rfl
  | succ fuel ih =>
    intro state path payload
    unfold near_traverse near_traverse_fast
    rw [Automata.outgoing_labels_eq f hf]
    simp only [ih]

/-- The driver `GetNear` over the traversers `near_traversers` computes what
`GetNear_fast` computes, for well formed transition tables and a prefix within
the query. -/
theorem GetNear_eq_fast (deleted : Automata → List Nat → Bool) (fsas : List Automata)
    (query : List Nat) (n : Nat) (greedy : Bool) (h : n ≤ query.length)
    (hf : ∀ f ∈ fsas, f.well_formed) :
    GetNear near_traversers deleted fsas query n greedy =
      GetNear_fast deleted fsas query n greedy := by
  unfold GetNear GetNear_fast FromMulipleFsas
  rw [FilterWithExactPrefix_ok _ _ _ h]
  have hent := FilterWithExactPrefix_entries fsas query n h _ (FilterWithExactPrefix_ok _ _ _ h)
  generalize fsas.filterMap (fun fsa =>
    let r := FilterWithExactPrefix.walk fsa query n n fsa.GetStartState 0
    if r.1 ≠ 0 ∧ r.2 = n then some (fsa, r.1, TraversalPayload.new (query.drop n))
    else none) = ps at hent ⊢
  have hinner : ps.map near_trace =
      ps.map (fun e => near_traverse_fast e.1 e.1.transitions.length e.2.1 [] e.2.2) := by
    apply List.map_congr_left
    intro e he
    exact near_traverse_fast_eq e.1 (hf e.1 (hent e he).1) _ _ _ _
  cases ps with
  | nil =>
    simp only [FromMulipleFsas.from_payloads, List.length_nil, if_true, List.map_nil,
      List.sum_nil, zip_merge]
    rfl
  | cons e ps =>
    have hkey : e.2.2.lookup_key = query.drop n := by
      rw [(hent e (List.mem_cons_self _ _)).2]
      rfl
    have hz : near_traversers.zip (e :: ps) =
        zip_merge (query.drop n) (((e :: ps).map near_trace).map List.length).sum
          ((e :: ps).map near_trace) := by
      have h0 : near_traversers.zip = ZipStateTraverser.new := rfl
      rw [h0]
      unfold ZipStateTraverser.new
      simp only [ZipStateTraverser.inner_eq, hkey]
    simp only [FromMulipleFsas.from_payloads, substr_from_ok _ _ h, substr_to,
      List.length_cons, Nat.succ_ne_zero, if_false]
    rw [hz, hinner]
    rfl

theorem near_test_well_formed : ∀ f ∈ [fsa_near_0, fsa_near_1], f.well_formed := by
  decide

/-- The model against the test `nearMatching`, on its two segments, before the
deletions: the query `pizzeria:u281wu88kekq` with the prefix length `12` yields
Munich 2, and with `greedy` Munich 2, Munich 4, Munich 1 and Munich 3; the query
`pizzeria:u0vu7u8bmmzq` with the prefix length `14` yields `pizzeria:u0vu7uqfyqkg`
with the value of the second segment. -/
theorem GetNear_test :
    (GetNear near_traversers (fun _ _ => false) [fsa_near_0, fsa_near_1] near_query 12 false).map
        (fun r => (r.matched_item, r.state_value)) =
      [(pizzeria ++ [50, 56, 49, 119, 117, 56, 98, 109, 109, 122, 113], 2)] ∧
    (GetNear near_traversers (fun _ _ => false) [fsa_near_0, fsa_near_1] near_query 12 true).map
        (fun r => (r.matched_item, r.state_value)) =
      [(pizzeria ++ [50, 56, 49, 119, 117, 56, 98, 109, 109, 122, 113], 2),
        (pizzeria ++ [50, 56, 49, 55, 117, 113, 102, 121, 113, 107, 103], 4),
        (pizzeria ++ [50, 56, 49, 122, 55, 104, 102, 118, 122, 113, 57], 1),
        (pizzeria ++ [50, 56, 100, 98, 56, 109, 109, 122, 106, 49, 116], 3)] ∧
    (GetNear near_traversers (fun _ _ => false) [fsa_near_0, fsa_near_1]
        (pizzeria ++ [48, 118, 117, 55, 117, 56, 98, 109, 109, 122, 113]) 14 false).map
        (fun r => (r.matched_item, r.state_value)) =
      [(pizzeria ++ [48, 118, 117, 55, 117, 113, 102, 121, 113, 107, 103], 11)] := by
  rewrite [GetNear_eq_fast _ _ _ _ _ (by decide) near_test_well_formed,
    GetNear_eq_fast _ _ _ _ _ (by decide) near_test_well_formed,
    GetNear_eq_fast _ _ _ _ _ (by decide) near_test_well_formed]
  decide

/-- The model against the test `nearMatching` after the deletions: the query
`pizzeria:u281wu88kekq` with the prefix length `12` yields Munich 4 and Munich 1,
with and without `greedy`; Munich 2, deleted in the first segment, is stepped
over and sets no lock. The query `pizzeria:u0vu7u8bmmzq` with the prefix length
`14` yields nothing, its one candidate being deleted in the second segment,
which masks the first. -/
theorem GetNear_test_deleted :
    (GetNear near_traversers near_deleted [fsa_near_0, fsa_near_1] near_query 12 false).map
        (fun r => (r.matched_item, r.state_value)) =
      [(pizzeria ++ [50, 56, 49, 55, 117, 113, 102, 121, 113, 107, 103], 4),
        (pizzeria ++ [50, 56, 49, 122, 55, 104, 102, 118, 122, 113, 57], 1)] ∧
    (GetNear near_traversers near_deleted [fsa_near_0, fsa_near_1] near_query 12 true).map
        (fun r => (r.matched_item, r.state_value)) =
      [(pizzeria ++ [50, 56, 49, 55, 117, 113, 102, 121, 113, 107, 103], 4),
        (pizzeria ++ [50, 56, 49, 122, 55, 104, 102, 118, 122, 113, 57], 1)] ∧
    GetNear near_traversers near_deleted [fsa_near_0, fsa_near_1]
        (pizzeria ++ [48, 118, 117, 55, 117, 56, 98, 109, 109, 122, 113]) 14 false = [] := by
  rewrite [GetNear_eq_fast _ _ _ _ _ (by decide) near_test_well_formed,
    GetNear_eq_fast _ _ _ _ _ (by decide) near_test_well_formed,
    GetNear_eq_fast _ _ _ _ _ (by decide) near_test_well_formed]
  decide

end keyvi
